import Mathlib

/-!
# Verification of the agenda-podcast/newsroom clip-planning and render pipeline

Shallow embedding, in Lean 4, of the parts of the repository that the
frozen claims are about:

* `scripts/video_podcast/sources.py` — query planning, sensitive-term
  filtering, asset deduplication;
* `scripts/video_podcast/render_video_podcast_impl.py` — the one-pass
  segment assembly in `render_episode` and its verification gate;
* `scripts/video_podcast/ffmpeg_progress.py` — the encoder execution
  supervisor (`run_ffmpeg_with_progress`);
* `scripts/video_podcast/clips_cache.py` — `sprinkle_positions`.

Modelling conventions, used throughout:

* Python floats are modelled as exact rationals (`ℚ`).  All float
  literals that occur in the embedded code (`0.0005`, `0.1`, `0.01`,
  `0.25`, tolerances, durations) are written as the corresponding
  rationals.
* Python strings are Lean `String`s; the character-class predicates
  (`isWordChar`, whitespace, lower-casing) follow Python's behaviour on
  ASCII text (the source files declare themselves ASCII-only).
* Side effects (downloads, probing, subprocesses) are modelled by
  oracles supplied as explicit inputs: an asset record carries the
  outcome that the download/probe calls would produce for it, the
  supervisor takes the stream of progress events as a list.
* `raise` is modelled with `Except String`; the distinct Python
  exception messages are kept.
-/

namespace Newsroom

/-! ## sources.py: `dedupe_assets` (claim C7)

Source: `scripts/video_podcast/sources.py`, lines 404-418.

```python
def dedupe_assets(assets):
    seen = {}
    out = []
    for a in assets:
        key = "%s:%s" % (a.get("source"), a.get("asset_id"))
        tier = int(a.get("tier") or 3)
        if key in seen:
            prev_i = seen[key]
            prev_tier = int(out[prev_i].get("tier") or 3)
            if tier < prev_tier:
                out[prev_i] = a
            continue
        seen[key] = len(out)
        out.append(a)
    return out
```

An asset dict is modelled by the fields `dedupe_assets` reads (`source`,
`asset_id`, `tier`) plus a representative payload field (`author`), so
that distinct entries with the same key and tier remain distinguishable,
as they are in Python.
-/

structure Asset where
  source : String
  asset_id : String
  tier : Int
  author : String
deriving DecidableEq, Repr, Inhabited

/-- `"%s:%s" % (a.get("source"), a.get("asset_id"))` -/
def Asset.key (a : Asset) : String := a.source ++ ":" ++ a.asset_id

/-- `int(a.get("tier") or 3)`: a falsy tier (0) falls back to 3.
(In this model the `tier` field is always present; `None` does not arise.) -/
def Asset.pyTier (a : Asset) : Int := if a.tier = 0 then 3 else a.tier

/-- One iteration of the `for a in assets` loop.  The state is the pair
`(out, seen)`; the Python dict `seen` is modelled as an association list
(each key is inserted at most once, so lookup order is irrelevant). -/
def dedupeStep (st : List Asset × List (String × Nat)) (a : Asset) :
    List Asset × List (String × Nat) :=
  match st.2.find? (fun kv => kv.1 = a.key) with
  | some kv =>
      -- `key in seen`: maybe replace the previously kept entry in place
      if a.pyTier < ((st.1.getD kv.2 default).pyTier) then
        (st.1.set kv.2 a, st.2)
      else st
  | none =>
      (st.1 ++ [a], st.2 ++ [(a.key, st.1.length)])

/-- `dedupe_assets` (sources.py lines 404-418). -/
def dedupe_assets (assets : List Asset) : List Asset :=
  (assets.foldl dedupeStep ([], [])).1

/-! Specification-side description of `dedupe_assets`, used to state and
prove claim C7: keys are kept in first-occurrence order, and for each
key the retained entry is the earliest one achieving the minimal
(effective) tier. -/

/-- First-occurrence deduplication of a list (keeps the first copy of
each element, in order). -/
def dedupFirst {α : Type} [DecidableEq α] : List α → List α
  | [] => []
  | a :: l => a :: dedupFirst (l.filter (fun x => x ≠ a))
termination_by l => l.length
decreasing_by
  simp only [List.length_cons]
  exact Nat.lt_succ_of_le (l.length_filter_le _)

/-- The entry `dedupe_assets` retains for key `k`: the earliest entry
with key `k` whose `pyTier` is strictly smaller than every earlier
candidate's. -/
def bestFor (assets : List Asset) (k : String) : Asset :=
  match assets.filter (fun a => a.key = k) with
  | [] => default
  | c :: cs => cs.foldl (fun b a => if a.pyTier < b.pyTier then a else b) c

/-- The canonical description of the result. -/
def dedupeSpec (assets : List Asset) : List Asset :=
  (dedupFirst (assets.map Asset.key)).map (bestFor assets)

/-- The `seen` dict after processing a prefix `p`: each retained key,
mapped to its position in `out`, in insertion order. -/
def seenSpec (p : List Asset) : List (String × Nat) :=
  (dedupFirst (p.map Asset.key)).enum.map (fun ik => (ik.2, ik.1))

section DedupeLemmas

variable {α : Type} [DecidableEq α]

theorem dedupFirst_append_singleton (l : List α) (x : α) :
    dedupFirst (l ++ [x]) =
      if x ∈ l then dedupFirst l else dedupFirst l ++ [x] := by
  suffices h : ∀ (n : Nat) (l : List α), l.length ≤ n →
      dedupFirst (l ++ [x]) =
        if x ∈ l then dedupFirst l else dedupFirst l ++ [x] from
    h l.length l le_rfl
  intro n
  induction n with
  | zero =>
    intro l hl
    rw [List.length_eq_zero.mp (Nat.le_zero.mp hl)]
    simp [dedupFirst]
  | succ n ih =>
    intro l hl
    cases l with
    | nil => simp [dedupFirst]
    | cons a t =>
      by_cases hxa : x = a
      · subst hxa
        simp [dedupFirst, List.filter_append, List.filter_cons,
          List.mem_cons]
      · have hfl : (t.filter (fun y => y ≠ a)).length ≤ n := by
          simp only [List.length_cons] at hl
          exact le_trans (t.length_filter_le _) (Nat.lt_succ_iff.mp
            (Nat.lt_of_lt_of_le (Nat.lt_succ_self _) hl))
        have ihf := ih (t.filter (fun y => y ≠ a)) hfl
        have hxf : (x ∈ t.filter (fun y => y ≠ a)) ↔ x ∈ t := by
          simp [List.mem_filter, hxa]
        simp only [List.cons_append, dedupFirst, List.filter_append,
          List.filter_cons]
        rw [if_pos (by simpa using hxa)]
        simp only [List.filter_nil]
        by_cases hxt : x ∈ t
        · rw [ihf, if_pos (hxf.mpr hxt),
            if_pos (List.mem_cons.mpr (Or.inr hxt))]
        · rw [ihf, if_neg (fun h => hxt (hxf.mp h)), if_neg (by
            intro h
            rcases List.mem_cons.mp h with h | h
            · exact hxa h
            · exact hxt h)]

theorem mem_dedupFirst {x : α} {l : List α} : x ∈ dedupFirst l ↔ x ∈ l := by
  suffices h : ∀ (n : Nat) (l : List α), l.length ≤ n →
      (x ∈ dedupFirst l ↔ x ∈ l) from h l.length l le_rfl
  intro n
  induction n with
  | zero =>
    intro l hl
    rw [List.length_eq_zero.mp (Nat.le_zero.mp hl)]
    simp [dedupFirst]
  | succ n ih =>
    intro l hl
    cases l with
    | nil => simp [dedupFirst]
    | cons a t =>
      have hfl : (t.filter (fun y => y ≠ a)).length ≤ n := by
        simp only [List.length_cons] at hl
        exact le_trans (t.length_filter_le _) (Nat.succ_le_succ_iff.mp hl)
      have ihf := ih (t.filter (fun y => y ≠ a)) hfl
      simp only [dedupFirst, List.mem_cons, ihf, List.mem_filter,
        decide_eq_true_eq]
      constructor
      · rintro (h | ⟨h, _⟩)
        · exact Or.inl h
        · exact Or.inr h
      · rintro (h | h)
        · exact Or.inl h
        · by_cases hxa : x = a
          · exact Or.inl hxa
          · exact Or.inr ⟨h, hxa⟩

theorem nodup_dedupFirst (l : List α) : (dedupFirst l).Nodup := by
  suffices h : ∀ (n : Nat) (l : List α), l.length ≤ n →
      (dedupFirst l).Nodup from h l.length l le_rfl
  intro n
  induction n with
  | zero =>
    intro l hl
    rw [List.length_eq_zero.mp (Nat.le_zero.mp hl)]
    simp [dedupFirst]
  | succ n ih =>
    intro l hl
    cases l with
    | nil => simp [dedupFirst]
    | cons a t =>
      have hfl : (t.filter (fun y => y ≠ a)).length ≤ n := by
        simp only [List.length_cons] at hl
        exact le_trans (t.length_filter_le _) (Nat.succ_le_succ_iff.mp hl)
      have ihf := ih (t.filter (fun y => y ≠ a)) hfl
      simp only [dedupFirst, List.nodup_cons]
      refine ⟨fun hmem => ?_, ihf⟩
      have := mem_dedupFirst.mp hmem
      simp [List.mem_filter] at this

theorem dedupFirst_middle_mem {k : α} (u v : List α) (hk : k ∈ u) :
    dedupFirst (u ++ k :: v) = dedupFirst (u ++ v) := by
  suffices h : ∀ (n : Nat) (u v : List α), u.length ≤ n → k ∈ u →
      dedupFirst (u ++ k :: v) = dedupFirst (u ++ v) from
    h u.length u v le_rfl hk
  intro n
  induction n with
  | zero =>
    intro u v hl hk
    rw [List.length_eq_zero.mp (Nat.le_zero.mp hl)] at hk
    simp at hk
  | succ n ih =>
    intro u v hl hk
    cases u with
    | nil => simp at hk
    | cons a t =>
      by_cases hka : k = a
      · subst hka
        simp [dedupFirst, List.filter_append, List.filter_cons]
      · have hkt : k ∈ t := by
          rcases List.mem_cons.mp hk with h | h
          · exact absurd h hka
          · exact h
        have hfl : (t.filter (fun y => y ≠ a)).length ≤ n := by
          simp only [List.length_cons] at hl
          exact le_trans (t.length_filter_le _) (Nat.succ_le_succ_iff.mp hl)
        have hkf : k ∈ t.filter (fun y => y ≠ a) := by
          simp [List.mem_filter, hkt, hka]
        have ihf := ih (t.filter (fun y => y ≠ a))
          (v.filter (fun y => y ≠ a)) hfl hkf
        simp only [List.cons_append, dedupFirst, List.filter_append,
          List.filter_cons]
        rw [if_pos (by simpa using hka)]
        simp only [List.filter_append] at ihf
        rw [ihf]

end DedupeLemmas

theorem find?_seenSpec (ks : List String) (k : String) (n : Nat) :
    ((ks.enumFrom n).map (fun ik => (ik.2, ik.1))).find?
        (fun kv => kv.1 = k) =
      if k ∈ ks then some (k, n + ks.indexOf k) else none := by
  induction ks generalizing n with
  | nil => simp
  | cons a t ih =>
    simp only [List.enumFrom, List.map_cons, List.find?]
    by_cases hak : a = k
    · subst hak
      simp [List.indexOf_cons_self]
    · have hdec : (decide ((a, n).1 = k)) = false := by simpa using hak
      simp only [hdec]
      rw [ih (n + 1)]
      by_cases hkt : k ∈ t
      · rw [if_pos hkt, if_pos (List.mem_cons.mpr (Or.inr hkt))]
        have hidx : List.indexOf k (a :: t) = List.indexOf k t + 1 := by
          rw [List.indexOf_cons_ne _ hak]
        rw [hidx]
        have : n + 1 + List.indexOf k t = n + (List.indexOf k t + 1) := by
          omega
        rw [this]
      · rw [if_neg hkt, if_neg (by
          intro h
          rcases List.mem_cons.mp h with h | h
          · exact hak h.symm
          · exact hkt h)]

theorem filter_key_eq_nil {k : String} {l : List Asset}
    (h : k ∉ l.map Asset.key) : l.filter (fun a => a.key = k) = [] := by
  rw [List.filter_eq_nil_iff]
  intro a ha hk
  exact h (List.mem_map.mpr ⟨a, ha, by simpa using hk⟩)

theorem foldlMin_mem (c : Asset) (cs : List Asset) :
    cs.foldl (fun b a => if a.pyTier < b.pyTier then a else b) c ∈ c :: cs := by
  induction cs generalizing c with
  | nil => simp
  | cons d ds ih =>
    simp only [List.foldl_cons]
    rcases List.mem_cons.mp (ih (if d.pyTier < c.pyTier then d else c)) with h | h
    · rw [h]
      by_cases hdc : d.pyTier < c.pyTier
      · simp only [if_pos hdc]
        exact List.mem_cons.mpr (Or.inr (List.mem_cons.mpr (Or.inl rfl)))
      · simp only [if_neg hdc]
        exact List.mem_cons.mpr (Or.inl rfl)
    · exact List.mem_cons.mpr (Or.inr (List.mem_cons.mpr (Or.inr h)))

theorem key_bestFor {k : String} {p : List Asset}
    (h : k ∈ p.map Asset.key) : (bestFor p k).key = k := by
  rcases List.mem_map.mp h with ⟨a, ha, hk⟩
  have hmem : a ∈ p.filter (fun b => b.key = k) := by
    simp [List.mem_filter, ha, hk]
  unfold bestFor
  cases hfil : p.filter (fun b => b.key = k) with
  | nil => rw [hfil] at hmem; simp at hmem
  | cons c cs =>
    have := foldlMin_mem c cs
    have hin : cs.foldl (fun b a => if a.pyTier < b.pyTier then a else b) c
        ∈ p.filter (fun b => b.key = k) := by rw [hfil]; exact this
    have := List.mem_filter.mp hin
    simpa using this.2

theorem bestFor_append_ne {k : String} (p : List Asset) (a : Asset)
    (h : k ≠ a.key) : bestFor (p ++ [a]) k = bestFor p k := by
  unfold bestFor
  rw [List.filter_append]
  have hne : ¬ a.key = k := fun hh => h hh.symm
  have hfil : [a].filter (fun b => b.key = k) = [] := by simp [hne]
  rw [hfil, List.append_nil]

theorem bestFor_append_self_new (p : List Asset) (a : Asset)
    (h : a.key ∉ p.map Asset.key) : bestFor (p ++ [a]) a.key = a := by
  unfold bestFor
  rw [List.filter_append, filter_key_eq_nil h]
  simp

theorem bestFor_append_self_old (p : List Asset) (a : Asset)
    (h : a.key ∈ p.map Asset.key) :
    bestFor (p ++ [a]) a.key =
      if a.pyTier < (bestFor p a.key).pyTier then a else bestFor p a.key := by
  unfold bestFor
  rw [List.filter_append]
  have ha : [a].filter (fun b => b.key = a.key) = [a] := by simp
  rw [ha]
  cases hfil : p.filter (fun b => b.key = a.key) with
  | nil =>
    exfalso
    rcases List.mem_map.mp h with ⟨b, hb, hk⟩
    have : b ∈ p.filter (fun c => c.key = a.key) := by
      simp [List.mem_filter, hb, hk]
    rw [hfil] at this
    simp at this
  | cons c cs =>
    simp [List.foldl_append]

theorem indexOf_append_self {α : Type} [DecidableEq α] {a : α}
    (l₁ l₂ : List α) (h : a ∉ l₁) :
    (l₁ ++ a :: l₂).indexOf a = l₁.length := by
  induction l₁ with
  | nil => simp [List.indexOf_cons_self]
  | cons b t ih =>
    have hba : ¬ b = a := fun hh => h (hh ▸ List.mem_cons_self b t)
    have hat : a ∉ t := fun hh => h (List.mem_cons.mpr (Or.inr hh))
    simp only [List.cons_append, List.length_cons]
    rw [List.indexOf_cons_ne _ hba, ih hat]

theorem set_append_length {α : Type} (l₁ l₂ : List α) (b a : α) :
    (l₁ ++ b :: l₂).set l₁.length a = l₁ ++ a :: l₂ := by
  induction l₁ with
  | nil => simp
  | cons c t ih => simp [ih]

theorem getD_append_length {α : Type} [Inhabited α] (l₁ l₂ : List α)
    (b : α) : (l₁ ++ b :: l₂).getD l₁.length default = b := by
  induction l₁ with
  | nil => simp
  | cons c t ih => simpa using ih

theorem enumFrom_append_singleton {α : Type} (n : Nat) (l : List α) (x : α) :
    List.enumFrom n (l ++ [x]) = List.enumFrom n l ++ [(n + l.length, x)] := by
  induction l generalizing n with
  | nil => simp
  | cons a t ih =>
    have hnat : n + 1 + t.length = n + (t.length + 1) := by omega
    simp only [List.cons_append, List.enumFrom, List.length_cons,
      List.append_eq]
    rw [ih, hnat]

/-- The `(out, seen)` pair after processing any prefix is exactly
`(dedupeSpec p, seenSpec p)`. -/
theorem dedupe_foldl_eq_spec (assets : List Asset) :
    assets.foldl dedupeStep ([], []) = (dedupeSpec assets, seenSpec assets) := by
  induction assets using List.reverseRecOn with
  | nil => simp [dedupeSpec, seenSpec, dedupFirst]
  | append_singleton p a ih =>
    rw [List.foldl_append, ih]
    simp only [List.foldl_cons, List.foldl_nil]
    have hks : (p ++ [a]).map Asset.key = p.map Asset.key ++ [a.key] := by
      simp
    have henum : (seenSpec p).find? (fun kv => kv.1 = a.key) =
        if a.key ∈ dedupFirst (p.map Asset.key) then
          some (a.key, (dedupFirst (p.map Asset.key)).indexOf a.key)
        else none := by
      unfold seenSpec
      rw [show (dedupFirst (p.map Asset.key)).enum =
        (dedupFirst (p.map Asset.key)).enumFrom 0 from rfl]
      rw [find?_seenSpec]
      simp
    by_cases hmem : a.key ∈ p.map Asset.key
    · -- `key in seen`
      have hmemd : a.key ∈ dedupFirst (p.map Asset.key) :=
        mem_dedupFirst.mpr hmem
      have hkeys : dedupFirst ((p ++ [a]).map Asset.key) =
          dedupFirst (p.map Asset.key) := by
        rw [hks, dedupFirst_append_singleton, if_pos hmem]
      have hnd : (dedupFirst (p.map Asset.key)).Nodup := nodup_dedupFirst _
      obtain ⟨ks₁, ks₂, hdecomp⟩ := List.append_of_mem hmemd
      rw [hdecomp] at hnd
      obtain ⟨hnd1, hnd2, hdisj⟩ := List.nodup_append.mp hnd
      have hnotin1 : a.key ∉ ks₁ := fun hh =>
        hdisj hh (List.mem_cons_self _ _)
      have hnotin2 : a.key ∉ ks₂ := (List.nodup_cons.mp hnd2).1
      have hidxval : (dedupFirst (p.map Asset.key)).indexOf a.key =
          ks₁.length := by
        rw [hdecomp]
        exact indexOf_append_self ks₁ ks₂ hnotin1
      unfold dedupeStep
      rw [henum, if_pos hmemd]
      simp only []
      have hgetD : (dedupeSpec p).getD
          ((dedupFirst (p.map Asset.key)).indexOf a.key) default =
          bestFor p a.key := by
        unfold dedupeSpec
        rw [hidxval, hdecomp, List.map_append, List.map_cons]
        rw [show ks₁.length = (ks₁.map (bestFor p)).length by simp]
        exact getD_append_length _ _ _
      rw [hgetD]
      have hseen : seenSpec (p ++ [a]) = seenSpec p := by
        unfold seenSpec
        rw [hkeys]
      by_cases hlt : a.pyTier < (bestFor p a.key).pyTier
      · rw [if_pos hlt]
        refine Prod.ext ?_ hseen.symm
        simp only []
        unfold dedupeSpec
        rw [hkeys, hidxval, hdecomp, List.map_append, List.map_cons]
        rw [show ks₁.length = (ks₁.map (bestFor p)).length by simp]
        rw [set_append_length]
        rw [List.map_append, List.map_cons]
        congr 1
        · apply List.map_congr_left
          intro k hk
          have hka : k ≠ a.key := fun hh => hnotin1 (hh ▸ hk)
          rw [bestFor_append_ne p a hka]
        · congr 1
          · rw [bestFor_append_self_old p a hmem, if_pos hlt]
          · apply List.map_congr_left
            intro k hk
            have hka : k ≠ a.key := fun hh => hnotin2 (hh ▸ hk)
            rw [bestFor_append_ne p a hka]
      · rw [if_neg hlt]
        refine Prod.ext ?_ hseen.symm
        simp only []
        unfold dedupeSpec
        rw [hkeys]
        apply List.map_congr_left
        intro k hk
        by_cases hka : k = a.key
        · rw [hka, bestFor_append_self_old p a hmem, if_neg hlt]
        · rw [bestFor_append_ne p a hka]
    · -- new key: append
      have hmemd : a.key ∉ dedupFirst (p.map Asset.key) := by
        intro h
        exact hmem (mem_dedupFirst.mp h)
      have hkeys : dedupFirst ((p ++ [a]).map Asset.key) =
          dedupFirst (p.map Asset.key) ++ [a.key] := by
        rw [hks, dedupFirst_append_singleton, if_neg hmem]
      unfold dedupeStep
      rw [henum, if_neg hmemd]
      simp only []
      refine Prod.ext ?_ ?_
      · unfold dedupeSpec
        rw [hkeys]
        simp only [List.map_append, List.map_cons, List.map_nil]
        congr 1
        · apply List.map_congr_left
          intro k hk
          have hkp : k ∈ p.map Asset.key := mem_dedupFirst.mp hk
          have hka : k ≠ a.key := fun h => hmem (h ▸ hkp)
          rw [bestFor_append_ne p a hka]
        · rw [bestFor_append_self_new p a hmem]
      · unfold seenSpec
        rw [hkeys]
        simp only []
        rw [show (dedupFirst (List.map Asset.key p) ++ [a.key]).enum =
          (dedupFirst (List.map Asset.key p) ++ [a.key]).enumFrom 0 from rfl]
        rw [enumFrom_append_singleton]
        simp only [List.map_append, List.enumFrom, List.map_cons,
          List.map_nil, Nat.zero_add]
        congr 2
        unfold dedupeSpec
        simp

/-- `dedupe_assets` equals its canonical description. -/
theorem dedupe_assets_eq_spec (assets : List Asset) :
    dedupe_assets assets = dedupeSpec assets := by
  unfold dedupe_assets
  rw [dedupe_foldl_eq_spec]

theorem map_key_dedupe_assets (assets : List Asset) :
    (dedupe_assets assets).map Asset.key = dedupFirst (assets.map Asset.key) := by
  rw [dedupe_assets_eq_spec]
  unfold dedupeSpec
  rw [List.map_map]
  conv_rhs => rw [← List.map_id (dedupFirst (assets.map Asset.key))]
  apply List.map_congr_left
  intro k hk
  simpa using key_bestFor (mem_dedupFirst.mp hk)

/-- C7: In every `dedupe_assets` result each `(source, asset_id)` key
occurs exactly once, with the keys in first-occurrence order (entries with
distinct keys keep their original relative order).  When the input holds
exactly two entries with the same key and different (effective) tiers,
the retained entry is the lower-tier one, and it sits at the position of
the first occurrence of the key: the result is the same as deduplicating
the list with the winner substituted at the first occurrence and the
duplicate removed. -/
theorem C7_dedupe_assets :
    (∀ assets : List Asset, ((dedupe_assets assets).map Asset.key).Nodup)
    ∧ (∀ assets : List Asset,
        (dedupe_assets assets).map Asset.key =
          dedupFirst (assets.map Asset.key))
    ∧ (∀ (pre mid post : List Asset) (x y : Asset),
        x.key = y.key →
        x.key ∉ (pre ++ mid ++ post).map Asset.key →
        x.pyTier ≠ y.pyTier →
        dedupe_assets (pre ++ x :: mid ++ y :: post) =
          dedupe_assets
            (pre ++ (if y.pyTier < x.pyTier then y else x) :: (mid ++ post))) := by
  refine ⟨?_, ?_, ?_⟩
  · intro assets
    rw [map_key_dedupe_assets]
    exact nodup_dedupFirst _
  · exact map_key_dedupe_assets
  · intro pre mid post x y hxy hnot hne
    simp only [List.map_append, List.mem_append] at hnot
    push_neg at hnot
    obtain ⟨⟨hpre, hmid⟩, hpost⟩ := hnot
    have hfpre := filter_key_eq_nil (k := x.key) hpre
    have hfmid := filter_key_eq_nil (k := x.key) hmid
    have hfpost := filter_key_eq_nil (k := x.key) hpost
    have hkey_w : (if y.pyTier < x.pyTier then y else x).key = x.key := by
      by_cases h : y.pyTier < x.pyTier
      · rw [if_pos h, ← hxy]
      · rw [if_neg h]
    have hkeys : dedupFirst ((pre ++ x :: mid ++ y :: post).map Asset.key) =
        dedupFirst ((pre ++ (if y.pyTier < x.pyTier then y else x) ::
          (mid ++ post)).map Asset.key) := by
      simp only [List.map_append, List.map_cons]
      rw [hkey_w, ← hxy]
      have hmemu : x.key ∈
          pre.map Asset.key ++ x.key :: mid.map Asset.key := by
        simp
      have := dedupFirst_middle_mem
        (pre.map Asset.key ++ x.key :: mid.map Asset.key)
        (post.map Asset.key) hmemu
      simpa [List.append_assoc, List.cons_append] using this
    have hbest : ∀ k, bestFor (pre ++ x :: mid ++ y :: post) k =
        bestFor (pre ++ (if y.pyTier < x.pyTier then y else x) ::
          (mid ++ post)) k := by
      intro k
      by_cases hk : k = x.key
      · subst hk
        unfold bestFor
        have hfL1 : (pre ++ x :: mid ++ y :: post).filter
            (fun a => a.key = x.key) = [x, y] := by
          simp only [List.filter_append, List.filter_cons, hfpre, hfmid,
            hfpost]
          simp [← hxy]
        have hfL2 : (pre ++ (if y.pyTier < x.pyTier then y else x) ::
            (mid ++ post)).filter (fun a => a.key = x.key) =
            [if y.pyTier < x.pyTier then y else x] := by
          simp only [List.filter_append, List.filter_cons, hfpre, hfmid,
            hfpost]
          simp [hkey_w]
        rw [hfL1, hfL2]
        simp
      · have hky : ¬ (y.key = k) := by rw [← hxy]; exact fun h => hk h.symm
        have hkx : ¬ (x.key = k) := fun h => hk h.symm
        have hkw : ¬ ((if y.pyTier < x.pyTier then y else x).key = k) := by
          rw [hkey_w]; exact hkx
        unfold bestFor
        have hfL1 : (pre ++ x :: mid ++ y :: post).filter
            (fun a => a.key = k) =
            pre.filter (fun a => a.key = k) ++
              (mid.filter (fun a => a.key = k) ++
                post.filter (fun a => a.key = k)) := by
          simp [List.filter_append, List.filter_cons, hkx, hky]
        have hfL2 : (pre ++ (if y.pyTier < x.pyTier then y else x) ::
            (mid ++ post)).filter (fun a => a.key = k) =
            pre.filter (fun a => a.key = k) ++
              (mid.filter (fun a => a.key = k) ++
                post.filter (fun a => a.key = k)) := by
          simp [List.filter_append, List.filter_cons, hkw]
        rw [hfL1, hfL2]
    rw [dedupe_assets_eq_spec, dedupe_assets_eq_spec]
    unfold dedupeSpec
    rw [hkeys]
    exact List.map_congr_left (fun k _ => hbest k)

/-- Witness for C7: a concrete two-entry duplicate with tiers 2 and 1. -/
theorem C7_dedupe_assets_witness :
    (Asset.key ⟨"pexels", "1", 2, "A"⟩ = Asset.key ⟨"pexels", "1", 1, "B"⟩)
    ∧ dedupe_assets ([] ++ (⟨"pexels", "1", 2, "A"⟩ : Asset) :: [] ++
        (⟨"pexels", "1", 1, "B"⟩ : Asset) :: []) =
      dedupe_assets ([] ++
        (if (Asset.pyTier ⟨"pexels", "1", 1, "B"⟩) <
            (Asset.pyTier ⟨"pexels", "1", 2, "A"⟩) then
          (⟨"pexels", "1", 1, "B"⟩ : Asset) else ⟨"pexels", "1", 2, "A"⟩) ::
        ([] ++ [])) := by
  refine ⟨by decide, ?_⟩
  exact C7_dedupe_assets.2.2 [] [] [] ⟨"pexels", "1", 2, "A"⟩
    ⟨"pexels", "1", 1, "B"⟩ (by decide) (by decide) (by decide)

/-! ## clips_cache.py: `sprinkle_positions` (claim C10)

Source: `scripts/video_podcast/clips_cache.py`, lines 29-78.  The
per-episode `rng` is modelled by an arbitrary choice stream
`s : Nat → Nat`: call number `i` of `rng.randint(lo, hi)` returns
`lo + s i % (hi - lo + 1)`, which ranges over exactly the values a
`random.Random` instance can return, so quantifying over `s` quantifies
over every generator state.  `float` arithmetic on `n_total / n_generic`
is modelled with exact rationals; for the verified instance
`n_total = 10, n_generic = 3` the IEEE-754 doubles round to the same
integers (`round(10/3) = 3`, `round(20/3) = 7`, `round(3 * (10/3)) = 10`)
as the rationals do, so the bucket bounds agree with CPython. -/

/-- Python `round` on a non-negative value (banker's rounding:
round half to even). -/
def pyRound (q : ℚ) : Int :=
  let f : Int := ⌊q⌋
  if q - f < 1/2 then f
  else if q - f > 1/2 then f + 1
  else if f % 2 = 0 then f else f + 1

/-- `rng.randint(lo, hi)` (both bounds inclusive), fed by the choice
stream `s` at call index `i`. -/
def randint (s : Nat → Nat) (i : Nat) (lo hi : Int) : Int :=
  lo + (s i : Int) % (hi - lo + 1)

/-- The collision-resolution scan
`for d in range(1, n_total): ...` inside `sprinkle_positions`. -/
def findAltGo (used : List Int) (n_total : Int) (cand : Int) :
    List Int → Int
  | [] => cand
  | d :: ds =>
    if cand + d < n_total ∧ (cand + d) ∉ used then cand + d
    else if cand - d ≥ 0 ∧ (cand - d) ∉ used then cand - d
    else findAltGo used n_total cand ds

def findAlt (used : List Int) (n_total : Int) (cand : Int) : Int :=
  findAltGo used n_total cand
    ((List.range (n_total.toNat - 1)).map (fun d => (d : Int) + 1))

/-- One iteration of the bucket-picking loop (`for i in range(n_generic)`).
State: `(picks, used)`; the Python `set` is membership-only, modelled
as a list. -/
def sprinkleStep (n_total : Int) (bucket : ℚ) (s : Nat → Nat)
    (st : List Int × List Int) (i : Nat) : List Int × List Int :=
  let lo0 := pyRound ((i : ℚ) * bucket)
  let hi0 := pyRound (((i : ℚ) + 1) * bucket) - 1
  let lo := if lo0 < 0 then 0 else lo0
  let hi1 := if hi0 ≥ n_total then n_total - 1 else hi0
  let hi := if hi1 < lo then lo else hi1
  let cand0 := if hi > lo then randint s i lo hi else lo
  let cand := if cand0 ∈ st.2 then findAlt st.2 n_total cand0 else cand0
  (st.1 ++ [cand], cand :: st.2)

/-- One iteration of the adjacency-adjustment loop (`for p in picks`). -/
def adjustStep (n_total : Int) (st : List Int × List Int) (p : Int) :
    List Int × List Int :=
  let cand :=
    if st.1 ≠ [] ∧ p = st.1.getLastD 0 + 1 then
      if p + 1 < n_total ∧ (p + 1) ∉ st.2 then p + 1
      else if p - 1 ≥ 0 ∧ (p - 1) ∉ st.2 then p - 1
      else p
    else p
  (st.1 ++ [cand], cand :: st.2)

/-- `picks.sort()`, the adjacency pass, `adjusted.sort()`, `return`. -/
def sprinkleFinish (n_total : Int) (picks : List Int) : List Int :=
  let sorted := picks.insertionSort (fun a b => a ≤ b)
  let adjusted := (sorted.foldl (adjustStep n_total) ([], [])).1
  adjusted.insertionSort (fun a b => a ≤ b)

/-- `sprinkle_positions` (clips_cache.py lines 29-78). -/
def sprinkle_positions (n_total n_generic : Int) (s : Nat → Nat) :
    List Int :=
  if n_total ≤ 0 ∨ n_generic ≤ 0 then []
  else if n_generic ≥ n_total then
    (List.range n_total.toNat).map (fun k => (k : Int))
  else
    sprinkleFinish n_total
      (((List.range n_generic.toNat).foldl
        (sprinkleStep n_total ((n_total : ℚ) / (n_generic : ℚ)) s)
        ([], [])).1)

/-- C10: for every generator state, `sprinkle_positions(10, 3, rng)`
returns exactly 3 pairwise-distinct, strictly increasing integers in
`[0, 9]` with no two of them adjacent (`a + 1 < b` for every pair in
order). -/
theorem C10_sprinkle_positions (s : Nat → Nat) :
    (sprinkle_positions 10 3 s).length = 3 ∧
    (sprinkle_positions 10 3 s).Pairwise (fun a b => a + 1 < b) ∧
    ∀ x ∈ sprinkle_positions 10 3 s, 0 ≤ x ∧ x ≤ 9 := by
  have ha0 : (0:Int) ≤ (s 0 : Int) % 3 := Int.emod_nonneg _ (by norm_num)
  have ha2 : (s 0 : Int) % 3 < 3 := Int.emod_lt_of_pos _ (by norm_num)
  have hb0 : (0:Int) ≤ (s 1 : Int) % 4 := Int.emod_nonneg _ (by norm_num)
  have hb2 : (s 1 : Int) % 4 < 4 := Int.emod_lt_of_pos _ (by norm_num)
  have hc0 : (0:Int) ≤ (s 2 : Int) % 3 := Int.emod_nonneg _ (by norm_num)
  have hc2 : (s 2 : Int) % 3 < 3 := Int.emod_lt_of_pos _ (by norm_num)
  have hstep0 : sprinkleStep 10 ((10:ℚ)/3) s ([], []) 0 =
      ([(s 0 : Int) % 3], [(s 0 : Int) % 3]) := by
    unfold sprinkleStep randint
    norm_num [pyRound]
  have hstep1 : sprinkleStep 10 ((10:ℚ)/3) s
      ([(s 0 : Int) % 3], [(s 0 : Int) % 3]) 1 =
      ([(s 0 : Int) % 3, 3 + (s 1 : Int) % 4],
        [3 + (s 1 : Int) % 4, (s 0 : Int) % 3]) := by
    have hne : (3 + (s 1 : Int) % 4) ∉ [(s 0 : Int) % 3] := by
      simp only [List.mem_singleton]
      omega
    unfold sprinkleStep randint
    norm_num [pyRound, hne]
    intro h
    exact absurd h (by omega)
  have hstep2 : sprinkleStep 10 ((10:ℚ)/3) s
      ([(s 0 : Int) % 3, 3 + (s 1 : Int) % 4],
        [3 + (s 1 : Int) % 4, (s 0 : Int) % 3]) 2 =
      ([(s 0 : Int) % 3, 3 + (s 1 : Int) % 4, 7 + (s 2 : Int) % 3],
        [7 + (s 2 : Int) % 3, 3 + (s 1 : Int) % 4, (s 0 : Int) % 3]) := by
    have hne : (7 + (s 2 : Int) % 3) ∉
        [3 + (s 1 : Int) % 4, (s 0 : Int) % 3] := by
      simp only [List.mem_cons, List.mem_singleton, List.not_mem_nil,
        or_false]
      push_neg
      refine ⟨?_, ?_⟩ <;> omega
    unfold sprinkleStep randint
    norm_num [pyRound, hne]
  have hmain : sprinkle_positions 10 3 s =
      sprinkleFinish 10
        [(s 0 : Int) % 3, 3 + (s 1 : Int) % 4, 7 + (s 2 : Int) % 3] := by
    unfold sprinkle_positions
    rw [if_neg (by norm_num), if_neg (by norm_num)]
    rw [show (((10:Int):ℚ) / ((3:Int):ℚ)) = ((10:ℚ)/3) by norm_num]
    rw [show ((3:Int).toNat) = 3 from rfl]
    rw [show List.range 3 = [0, 1, 2] from rfl]
    simp only [List.foldl_cons, List.foldl_nil]
    rw [hstep0, hstep1, hstep2]
  rw [hmain]
  generalize hga : (s 0 : Int) % 3 = a at ha0 ha2 ⊢
  generalize hgb : (s 1 : Int) % 4 = b at hb0 hb2 ⊢
  generalize hgc : (s 2 : Int) % 3 = c at hc0 hc2 ⊢
  interval_cases a <;> interval_cases b <;> interval_cases c <;> decide

/-! ## render_video_podcast_impl.py: the one-pass verification gate
(claim C3)

Source: `render_video_podcast_impl.py`, lines 353-366.

```python
final_dur = ffprobe_duration_sec(final_video)
# Allow tolerance for mux/container rounding (AAC + MP4) and timestamp
# quantization. In practice this can exceed 1 frame for long outputs.
target_fps = 30.0
tol = max(0.25, (2.0 / target_fps) + 0.05)
if one_pass:
    if abs(float(final_dur) - float(expected_total)) > tol:
        raise RuntimeError("final duration mismatch: ...")
    if float(final_dur) > float(expected_total) + tol:
        raise RuntimeError("final duration exceeds expected total")
```
-/

/-- The verification gate of `render_episode` for the one-pass path,
as a function of the probed duration and `expected_total`. -/
def verify_one_pass (final_dur expected_total : ℚ) : Except String Unit :=
  let tol : ℚ := max (1/4) ((2 / 30) + 1/20)
  if |final_dur - expected_total| > tol then
    Except.error "final duration mismatch"
  else if final_dur > expected_total + tol then
    Except.error "final duration exceeds expected total"
  else Except.ok ()

/-- Counterexample to C3 as stated: a probed duration that exceeds
`expected_total` by 0.2 s — more than one frame period (1/30 s) at the
30 fps target — is accepted by the gate without raising. -/
theorem C3_counterexample :
    verify_one_pass (501/5) 100 = Except.ok () ∧
      |(501/5 : ℚ) - 100| > 1/30 := by
  constructor
  · unfold verify_one_pass
    rw [if_neg (by rw [max_eq_left (by norm_num)]; norm_num [abs]),
      if_neg (by rw [max_eq_left (by norm_num)]; norm_num)]
  · rw [abs_of_nonneg (by norm_num)]
    norm_num

/-- C3 (amended): the gate's tolerance is
`tol = max(0.25, 2/30 + 0.05) = 0.25 s`, not one frame period: the
render is accepted exactly when the probed duration is within 0.25 s of
`expected_total`, and any larger deviation raises a fatal error. -/
theorem C3_verify_one_pass_tolerance (f e : ℚ) :
    verify_one_pass f e = Except.ok () ↔ |f - e| ≤ 1/4 := by
  unfold verify_one_pass
  rw [show (max (1/4) ((2 / 30) + 1/20) : ℚ) = 1/4 from
    max_eq_left (by norm_num)]
  by_cases h : |f - e| > 1/4
  · rw [if_pos h]
    constructor
    · intro hc
      exact absurd hc (by simp)
    · intro hc
      exact absurd h (not_lt.mpr hc)
  · rw [if_neg h]
    have h2 : ¬ (f > e + 1/4) := by
      intro hgt
      apply h
      calc (1/4 : ℚ) < f - e := by linarith
        _ ≤ |f - e| := le_abs_self _
    rw [if_neg h2]
    constructor
    · intro _
      exact not_lt.mp h
    · intro _
      rfl

/-! ## ffmpeg_progress.py: the missing `time` import (claim C2)

Source: `scripts/video_podcast/ffmpeg_progress.py`.  The module's
only imported names are (lines 3-9): `annotations` (future), `select`,
`subprocess`, `threading`, `deque` (collections) and the `typing`
names `Any, Deque, Dict, List, Optional, Tuple`.

`time` is never imported, yet line 41 executes `start_ts = time.time()`
— before `subprocess.Popen` is reached at line 88.  Separately, the
non-zero-exit path (line 268) evaluates `stderr_tail[-50:]` where
`stderr_tail` is a `collections.deque`; CPython's `deque.__getitem__`
accepts only integer indexes and raises `TypeError` for a slice. -/

inductive PyErr where
  | nameError (n : String)
  | typeError (msg : String)
  | indexError (msg : String)
deriving DecidableEq, Repr

/-- The global names bound in the `ffmpeg_progress` module: its imports
(lines 3-9) and its own top-level definition.  `time` is absent. -/
def ffmpeg_progress_globals : List String :=
  ["annotations", "select", "subprocess", "threading", "deque",
   "Any", "Deque", "Dict", "List", "Optional", "Tuple",
   "run_ffmpeg_with_progress"]

/-- Python global-name resolution: a name not bound in the module's
globals raises `NameError`. -/
def resolveGlobal (names : List String) (n : String) : Except PyErr Unit :=
  if n ∈ names then Except.ok () else Except.error (PyErr.nameError n)

/-- Python `list.insert(i, x)`. -/
def pyInsertAt (l : List String) (i : Nat) (x : String) : List String :=
  l.take i ++ x :: l.drop i

/-- Lines 35-40 of `run_ffmpeg_with_progress`: build `cmd2` from `cmd`
by inserting `-progress pipe:1` and `-nostats` when absent. -/
def cmd2_of (cmd : List String) : List String :=
  let c1 := if "-progress" ∈ cmd then cmd
    else pyInsertAt (pyInsertAt cmd 1 "-progress") 2 "pipe:1"
  if "-nostats" ∈ c1 then c1 else pyInsertAt c1 1 "-nostats"

/-- The execution prefix of `run_ffmpeg_with_progress` up to the point
where the encoder subprocess would be spawned (`subprocess.Popen`,
line 88).  The result pairs the outcome with a flag saying whether the
spawn point was reached.  Line 41, `start_ts = time.time()`, resolves
the global name `time` before anything is spawned. -/
def run_ffmpeg_with_progress_entry (cmd : List String)
    (_expected_total_sec : ℚ) (_target_fps : Int) (_timeout_sec : ℚ) :
    Except PyErr Unit × Bool :=
  let _cmd2 := cmd2_of cmd
  match resolveGlobal ffmpeg_progress_globals "time" with
  | Except.error e => (Except.error e, false)
  | Except.ok () => (Except.ok (), true)

/-- An index passed to `deque.__getitem__`: an integer or a slice. -/
inductive DequeIndex where
  | int (i : Int)
  | slice (lo hi : Option Int)

/-- CPython `collections.deque.__getitem__`: integer indexing only; a
slice argument (such as `stderr_tail[-50:]` on line 268) raises
`TypeError`. -/
def deque_getitem (d : List String) : DequeIndex → Except PyErr String
  | DequeIndex.int i =>
    let j : Int := if i < 0 then (d.length : Int) + i else i
    if 0 ≤ j ∧ j < (d.length : Int) then Except.ok (d.getD j.toNat "")
    else Except.error (PyErr.indexError "deque index out of range")
  | DequeIndex.slice _ _ =>
    Except.error (PyErr.typeError "sequence index must be integer, not slice")

/-- C2: every invocation of `run_ffmpeg_with_progress` raises a
`NameError` for `time` before the encoder subprocess is spawned, so no
invocation can complete normally; additionally, slicing the
`stderr_tail` deque — as the non-zero-exit path does — raises
`TypeError`. -/
theorem C2_run_ffmpeg_with_progress_raises :
    (∀ (cmd : List String) (expected_total_sec : ℚ) (target_fps : Int)
        (timeout_sec : ℚ),
      run_ffmpeg_with_progress_entry cmd expected_total_sec target_fps
          timeout_sec =
        (Except.error (PyErr.nameError "time"), false))
    ∧ (∀ (d : List String) (lo hi : Option Int),
        deque_getitem d (DequeIndex.slice lo hi) =
          Except.error
            (PyErr.typeError "sequence index must be integer, not slice")) := by
  constructor
  · intro cmd expected_total_sec target_fps timeout_sec
    rfl
  · intro d lo hi
    rfl

/-! ## render_video_podcast_impl.py: one-pass segment assembly
(claims C1, C5, C6)

Source: `render_video_podcast_impl.py`, lines 167-288, within
`render_episode`.  The `picks` list passed in is the shuffled Tier-1
pool (`rng.shuffle(picks)` at line 170): quantifying over an arbitrary
`picks` order covers every shuffle outcome.  Each asset carries the
outcome its download/probe calls would produce: `exc` models any
exception inside the `try` block (download failure, probe failure),
`width`/`height` the result of `ffprobe_video_dims`, and `file_dur` the
result of `ffprobe_duration_sec`.  Provenance/logging structures
(`duration_log`, `prov`) do not feed back into the segments and are not
modelled. -/

structure SrcAsset where
  source : String
  asset_id : String
  exc : Bool
  width : Int
  height : Int
  file_dur : ℚ
deriving DecidableEq, Repr, Inhabited

structure Segment where
  path : String
  start_sec : ℚ
  dur_sec : ℚ
deriving DecidableEq, Repr, Inhabited

def MIN_ASSET_SEC : ℚ := 16

/-- `src_path = raw_dir / ("%s-%s.mp4" % (a["source"], a["asset_id"]))`
with the per-episode directory prefix elided. -/
def SrcAsset.srcPath (a : SrcAsset) : String :=
  a.source ++ "-" ++ a.asset_id ++ ".mp4"

def segSum (l : List Segment) : ℚ := (l.map Segment.dur_sec).sum

/-- The asset considered during attempt number `attempts`:
`a = picks[attempts % len(picks)]`. -/
def pickAt (picks : List SrcAsset) (attempts : Nat) : SrcAsset :=
  picks.getD (attempts % picks.length) default

/-- The acquisition loop (lines 177-230):
`while d_sum < audio_dur and attempts < max_attempts`.  The fuel is the
number of remaining attempts, `max_attempts - attempts`; each iteration
increments `attempts`, so the loop structure is recursion on that
difference. -/
def acquireGo (picks : List SrcAsset) (audio_dur : ℚ) :
    Nat → Nat → List Segment → ℚ → List Segment × ℚ
  | 0, _, segments, d_sum => (segments, d_sum)
  | fuel + 1, attempts, segments, d_sum =>
    if d_sum < audio_dur then
      if (pickAt picks attempts).exc then
        acquireGo picks audio_dur fuel (attempts + 1) segments d_sum
      else if (pickAt picks attempts).width ≠ 0 ∧
          (pickAt picks attempts).height ≠ 0 ∧
          (pickAt picks attempts).width < (pickAt picks attempts).height then
        -- `if w and h and w < h:` — vertical asset rejected
        acquireGo picks audio_dur fuel (attempts + 1) segments d_sum
      else if (pickAt picks attempts).file_dur < MIN_ASSET_SEC then
        acquireGo picks audio_dur fuel (attempts + 1) segments d_sum
      else
        acquireGo picks audio_dur fuel (attempts + 1)
          (segments ++ [⟨(pickAt picks attempts).srcPath, 0,
            (pickAt picks attempts).file_dur⟩])
          (d_sum + (pickAt picks attempts).file_dur)
    else (segments, d_sum)

/-- The repetition loop (lines 232-264): `while d_sum < audio_dur`,
appending a copy of `segments[rep_i % len(segments)]`.  The Python loop
terminates whenever the stored durations are positive; the explicit
`fuel` makes the model total and exhausting it is reported as an error,
so nothing conditioned on successful completion is affected. -/
def repeatGo (audio_dur : ℚ) :
    Nat → Nat → List Segment → ℚ → Except String (List Segment × ℚ)
  | 0, _, segments, d_sum =>
    if d_sum < audio_dur then Except.error "repeat loop fuel exhausted"
    else Except.ok (segments, d_sum)
  | fuel + 1, rep_i, segments, d_sum =>
    if d_sum < audio_dur then
      repeatGo audio_dur fuel (rep_i + 1)
        (segments ++
          [⟨(segments.getD (rep_i % segments.length) default).path,
            (segments.getD (rep_i % segments.length) default).start_sec,
            (segments.getD (rep_i % segments.length) default).dur_sec⟩])
        (d_sum + (segments.getD (rep_i % segments.length) default).dur_sec)
    else Except.ok (segments, d_sum)

/-- The final consistency gate (lines 287-288):
`if not segments or abs(float(d_sum) - float(audio_dur)) > 0.01`. -/
def finalCheck (segs : List Segment) (d audio_dur : ℚ) :
    Except String (List Segment) :=
  if segs = [] ∨ |d - audio_dur| > 1/100 then
    Except.error "failed to build segments matching audio duration"
  else Except.ok segs

/-- Lines 266-288: trim the last clip (in place, leaving every other
segment untouched) so that the cumulative duration matches the audio
duration, then run `finalCheck`.  After a trim the code sets
`d_sum = float(audio_dur)`. -/
def trimAndCheck (segments : List Segment) (d_sum audio_dur : ℚ) :
    Except String (List Segment) :=
  if segments ≠ [] then
    if d_sum - audio_dur > 1/2000 then
      if (segments.getLastD default).dur_sec - (d_sum - audio_dur) < 1/10 then
        Except.error "last clip too short after trim"
      else
        finalCheck
          (segments.dropLast ++
            [{ segments.getLastD default with
                dur_sec :=
                  (segments.getLastD default).dur_sec - (d_sum - audio_dur) }])
          audio_dur audio_dur
    else finalCheck segments d_sum audio_dur
  else finalCheck segments d_sum audio_dur

/-- One-pass segment assembly of `render_episode` (lines 167-288) for
an already-shuffled Tier-1 pool `picks`. -/
def assembleOnePass (picks : List SrcAsset) (audio_dur : ℚ) (fuel : Nat) :
    Except String (List Segment) :=
  if picks = [] then Except.error "no Tier-1 assets found"
  else
    match (if (acquireGo picks audio_dur ((max 1 picks.length) * 5) 0 [] 0).2
              < audio_dur ∧
            (acquireGo picks audio_dur ((max 1 picks.length) * 5) 0 [] 0).1
              ≠ [] then
            repeatGo audio_dur fuel 0
              (acquireGo picks audio_dur ((max 1 picks.length) * 5) 0 [] 0).1
              (acquireGo picks audio_dur ((max 1 picks.length) * 5) 0 [] 0).2
          else
            Except.ok
              (acquireGo picks audio_dur ((max 1 picks.length) * 5) 0 [] 0)) with
    | Except.error e => Except.error e
    | Except.ok (segments, d_sum) => trimAndCheck segments d_sum audio_dur

theorem segSum_append (l₁ l₂ : List Segment) :
    segSum (l₁ ++ l₂) = segSum l₁ + segSum l₂ := by
  simp [segSum]

theorem getLastD_eq_getLast {l : List Segment} (h : l ≠ []) :
    l.getLastD default = l.getLast h := by
  rw [List.getLastD_eq_getLast?, List.getLast?_eq_getLast _ h]
  rfl

theorem dropLast_append_getLastD {l : List Segment} (h : l ≠ []) :
    l.dropLast ++ [l.getLastD default] = l := by
  rw [getLastD_eq_getLast h]
  exact List.dropLast_append_getLast h

theorem getLastD_concat (l : List Segment) (x : Segment) :
    (l ++ [x]).getLastD default = x := by
  have hne : l ++ [x] ≠ [] := by simp
  rw [getLastD_eq_getLast hne]
  simp

theorem getLastD_mem {l : List Segment} (h : l ≠ []) :
    l.getLastD default ∈ l := by
  rw [getLastD_eq_getLast h]
  exact List.getLast_mem h

/-- Invariant of the acquisition loop: the running total equals the sum
of the collected durations, and every collected segment's duration is at
least `MIN_ASSET_SEC` (clips shorter than 16 s are skipped). -/
theorem acquireGo_inv (picks : List SrcAsset) (audio_dur : ℚ) :
    ∀ (fuel attempts : Nat) (segs : List Segment) (d : ℚ),
      d = segSum segs → (∀ s ∈ segs, MIN_ASSET_SEC ≤ s.dur_sec) →
      (acquireGo picks audio_dur fuel attempts segs d).2 =
          segSum (acquireGo picks audio_dur fuel attempts segs d).1 ∧
        ∀ s ∈ (acquireGo picks audio_dur fuel attempts segs d).1,
          MIN_ASSET_SEC ≤ s.dur_sec := by
  intro fuel
  induction fuel with
  | zero =>
    intro attempts segs d hd hmin
    exact ⟨hd, hmin⟩
  | succ n ih =>
    intro attempts segs d hd hmin
    rw [acquireGo]
    by_cases h1 : d < audio_dur
    · rw [if_pos h1]
      by_cases h2 : (pickAt picks attempts).exc
      · rw [if_pos h2]
        exact ih _ _ _ hd hmin
      · rw [if_neg h2]
        by_cases h3 : (pickAt picks attempts).width ≠ 0 ∧
            (pickAt picks attempts).height ≠ 0 ∧
            (pickAt picks attempts).width < (pickAt picks attempts).height
        · rw [if_pos h3]
          exact ih _ _ _ hd hmin
        · rw [if_neg h3]
          by_cases h4 : (pickAt picks attempts).file_dur < MIN_ASSET_SEC
          · rw [if_pos h4]
            exact ih _ _ _ hd hmin
          · rw [if_neg h4]
            apply ih
            · rw [segSum_append, ← hd]
              simp [segSum]
            · intro s hs
              rcases List.mem_append.mp hs with h | h
              · exact hmin s h
              · rcases List.mem_singleton.mp h with rfl
                exact not_lt.mp h4
    · rw [if_neg h1]
      exact ⟨hd, hmin⟩

/-- Invariant of the repetition loop: on success the segment list is
nonempty, the total equals the sum of durations, every duration is at
least `MIN_ASSET_SEC`, and the total has reached the audio duration. -/
theorem repeatGo_inv (audio_dur : ℚ) :
    ∀ (fuel rep_i : Nat) (segs : List Segment) (d : ℚ)
      (res : List Segment × ℚ),
      segs ≠ [] → d = segSum segs →
      (∀ s ∈ segs, MIN_ASSET_SEC ≤ s.dur_sec) →
      repeatGo audio_dur fuel rep_i segs d = Except.ok res →
      res.1 ≠ [] ∧ res.2 = segSum res.1 ∧
        (∀ s ∈ res.1, MIN_ASSET_SEC ≤ s.dur_sec) ∧ audio_dur ≤ res.2 := by
  intro fuel
  induction fuel with
  | zero =>
    intro rep_i segs d res hne hd hmin hok
    rw [repeatGo] at hok
    by_cases h1 : d < audio_dur
    · rw [if_pos h1] at hok
      exact absurd hok (by simp)
    · rw [if_neg h1] at hok
      obtain rfl : (segs, d) = res := Except.ok.inj hok
      exact ⟨hne, hd, hmin, not_lt.mp h1⟩
  | succ n ih =>
    intro rep_i segs d res hne hd hmin hok
    rw [repeatGo] at hok
    by_cases h1 : d < audio_dur
    · rw [if_pos h1] at hok
      have hlen : 0 < segs.length := List.length_pos.mpr hne
      have hlt : rep_i % segs.length < segs.length := Nat.mod_lt _ hlen
      have hmem : segs.getD (rep_i % segs.length) default ∈ segs := by
        rw [List.getD_eq_getElem _ _ hlt]
        exact List.getElem_mem hlt
      apply ih (rep_i + 1) _ _ res ?_ ?_ ?_ hok
      · simp
      · rw [segSum_append, ← hd]
        simp [segSum]
      · intro s hs
        rcases List.mem_append.mp hs with h | h
        · exact hmin s h
        · rcases List.mem_singleton.mp h with rfl
          exact hmin _ hmem
    · rw [if_neg h1] at hok
      obtain rfl : (segs, d) = res := Except.ok.inj hok
      exact ⟨hne, hd, hmin, not_lt.mp h1⟩

/-- Behaviour of the trim-and-check phase on a state reached with a
total at or above the audio duration. -/
theorem trimAndCheck_ok (segs : List Segment) (d audio_dur : ℚ)
    (res : List Segment)
    (hne : segs ≠ []) (hd : d = segSum segs)
    (hmin : ∀ s ∈ segs, MIN_ASSET_SEC ≤ s.dur_sec)
    (hge : audio_dur ≤ d)
    (hok : trimAndCheck segs d audio_dur = Except.ok res) :
    res ≠ [] ∧ |segSum res - audio_dur| ≤ 1/2000 ∧
      1/10 ≤ (res.getLastD default).dur_sec := by
  unfold trimAndCheck at hok
  rw [if_pos hne] at hok
  by_cases h1 : d - audio_dur > 1/2000
  · rw [if_pos h1] at hok
    by_cases h2 : (segs.getLastD default).dur_sec - (d - audio_dur) < 1/10
    · rw [if_pos h2] at hok
      exact absurd hok (by simp)
    · rw [if_neg h2] at hok
      unfold finalCheck at hok
      rw [if_neg (by
        push_neg
        constructor
        · simp
        · rw [sub_self, abs_zero]
          norm_num)] at hok
      obtain rfl : _ = res := Except.ok.inj hok
      have hsplit : segSum segs =
          segSum segs.dropLast + (segs.getLastD default).dur_sec := by
        conv_lhs => rw [← dropLast_append_getLastD hne]
        rw [segSum_append]
        simp [segSum]
      refine ⟨by simp, ?_, ?_⟩
      · have hz : segSum (segs.dropLast ++
            [{ segs.getLastD default with
                dur_sec :=
                  (segs.getLastD default).dur_sec - (d - audio_dur) }]) -
              audio_dur = 0 := by
          rw [segSum_append]
          have hsing : segSum
              [{ segs.getLastD default with
                  dur_sec :=
                    (segs.getLastD default).dur_sec - (d - audio_dur) }] =
              (segs.getLastD default).dur_sec - (d - audio_dur) := by
            simp [segSum]
          rw [hsing]
          linarith [hsplit, hd]
        rw [hz, abs_zero]
        norm_num
      · rw [getLastD_concat]
        simpa using not_lt.mp h2
  · rw [if_neg h1] at hok
    unfold finalCheck at hok
    rw [if_neg (by
      push_neg
      refine ⟨hne, ?_⟩
      rw [abs_of_nonneg (by linarith)]
      linarith)] at hok
    obtain rfl : segs = res := Except.ok.inj hok
    refine ⟨hne, ?_, ?_⟩
    · rw [← hd, abs_of_nonneg (by linarith)]
      linarith
    · have := hmin _ (getLastD_mem hne)
      unfold MIN_ASSET_SEC at this
      linarith

/-- Every empty segment list is rejected by the final gate. -/
theorem trimAndCheck_nil (d audio_dur : ℚ) :
    trimAndCheck [] d audio_dur =
      Except.error "failed to build segments matching audio duration" := by
  simp [trimAndCheck, finalCheck]

/-- Trim phase, error branch: excess above 0.5 ms and a last segment
that would fall below 100 ms. -/
theorem trimAndCheck_excess_err (segments : List Segment)
    (d_sum audio_dur : ℚ) (hne : segments ≠ [])
    (h1 : d_sum - audio_dur > 1/2000)
    (h2 : (segments.getLastD default).dur_sec - (d_sum - audio_dur) < 1/10) :
    trimAndCheck segments d_sum audio_dur =
      Except.error "last clip too short after trim" := by
  unfold trimAndCheck
  rw [if_pos hne, if_pos h1, if_pos h2]

/-- Trim phase, success branch: excess above 0.5 ms and a last segment
that stays at or above 100 ms; only the last segment is modified. -/
theorem trimAndCheck_excess_ok (segments : List Segment)
    (d_sum audio_dur : ℚ) (hne : segments ≠ [])
    (h1 : d_sum - audio_dur > 1/2000)
    (h2 : 1/10 ≤ (segments.getLastD default).dur_sec - (d_sum - audio_dur)) :
    trimAndCheck segments d_sum audio_dur =
      Except.ok (segments.dropLast ++
        [{ segments.getLastD default with
            dur_sec :=
              (segments.getLastD default).dur_sec - (d_sum - audio_dur) }]) := by
  unfold trimAndCheck
  rw [if_pos hne, if_pos h1, if_neg (not_lt.mpr h2)]
  unfold finalCheck
  rw [if_neg (by
    push_neg
    constructor
    · simp
    · rw [sub_self, abs_zero]
      norm_num)]

/-- What a successful run of the full one-pass assembly guarantees. -/
theorem assembleOnePass_ok (picks : List SrcAsset) (audio_dur : ℚ)
    (fuel : Nat) (segs : List Segment)
    (hok : assembleOnePass picks audio_dur fuel = Except.ok segs) :
    segs ≠ [] ∧ |segSum segs - audio_dur| ≤ 1/2000 ∧
      1/10 ≤ (segs.getLastD default).dur_sec := by
  unfold assembleOnePass at hok
  by_cases hp : picks = []
  · rw [if_pos hp] at hok
    exact absurd hok (by simp)
  · rw [if_neg hp] at hok
    have hinv := acquireGo_inv picks audio_dur ((max 1 picks.length) * 5) 0
      [] 0 (by simp [segSum]) (by simp)
    by_cases hc :
        (acquireGo picks audio_dur ((max 1 picks.length) * 5) 0 [] 0).2
            < audio_dur ∧
          (acquireGo picks audio_dur ((max 1 picks.length) * 5) 0 [] 0).1
            ≠ []
    · rw [if_pos hc] at hok
      cases hrep : repeatGo audio_dur fuel 0
          (acquireGo picks audio_dur ((max 1 picks.length) * 5) 0 [] 0).1
          (acquireGo picks audio_dur ((max 1 picks.length) * 5) 0 [] 0).2 with
      | error e =>
        rw [hrep] at hok
        exact absurd hok (by simp)
      | ok r =>
        rw [hrep] at hok
        obtain ⟨r1, r2⟩ := r
        simp only [] at hok
        have hri := repeatGo_inv audio_dur fuel 0 _ _ (r1, r2)
          hc.2 hinv.1 hinv.2 hrep
        exact trimAndCheck_ok r1 r2 audio_dur segs hri.1 hri.2.1 hri.2.2.1
          hri.2.2.2 hok
    · rw [if_neg hc] at hok
      simp only [] at hok
      by_cases hA :
          (acquireGo picks audio_dur ((max 1 picks.length) * 5) 0 [] 0).1
            = []
      · rw [hA, trimAndCheck_nil] at hok
        exact absurd hok (by simp)
      · have hge : audio_dur ≤
            (acquireGo picks audio_dur ((max 1 picks.length) * 5) 0 [] 0).2 := by
          rcases not_and_or.mp hc with h | h
          · exact not_lt.mp h
          · exact absurd hA (by simpa using h)
        exact trimAndCheck_ok _ _ audio_dur segs hA hinv.1 hinv.2 hge hok

/-- C1: for every non-empty Tier-1 pool and positive audio duration,
when the one-pass assembly completes without raising, the produced
segment list is non-empty and its summed `dur_sec` equals the audio
duration within 1 millisecond. -/
theorem C1_assemble_duration_match (picks : List SrcAsset)
    (audio_dur : ℚ) (fuel : Nat) (segs : List Segment)
    (_hpool : picks ≠ []) (_hpos : 0 < audio_dur)
    (hok : assembleOnePass picks audio_dur fuel = Except.ok segs) :
    segs ≠ [] ∧ |segSum segs - audio_dur| ≤ 1/1000 := by
  have h := assembleOnePass_ok picks audio_dur fuel segs hok
  exact ⟨h.1, le_trans h.2.1 (by norm_num)⟩

/-- C5: when the accumulated duration exceeds the audio duration by more
than 0.5 ms, only the last segment is trimmed — the assembly raises if
the last segment would fall below 100 ms, and otherwise returns the list
with every segment but the last untouched; consequently no successful
assembly ever produces a final segment shorter than 100 ms. -/
theorem C5_trim_only_last_never_below_100ms :
    (∀ (segments : List Segment) (d_sum audio_dur : ℚ),
      segments ≠ [] → d_sum - audio_dur > 1/2000 →
      ((segments.getLastD default).dur_sec - (d_sum - audio_dur) < 1/10 →
        trimAndCheck segments d_sum audio_dur =
          Except.error "last clip too short after trim")
      ∧ (1/10 ≤ (segments.getLastD default).dur_sec - (d_sum - audio_dur) →
        trimAndCheck segments d_sum audio_dur =
          Except.ok (segments.dropLast ++
            [{ segments.getLastD default with
                dur_sec :=
                  (segments.getLastD default).dur_sec -
                    (d_sum - audio_dur) }])))
    ∧ (∀ (picks : List SrcAsset) (audio_dur : ℚ) (fuel : Nat)
          (segs : List Segment),
        assembleOnePass picks audio_dur fuel = Except.ok segs →
        segs ≠ [] ∧ 1/10 ≤ (segs.getLastD default).dur_sec) := by
  constructor
  · intro segments d_sum audio_dur hne h1
    exact ⟨trimAndCheck_excess_err segments d_sum audio_dur hne h1,
      trimAndCheck_excess_ok segments d_sum audio_dur hne h1⟩
  · intro picks audio_dur fuel segs hok
    have h := assembleOnePass_ok picks audio_dur fuel segs hok
    exact ⟨h.1, h.2.2⟩

/-! Claim C6: the concrete 47.250 s / three-asset scenario.  The three
usable landscape Tier-1 assets of the scenario: -/

def asset30 : SrcAsset := ⟨"pexels", "a30", false, 1920, 1080, 30⟩

def asset25 : SrcAsset := ⟨"pexels", "a25", false, 1920, 1080, 25⟩

def asset40 : SrcAsset := ⟨"pixabay", "a40", false, 1280, 720, 40⟩

theorem perm_pair {α : Type} {l : List α} {a b : α}
    (h : l.Perm [a, b]) : l = [a, b] ∨ l = [b, a] := by
  have hlen := h.length_eq
  match l, hlen with
  | [q0, q1], _ =>
    have hq0 : q0 ∈ [a, b] := h.subset (List.mem_cons_self _ _)
    rcases List.mem_cons.mp hq0 with rfl | hq0
    · left
      have h1 : [q1].Perm [b] := (List.perm_cons q0).mp h
      rw [List.perm_singleton.mp h1]
    · rcases List.mem_singleton.mp hq0 with rfl
      right
      have hswap : [a, q0].Perm [q0, a] := List.Perm.swap q0 a []
      have h1 : [q1].Perm [a] := (List.perm_cons q0).mp (h.trans hswap)
      rw [List.perm_singleton.mp h1]

theorem perm_triple {α : Type} {l : List α} {x y z : α}
    (h : l.Perm [x, y, z]) :
    l = [x, y, z] ∨ l = [x, z, y] ∨ l = [y, x, z] ∨ l = [y, z, x] ∨
      l = [z, x, y] ∨ l = [z, y, x] := by
  have hlen := h.length_eq
  match l, hlen with
  | [q0, q1, q2], _ =>
    have hq0 : q0 ∈ [x, y, z] := h.subset (List.mem_cons_self _ _)
    rcases List.mem_cons.mp hq0 with rfl | hq0
    · have h1 : [q1, q2].Perm [y, z] := (List.perm_cons q0).mp h
      rcases perm_pair h1 with h2 | h2 <;> rw [h2]
      · exact Or.inl rfl
      · exact Or.inr (Or.inl rfl)
    · rcases List.mem_cons.mp hq0 with rfl | hq0
      · have hswap : [x, q0, z].Perm [q0, x, z] := List.Perm.swap q0 x [z]
        have h1 : [q1, q2].Perm [x, z] :=
          (List.perm_cons q0).mp (h.trans hswap)
        rcases perm_pair h1 with h2 | h2 <;> rw [h2]
        · exact Or.inr (Or.inr (Or.inl rfl))
        · exact Or.inr (Or.inr (Or.inr (Or.inl rfl)))
      · rcases List.mem_singleton.mp hq0 with rfl
        have hmove : [x, y, q0].Perm [q0, x, y] := by
          have s1 : [x, y, q0].Perm [x, q0, y] :=
            List.Perm.cons x (List.Perm.swap q0 y [])
          have s2 : [x, q0, y].Perm [q0, x, y] := List.Perm.swap q0 x [y]
          exact s1.trans s2
        have h1 : [q1, q2].Perm [x, y] :=
          (List.perm_cons q0).mp (h.trans hmove)
        rcases perm_pair h1 with h2 | h2 <;> rw [h2]
        · exact Or.inr (Or.inr (Or.inr (Or.inr (Or.inl rfl))))
        · exact Or.inr (Or.inr (Or.inr (Or.inr (Or.inr rfl))))

/-- The generic shape behind the C6 scenario: with three usable
landscape assets in the pool and an audio duration that the first asset
alone cannot reach but the first two strictly exceed (by more than the
0.5 ms trim threshold, with the trimmed second asset staying at or
above 100 ms), the assembler takes the first two assets and trims the
second. -/
theorem assemble_two_of_three (A B C : SrcAsset) (audio : ℚ)
    (hAe : A.exc = false) (hBe : B.exc = false)
    (hAv : ¬(A.width ≠ 0 ∧ A.height ≠ 0 ∧ A.width < A.height))
    (hBv : ¬(B.width ≠ 0 ∧ B.height ≠ 0 ∧ B.width < B.height))
    (hAd : ¬(A.file_dur < MIN_ASSET_SEC))
    (hBd : ¬(B.file_dur < MIN_ASSET_SEC))
    (h0 : 0 < audio)
    (h1 : A.file_dur < audio)
    (h2 : A.file_dur + B.file_dur - audio > 1/2000)
    (h3 : 1/10 ≤ B.file_dur - (A.file_dur + B.file_dur - audio)) :
    assembleOnePass [A, B, C] audio 10 =
      Except.ok [⟨A.srcPath, 0, A.file_dur⟩,
        ⟨B.srcPath, 0, audio - A.file_dur⟩] := by
  have hacq : acquireGo [A, B, C] audio 15 0 [] 0 =
      ([⟨A.srcPath, 0, A.file_dur⟩, ⟨B.srcPath, 0, B.file_dur⟩],
        0 + A.file_dur + B.file_dur) := by
    rw [show (15:Nat) = 14 + 1 from rfl, acquireGo]
    rw [if_pos (show (0:ℚ) < audio from h0)]
    rw [show pickAt [A, B, C] 0 = A from rfl]
    rw [if_neg (by rw [hAe]; exact Bool.false_ne_true), if_neg hAv,
      if_neg hAd]
    rw [show (14:Nat) = 13 + 1 from rfl, acquireGo]
    rw [if_pos (show 0 + A.file_dur < audio by linarith)]
    rw [show pickAt [A, B, C] 1 = B from rfl]
    rw [if_neg (by rw [hBe]; exact Bool.false_ne_true), if_neg hBv,
      if_neg hBd]
    rw [show (13:Nat) = 12 + 1 from rfl, acquireGo]
    rw [if_neg (show ¬(0 + A.file_dur + B.file_dur < audio) by linarith)]
    simp
  have hfuelval : (max 1 ([A, B, C] : List SrcAsset).length) * 5 = 15 := rfl
  unfold assembleOnePass
  rw [if_neg (show ¬([A, B, C] : List SrcAsset) = [] by simp)]
  rw [hfuelval, hacq]
  rw [if_neg (by
    intro hcon
    have := hcon.1
    simp only [] at this
    linarith)]
  have htrim := trimAndCheck_excess_ok
    [⟨A.srcPath, 0, A.file_dur⟩, ⟨B.srcPath, 0, B.file_dur⟩]
    (0 + A.file_dur + B.file_dur) audio (by simp)
    (by simpa using h2)
    (by simpa using h3)
  simp only [] at htrim ⊢
  rw [htrim]
  simp
  ring

/-- Instance of `assemble_two_of_three` at audio duration 189/4 s,
phrased through the head elements of the pool, as claim C6 reads. -/
theorem c6_case (A B C : SrcAsset)
    (hAe : A.exc = false) (hBe : B.exc = false)
    (hAv : ¬(A.width ≠ 0 ∧ A.height ≠ 0 ∧ A.width < A.height))
    (hBv : ¬(B.width ≠ 0 ∧ B.height ≠ 0 ∧ B.width < B.height))
    (hAd : ¬(A.file_dur < MIN_ASSET_SEC))
    (hBd : ¬(B.file_dur < MIN_ASSET_SEC))
    (h1 : A.file_dur < 189/4)
    (h2 : A.file_dur + B.file_dur - 189/4 > 1/2000)
    (h3 : 1/10 ≤ B.file_dur - (A.file_dur + B.file_dur - 189/4)) :
    assembleOnePass [A, B, C] (189/4) 10 =
      Except.ok
        [⟨(([A, B, C] : List SrcAsset).getD 0 default).srcPath, 0,
            (([A, B, C] : List SrcAsset).getD 0 default).file_dur⟩,
          ⟨(([A, B, C] : List SrcAsset).getD 1 default).srcPath, 0,
            189/4 - (([A, B, C] : List SrcAsset).getD 0 default).file_dur⟩] ∧
    segSum
        [⟨(([A, B, C] : List SrcAsset).getD 0 default).srcPath, 0,
            (([A, B, C] : List SrcAsset).getD 0 default).file_dur⟩,
          ⟨(([A, B, C] : List SrcAsset).getD 1 default).srcPath, 0,
            189/4 - (([A, B, C] : List SrcAsset).getD 0 default).file_dur⟩]
      = 189/4 := by
  constructor
  · exact assemble_two_of_three A B C (189/4) hAe hBe hAv hBv hAd hBd
      (by norm_num) h1 h2 h3
  · show segSum [⟨A.srcPath, 0, A.file_dur⟩,
      ⟨B.srcPath, 0, 189/4 - A.file_dur⟩] = 189/4
    simp [segSum]

/-- C6: with audio duration 47.250 s and the three usable Tier-1
landscape assets of durations 30 s, 25 s and 40 s, every shuffle order
makes the assembler take the first iterated asset whole, take the second
whole (the cumulative duration then exceeding 47.25 s), trim the second
so the cumulative duration equals 47.250 s exactly, and emit exactly two
segments. -/
theorem C6_scenario_47_250 (picks : List SrcAsset)
    (hperm : picks.Perm [asset30, asset25, asset40]) :
    assembleOnePass picks (189/4) 10 =
      Except.ok
        [⟨(picks.getD 0 default).srcPath, 0,
            (picks.getD 0 default).file_dur⟩,
          ⟨(picks.getD 1 default).srcPath, 0,
            189/4 - (picks.getD 0 default).file_dur⟩] ∧
    segSum
        [⟨(picks.getD 0 default).srcPath, 0,
            (picks.getD 0 default).file_dur⟩,
          ⟨(picks.getD 1 default).srcPath, 0,
            189/4 - (picks.getD 0 default).file_dur⟩] = 189/4 := by
  rcases perm_triple hperm with h | h | h | h | h | h <;> subst h
  · exact c6_case asset30 asset25 asset40 rfl rfl
      (by norm_num [asset30]) (by norm_num [asset25])
      (by norm_num [asset30, MIN_ASSET_SEC])
      (by norm_num [asset25, MIN_ASSET_SEC])
      (by norm_num [asset30]) (by norm_num [asset30, asset25])
      (by norm_num [asset30, asset25])
  · exact c6_case asset30 asset40 asset25 rfl rfl
      (by norm_num [asset30]) (by norm_num [asset40])
      (by norm_num [asset30, MIN_ASSET_SEC])
      (by norm_num [asset40, MIN_ASSET_SEC])
      (by norm_num [asset30]) (by norm_num [asset30, asset40])
      (by norm_num [asset30, asset40])
  · exact c6_case asset25 asset30 asset40 rfl rfl
      (by norm_num [asset25]) (by norm_num [asset30])
      (by norm_num [asset25, MIN_ASSET_SEC])
      (by norm_num [asset30, MIN_ASSET_SEC])
      (by norm_num [asset25]) (by norm_num [asset25, asset30])
      (by norm_num [asset25, asset30])
  · exact c6_case asset25 asset40 asset30 rfl rfl
      (by norm_num [asset25]) (by norm_num [asset40])
      (by norm_num [asset25, MIN_ASSET_SEC])
      (by norm_num [asset40, MIN_ASSET_SEC])
      (by norm_num [asset25]) (by norm_num [asset25, asset40])
      (by norm_num [asset25, asset40])
  · exact c6_case asset40 asset30 asset25 rfl rfl
      (by norm_num [asset40]) (by norm_num [asset30])
      (by norm_num [asset40, MIN_ASSET_SEC])
      (by norm_num [asset30, MIN_ASSET_SEC])
      (by norm_num [asset40]) (by norm_num [asset40, asset30])
      (by norm_num [asset40, asset30])
  · exact c6_case asset40 asset25 asset30 rfl rfl
      (by norm_num [asset40]) (by norm_num [asset25])
      (by norm_num [asset40, MIN_ASSET_SEC])
      (by norm_num [asset25, MIN_ASSET_SEC])
      (by norm_num [asset40]) (by norm_num [asset40, asset25])
      (by norm_num [asset40, asset25])

/-- Witness for C1: a single 30 s landscape asset against a 20 s audio
track; the assembly succeeds with one segment trimmed to 20 s. -/
theorem C1_assemble_duration_match_witness :
    (([asset30] : List SrcAsset) ≠ [] ∧ (0:ℚ) < 20) ∧
    (([(⟨"pexels-a30.mp4", 0, 20⟩ : Segment)] : List Segment) ≠ [] ∧
      |segSum [(⟨"pexels-a30.mp4", 0, 20⟩ : Segment)] - 20| ≤ 1/1000) := by
  have hok : assembleOnePass [asset30] 20 0 =
      Except.ok [(⟨"pexels-a30.mp4", 0, 20⟩ : Segment)] := by
    norm_num [assembleOnePass, acquireGo, pickAt, trimAndCheck, finalCheck,
      asset30, SrcAsset.srcPath, MIN_ASSET_SEC]
    rfl
  exact ⟨⟨by simp, by norm_num⟩,
    C1_assemble_duration_match [asset30] 20 0 _ (by simp) (by norm_num) hok⟩

/-- Witness for C5: a concrete trim (one 30 s segment, total 55 s,
audio 47.25 s) and a concrete successful assembly. -/
theorem C5_trim_only_last_never_below_100ms_witness :
    (([(⟨"x", 0, 30⟩ : Segment)] : List Segment) ≠ [] ∧
      (55 : ℚ) - 189/4 > 1/2000 ∧
      trimAndCheck [(⟨"x", 0, 30⟩ : Segment)] 55 (189/4) =
        Except.ok [(⟨"x", 0, 30 - (55 - 189/4)⟩ : Segment)]) ∧
    (([(⟨"pexels-a30.mp4", 0, 20⟩ : Segment)] : List Segment) ≠ [] ∧
      (1:ℚ)/10 ≤
        ((([(⟨"pexels-a30.mp4", 0, 20⟩ : Segment)] :
          List Segment)).getLastD default).dur_sec) := by
  have hok : assembleOnePass [asset30] 20 0 =
      Except.ok [(⟨"pexels-a30.mp4", 0, 20⟩ : Segment)] := by
    norm_num [assembleOnePass, acquireGo, pickAt, trimAndCheck, finalCheck,
      asset30, SrcAsset.srcPath, MIN_ASSET_SEC]
    rfl
  have ha := (C5_trim_only_last_never_below_100ms.1
    [(⟨"x", 0, 30⟩ : Segment)] 55 (189/4) (by simp) (by norm_num)).2
    (by norm_num [List.getLastD])
  have hb := C5_trim_only_last_never_below_100ms.2 [asset30] 20 0 _ hok
  refine ⟨⟨by simp, by norm_num, ?_⟩, hb⟩
  simpa using ha

/-- Witness for C6: the identity shuffle order. -/
theorem C6_scenario_47_250_witness :
    assembleOnePass [asset30, asset25, asset40] (189/4) 10 =
      Except.ok
        [⟨(([asset30, asset25, asset40] : List SrcAsset).getD 0
              default).srcPath, 0,
            (([asset30, asset25, asset40] : List SrcAsset).getD 0
              default).file_dur⟩,
          ⟨(([asset30, asset25, asset40] : List SrcAsset).getD 1
              default).srcPath, 0,
            189/4 - (([asset30, asset25, asset40] : List SrcAsset).getD 0
              default).file_dur⟩] ∧
    segSum
        [⟨(([asset30, asset25, asset40] : List SrcAsset).getD 0
              default).srcPath, 0,
            (([asset30, asset25, asset40] : List SrcAsset).getD 0
              default).file_dur⟩,
          ⟨(([asset30, asset25, asset40] : List SrcAsset).getD 1
              default).srcPath, 0,
            189/4 - (([asset30, asset25, asset40] : List SrcAsset).getD 0
              default).file_dur⟩] = 189/4 :=
  C6_scenario_47_250 [asset30, asset25, asset40] (List.Perm.refl _)

/-! ## ffmpeg_progress.py: the supervision loop (claim C4)

Model of the progress-parsing loop of `run_ffmpeg_with_progress`
(lines 41-269), taken past the module-level missing-`time` defect
recorded in claim C2: the loop's control flow itself is embedded, with
wall-clock readings supplied by the event trace (one `now` per
iteration; the source calls `time.time()` several times per iteration
on a monotonic clock).  An event is either a `select` timeout tick
(carrying whether `p.poll()` still reports the process as running) or
one line read from the progress stream; the end of the trace is the
end-of-stream `readline() == ""` exit.  Print statements, and the
`last_hb_ts`/heartbeat bookkeeping read only by prints, are omitted;
`backward_jumps` only feeds a print as well.  On a non-zero exit code
the source raises (line 269 — in fact the tail formatting on line 268
raises `TypeError` first, see C2); either way the run fails. -/

structure SupState where
  last_out_ms : Int
  last_out_sec : ℚ
  last_progress_ts : ℚ
  last_advance_ts : ℚ
  kv : List (String × String)
deriving DecidableEq, Repr

inductive SupEv where
  | tick (now : ℚ) (running : Bool)
  | line (now : ℚ) (s : String)
deriving DecidableEq, Repr

def SupEv.now : SupEv → ℚ
  | SupEv.tick t _ => t
  | SupEv.line t _ => t

/-- `progress_kv[k] = v` on the Python dict (overwrite or append). -/
def kvSet (kv : List (String × String)) (k v : String) :
    List (String × String) :=
  if kv.any (fun p => p.1 = k) then
    kv.map (fun p => if p.1 = k then (k, v) else p)
  else kv ++ [(k, v)]

/-- `progress_kv.get(k)`. -/
def kvGet (kv : List (String × String)) (k : String) : Option String :=
  (kv.find? (fun p => p.1 = k)).map (fun p => p.2)

/-- Python `str.strip()` (no argument: strip ASCII whitespace). -/
def pyStrip (s : String) : String :=
  String.mk
    (((s.toList.dropWhile Char.isWhitespace).reverse.dropWhile
      Char.isWhitespace).reverse)

/-- `k, v = line.split("=", 1)` when `"=" in line`, else no update. -/
def splitEq (s : String) : Option (String × String) :=
  match s.toList.findIdx? (fun c => c = '=') with
  | none => none
  | some i =>
    some (String.mk (s.toList.take i), String.mk (s.toList.drop (i + 1)))

/-- Lines 188-191: strip the line and fold `k.strip(), v.strip()` into
the dict when the line contains `=`. -/
def lineKv (kv : List (String × String)) (s : String) :
    List (String × String) :=
  match splitEq (pyStrip s) with
  | some (k, v) => kvSet kv (pyStrip k) (pyStrip v)
  | none => kv

/-- Decimal digits to an integer, `int(s)` for an all-digit string. -/
def pyDigitsToNat (l : List Char) : Nat :=
  l.foldl (fun acc c => acc * 10 + (c.toNat - '0'.toNat)) 0

/-- `out_time_ms` parsing (lines 196-200): `out_ms_s.isdigit()` then
`int(out_ms_s)`. -/
def outTimeMs (kv : List (String × String)) : Option Nat :=
  let s := (kvGet kv "out_time_ms").getD ""
  if s.toList ≠ [] ∧ s.toList.all Char.isDigit then
    some (pyDigitsToNat s.toList)
  else none

/-- The runaway guard threshold (line 250):
`expected_total_sec + 2.0 + (2.0 / float(max(1, int(target_fps))))`. -/
def runawayGuard (expected_total_sec : ℚ) (target_fps : Int) : ℚ :=
  expected_total_sec + 2 + 2 / ((max 1 target_fps : Int) : ℚ)

inductive StepRes where
  | cont (st : SupState)
  | exitEnd (st : SupState)
  | exitPoll
  | fail (msg : String)
deriving DecidableEq, Repr

/-- One iteration of the `while True` loop (lines 131-264). -/
def supStep (expected_total_sec : ℚ) (target_fps : Int)
    (timeout_sec start_ts : ℚ) (st : SupState) (ev : SupEv) : StepRes :=
  if ev.now - start_ts > timeout_sec then .fail "ffmpeg timeout exceeded"
  else if ¬(st.last_out_sec ≥ expected_total_sec - 1/4) ∧
      ev.now - st.last_advance_ts ≥ 240 ∧ ev.now - start_ts ≥ 60 then
    .fail "ffmpeg stalled: out_time not advancing"
  else
    match ev with
    | SupEv.tick _ running => if running then .cont st else .exitPoll
    | SupEv.line now s =>
      if kvGet (lineKv st.kv s) "progress" = some "continue" ∨
          kvGet (lineKv st.kv s) "progress" = some "end" then
        match outTimeMs (lineKv st.kv s) with
        | some out_ms =>
          if ((out_ms : ℚ) / 1000000) >
              runawayGuard expected_total_sec target_fps then
            .fail "ffmpeg runaway duration detected"
          else if kvGet (lineKv st.kv s) "progress" = some "end" then
            .exitEnd
              { last_out_ms := (out_ms : Int),
                last_out_sec := (out_ms : ℚ) / 1000000,
                last_progress_ts := now,
                last_advance_ts :=
                  if ((out_ms : ℚ) / 1000000) > st.last_out_sec + 1/1000
                  then now else st.last_advance_ts,
                kv := [] }
          else
            .cont
              { last_out_ms := (out_ms : Int),
                last_out_sec := (out_ms : ℚ) / 1000000,
                last_progress_ts := now,
                last_advance_ts :=
                  if ((out_ms : ℚ) / 1000000) > st.last_out_sec + 1/1000
                  then now else st.last_advance_ts,
                kv := [] }
        | none =>
          if kvGet (lineKv st.kv s) "progress" = some "end" then
            .exitEnd { st with last_progress_ts := now, kv := [] }
          else .cont { st with last_progress_ts := now, kv := [] }
      else .cont { st with kv := lineKv st.kv s }

/-- `rc = p.wait()` handling (lines 266-269). -/
def rcCheck (rc : Int) : Except String Unit :=
  if rc ≠ 0 then Except.error "ffmpeg failed" else Except.ok ()

def supRun (expected_total_sec : ℚ) (target_fps : Int)
    (timeout_sec start_ts : ℚ) :
    List SupEv → SupState → Int → Except String Unit
  | [], _, rc => rcCheck rc
  | ev :: rest, st, rc =>
    match supStep expected_total_sec target_fps timeout_sec start_ts st ev with
    | StepRes.fail msg => Except.error msg
    | StepRes.exitEnd _ => rcCheck rc
    | StepRes.exitPoll => rcCheck rc
    | StepRes.cont st2 =>
      supRun expected_total_sec target_fps timeout_sec start_ts rest st2 rc

/-- The whole supervision loop, from the initial state of lines 41-49. -/
def run_ffmpeg_with_progress_loop (expected_total_sec : ℚ)
    (target_fps : Int) (timeout_sec start_ts : ℚ) (evs : List SupEv)
    (rc : Int) : Except String Unit :=
  supRun expected_total_sec target_fps timeout_sec start_ts evs
    { last_out_ms := -1, last_out_sec := -1,
      last_progress_ts := start_ts, last_advance_ts := start_ts,
      kv := [] } rc

/-- The output times of the completed progress reports the supervisor
would parse from the trace, replaying the same dict machine: collection
stops at `progress=end` or when a tick shows the process gone, exactly
where the loop stops reading. -/
def reportTimes : List SupEv → List (String × String) → List ℚ
  | [], _ => []
  | (SupEv.tick _ running) :: rest, kv =>
    if running then reportTimes rest kv else []
  | (SupEv.line _ s) :: rest, kv =>
    if kvGet (lineKv kv s) "progress" = some "continue" ∨
        kvGet (lineKv kv s) "progress" = some "end" then
      match outTimeMs (lineKv kv s) with
      | some out_ms =>
        ((out_ms : ℚ) / 1000000) ::
          (if kvGet (lineKv kv s) "progress" = some "end" then []
            else reportTimes rest [])
      | none =>
        if kvGet (lineKv kv s) "progress" = some "end" then []
        else reportTimes rest []
    else reportTimes rest (lineKv kv s)

theorem none_eq_some_str (x : String) :
    ((none : Option String) = some x) = False :=
  eq_false (fun h => Option.noConfusion h)

theorem continue_ne_end : ("continue" = "end") = False :=
  eq_false (by decide)

theorem runawayGuard_le (expected : ℚ) (fps : Int) (h : 2 ≤ fps) :
    runawayGuard expected fps ≤ expected + 3 := by
  unfold runawayGuard
  have hmax : (max 1 fps : Int) = fps := max_eq_right (by omega)
  rw [hmax]
  have hfpos : (0:ℚ) < (fps : ℚ) := by
    exact_mod_cast (by omega : (0:Int) < fps)
  have h2 : (2:ℚ) ≤ (fps:ℚ) := by exact_mod_cast h
  have hdiv : (2:ℚ) / (fps:ℚ) ≤ 1 := by
    rw [div_le_one hfpos]
    exact h2
  linarith

theorem supRun_ok_bound (expected : ℚ) (fps : Int)
    (timeout start_ts : ℚ) (hfps : 2 ≤ fps) :
    ∀ (evs : List SupEv) (st : SupState) (rc : Int),
      supRun expected fps timeout start_ts evs st rc = Except.ok () →
      ∀ q ∈ reportTimes evs st.kv, q ≤ expected + 3 := by
  intro evs
  induction evs with
  | nil =>
    intro st rc h q hq
    simp [reportTimes] at hq
  | cons ev rest ih =>
    intro st rc h q hq
    rw [supRun] at h
    by_cases ht : ev.now - start_ts > timeout
    · rw [supStep.eq_def, if_pos ht] at h
      simp at h
    · by_cases hstall : ¬(st.last_out_sec ≥ expected - 1/4) ∧
          ev.now - st.last_advance_ts ≥ 240 ∧ ev.now - start_ts ≥ 60
      · rw [supStep.eq_def, if_neg ht, if_pos hstall] at h
        simp at h
      · rw [supStep.eq_def, if_neg ht, if_neg hstall] at h
        cases ev with
        | tick now running =>
          simp only [] at h
          simp only [reportTimes] at hq
          by_cases hrun : running
          · rw [if_pos hrun] at hq
            simp only [if_pos hrun] at h
            exact ih st rc h q hq
          · rw [if_neg hrun] at hq
            simp at hq
        | line now s =>
          simp only [] at h
          simp only [reportTimes] at hq
          by_cases hp : kvGet (lineKv st.kv s) "progress" = some "continue" ∨
              kvGet (lineKv st.kv s) "progress" = some "end"
          · rw [if_pos hp] at h hq
            cases hout : outTimeMs (lineKv st.kv s) with
            | some out_ms =>
              rw [hout] at h hq
              simp only [] at h hq
              by_cases hg : ((out_ms : ℚ)/1000000) >
                  runawayGuard expected fps
              · rw [if_pos hg] at h
                simp at h
              · rw [if_neg hg] at h
                have hqb : ((out_ms : ℚ)/1000000) ≤ expected + 3 :=
                  le_trans (not_lt.mp hg) (runawayGuard_le expected fps hfps)
                by_cases hend : kvGet (lineKv st.kv s) "progress" =
                    some "end"
                · rw [if_pos hend] at h hq
                  rcases List.mem_cons.mp hq with rfl | hq2
                  · exact hqb
                  · simp at hq2
                · rw [if_neg hend] at h hq
                  rcases List.mem_cons.mp hq with rfl | hq2
                  · exact hqb
                  · exact ih _ rc h q hq2
            | none =>
              rw [hout] at h hq
              simp only [] at h hq
              by_cases hend : kvGet (lineKv st.kv s) "progress" = some "end"
              · rw [if_pos hend] at hq
                simp at hq
              · rw [if_neg hend] at h hq
                exact ih _ rc h q hq
          · rw [if_neg hp] at h hq
            simp only [] at h
            exact ih _ rc h q hq

/-- C4: at the 30 fps target (indeed for any `target_fps ≥ 2`, where the
guard threshold `expected + 2 + 2/fps` stays below `expected + 3`), a
progress report whose output time exceeds `expected_total_sec + 3`
makes the supervisor raise the runaway-duration failure at that
iteration, and a run in which such a report is ever parsed can never
return success. -/
theorem C4_runaway_guard :
    (∀ (expected_total_sec : ℚ) (target_fps : Int)
        (timeout_sec start_ts : ℚ) (evs : List SupEv) (rc : Int),
      2 ≤ target_fps →
      run_ffmpeg_with_progress_loop expected_total_sec target_fps
          timeout_sec start_ts evs rc = Except.ok () →
      ∀ q ∈ reportTimes evs [], q ≤ expected_total_sec + 3)
    ∧ (∀ (expected_total_sec : ℚ) (target_fps : Int)
        (timeout_sec start_ts : ℚ) (st : SupState) (now : ℚ) (s : String)
        (out_ms : Nat),
      2 ≤ target_fps →
      ¬(now - start_ts > timeout_sec) →
      ¬(¬(st.last_out_sec ≥ expected_total_sec - 1/4) ∧
          now - st.last_advance_ts ≥ 240 ∧ now - start_ts ≥ 60) →
      (kvGet (lineKv st.kv s) "progress" = some "continue" ∨
        kvGet (lineKv st.kv s) "progress" = some "end") →
      outTimeMs (lineKv st.kv s) = some out_ms →
      (out_ms : ℚ) / 1000000 > expected_total_sec + 3 →
      supStep expected_total_sec target_fps timeout_sec start_ts st
          (SupEv.line now s) =
        StepRes.fail "ffmpeg runaway duration detected") := by
  constructor
  · intro expected fps timeout start_ts evs rc hfps hok q hq
    exact supRun_ok_bound expected fps timeout start_ts hfps evs _ rc hok q hq
  · intro expected fps timeout start_ts st now s out_ms hfps ht hstall hp
      hout hbig
    rw [supStep.eq_def]
    rw [show (SupEv.line now s).now = now from rfl]
    rw [if_neg ht, if_neg hstall]
    simp only []
    rw [if_pos hp, hout]
    simp only []
    rw [if_pos (lt_of_le_of_lt (runawayGuard_le expected fps hfps) hbig)]

/-- Witness for C4: a concrete three-line trace that succeeds (its only
report, 5 s, is under the bound), and a concrete report of 14 s against
`expected_total = 10` that triggers the runaway failure. -/
theorem C4_runaway_guard_witness :
    ((5:ℚ) ≤ 10 + 3) ∧
    supStep 10 30 7200 0
        ⟨-1, -1, 0, 0, [("out_time_ms", "14000000")]⟩
        (SupEv.line 1 "progress=continue") =
      StepRes.fail "ffmpeg runaway duration detected" := by
  have e1 : lineKv [] "out_time_ms=5000000" =
      [("out_time_ms", "5000000")] := by decide
  have e2 : lineKv [("out_time_ms", "5000000")] "progress=continue" =
      [("out_time_ms", "5000000"), ("progress", "continue")] := by decide
  have e3 : lineKv [] "progress=end" = [("progress", "end")] := by decide
  have g1 : kvGet [("out_time_ms", "5000000")] "progress" = none := by decide
  have g2 : kvGet [("out_time_ms", "5000000"), ("progress", "continue")]
      "progress" = some "continue" := by decide
  have g3 : kvGet [("progress", "end")] "progress" = some "end" := by decide
  have o2 : outTimeMs [("out_time_ms", "5000000"),
      ("progress", "continue")] = some 5000000 := by decide
  have o3 : outTimeMs [("progress", "end")] = none := by decide
  have hok : run_ffmpeg_with_progress_loop 10 30 7200 0
      [SupEv.line 1 "out_time_ms=5000000",
        SupEv.line 1 "progress=continue",
        SupEv.line 2 "progress=end"] 0 = Except.ok () := by
    norm_num [run_ffmpeg_with_progress_loop, supRun, supStep, rcCheck,
      SupEv.now, e1, e2, e3, g1, g2, g3, o2, o3, runawayGuard,
      none_eq_some_str, continue_ne_end]
  have hrt : (5:ℚ) ∈ reportTimes
      [SupEv.line 1 "out_time_ms=5000000",
        SupEv.line 1 "progress=continue",
        SupEv.line 2 "progress=end"] [] := by
    have : reportTimes
        [SupEv.line 1 "out_time_ms=5000000",
          SupEv.line 1 "progress=continue",
          SupEv.line 2 "progress=end"] [] = [5] := by
      norm_num [reportTimes, e1, e2, e3, g1, g2, g3, o2, o3,
        none_eq_some_str, continue_ne_end]
    rw [this]
    exact List.mem_singleton.mpr rfl
  have e4 : lineKv [("out_time_ms", "14000000")] "progress=continue" =
      [("out_time_ms", "14000000"), ("progress", "continue")] := by decide
  have g4 : kvGet [("out_time_ms", "14000000"), ("progress", "continue")]
      "progress" = some "continue" := by decide
  have o4 : outTimeMs [("out_time_ms", "14000000"),
      ("progress", "continue")] = some 14000000 := by decide
  constructor
  · exact C4_runaway_guard.1 10 30 7200 0
      [SupEv.line 1 "out_time_ms=5000000",
        SupEv.line 1 "progress=continue",
        SupEv.line 2 "progress=end"] 0 (by norm_num) hok 5 hrt
  · exact C4_runaway_guard.2 10 30 7200 0
      ⟨-1, -1, 0, 0, [("out_time_ms", "14000000")]⟩ 1 "progress=continue"
      14000000 (by norm_num) (by norm_num) (by norm_num)
      (Or.inl (by rw [e4]; exact g4)) (by rw [e4]; exact o4)
      (by norm_num)

/-! ## sources.py: the query planner (claims C9 and C8)

Shared string utilities.  The source files are ASCII-only; the
character classes (`isAlphanum`, `isWhitespace`, `toLower`) model
Python's behaviour on ASCII text. -/

def pyLower (s : String) : String := String.mk (s.toList.map Char.toLower)

/-- `" ".join(parts)`. -/
def joinSpace : List String → String
  | [] => ""
  | [x] => x
  | x :: xs => x ++ " " ++ joinSpace xs

/-- Maximal runs of characters satisfying `p`, separators dropped
(structural accumulator form; `acc` holds the current run reversed). -/
def runsOfGo (p : Char → Bool) : List Char → List Char → List (List Char)
  | [], acc => if acc = [] then [] else [acc.reverse]
  | c :: cs, acc =>
    if p c then runsOfGo p cs (c :: acc)
    else if acc = [] then runsOfGo p cs []
    else acc.reverse :: runsOfGo p cs []

def runsOf (p : Char → Bool) (l : List Char) : List (List Char) :=
  runsOfGo p l []

/-- Python `str.split()` with no argument: whitespace-separated tokens,
empties dropped. -/
def pySplit (s : String) : List String :=
  (runsOf (fun c => !c.isWhitespace) s.toList).map String.mk

/-- `_normalize_spaces` (sources.py lines 60-61):
`" ".join((s or "").strip().split())`. -/
def normalize_spaces (s : String) : String :=
  joinSpace (pySplit (pyStrip s))

/-- `needle` is a prefix of `hay` (on character lists). -/
def startsWithChars : List Char → List Char → Bool
  | [], _ => true
  | _ :: _, [] => false
  | a :: as, b :: bs => a = b && startsWithChars as bs

/-- Python `needle in hay` on character lists: `needle` occurs as a
contiguous substring of `hay`. -/
def containsSub (n : List Char) : List Char → Bool
  | [] => n = []
  | c :: cs => startsWithChars n (c :: cs) || containsSub n cs

/-- `_contains_term` (lines 64-69): case-insensitive substring test;
an empty term never matches. -/
def contains_term (hay term : String) : Bool :=
  if (pyLower term).toList = [] then false
  else containsSub (pyLower term).toList (pyLower hay).toList

def SENSITIVE_TERMS : List String :=
  ["prostitution", "porn", "pornography", "sex", "sexual", "escort",
   "brothel", "nude", "nudity", "fetish", "trafficking", "onlyfans"]

/-- `_SENSITIVE_PROXY_QUERIES.get(t, [])`. -/
def SENSITIVE_PROXY_QUERIES (t : String) : List String :=
  if t = "prostitution" then
    ["city streets at night", "police patrol car lights",
     "courthouse steps", "social services office",
     "public safety community outreach", "subway station at night",
     "city skyline night", "interview microphone street"]
  else if t = "trafficking" then
    ["police investigation", "courthouse steps", "community outreach",
     "public safety"]
  else if t = "sex" then
    ["city streets at night", "courthouse steps", "public safety"]
  else if t = "porn" then
    ["computer screen blur", "internet safety", "data privacy"]
  else if t = "nude" then
    ["city skyline", "street interview"]
  else []

/-- `_detect_sensitive_terms` (lines 72-78): the fixed list is scanned
in order and the result is `sorted(set(found))`; the fixed list has no
duplicates, so this is a sort of the filtered list. -/
def detect_sensitive_terms (title desc : String) : List String :=
  (SENSITIVE_TERMS.filter
    (fun t => contains_term (title ++ " " ++ desc) t)).insertionSort
    (fun a b => a ≤ b)

/-- `_location_prefix` (lines 81-89). -/
def location_prefix' (title desc : String) : String :=
  if contains_term (title ++ " " ++ desc) "new york" ∨
      contains_term (title ++ " " ++ desc) "nyc" then "new york city"
  else if contains_term (title ++ " " ++ desc) "los angeles" ∨
      contains_term (title ++ " " ++ desc) "la " then "los angeles"
  else if contains_term (title ++ " " ++ desc) "washington dc" ∨
      contains_term (title ++ " " ++ desc) "capitol" then "washington dc"
  else ""

/-! `_clean_for_tokens` (lines 196-202): three regex substitutions and a
whitespace re-join.  The scanners below implement the regexes; each is
written with a character-count fuel so it is structural (one character
is consumed per step, so `l.length` fuel always suffices). -/

/-- A match of `http[s]?://\S+` at the head of `l`: returns the suffix
after the (greedy) match. -/
def matchHttp (l : List Char) : Option (List Char) :=
  match l with
  | 'h' :: 't' :: 't' :: 'p' :: 's' :: ':' :: '/' :: '/' :: r =>
    if r.takeWhile (fun c => ¬ c.isWhitespace) = [] then none
    else some (r.dropWhile (fun c => ¬ c.isWhitespace))
  | 'h' :: 't' :: 't' :: 'p' :: ':' :: '/' :: '/' :: r =>
    if r.takeWhile (fun c => ¬ c.isWhitespace) = [] then none
    else some (r.dropWhile (fun c => ¬ c.isWhitespace))
  | _ => none

def subHttpGo : Nat → List Char → List Char
  | 0, l => l
  | _ + 1, [] => []
  | fuel + 1, c :: cs =>
    match matchHttp (c :: cs) with
    | some rest => ' ' :: subHttpGo fuel rest
    | none => c :: subHttpGo fuel cs

/-- `re.sub(r"http[s]?://\S+", " ", t)`. -/
def subHttp (l : List Char) : List Char := subHttpGo l.length l

/-- A match of `<[^>]+>` at the head of `l`: at least one non-`>`
character before the first `>`. -/
def matchTag (l : List Char) : Option (List Char) :=
  match l with
  | '<' :: r =>
    match r.findIdx? (fun c => c = '>') with
    | some i => if 1 ≤ i then some (r.drop (i + 1)) else none
    | none => none
  | _ => none

def subTagGo : Nat → List Char → List Char
  | 0, l => l
  | _ + 1, [] => []
  | fuel + 1, c :: cs =>
    match matchTag (c :: cs) with
    | some rest => ' ' :: subTagGo fuel rest
    | none => c :: subTagGo fuel cs

/-- `re.sub(r"<[^>]+>", " ", t)`. -/
def subTag (l : List Char) : List Char := subTagGo l.length l

/-- `re.sub(r"[^a-zA-Z0-9\s]", " ", t)`. -/
def subNonAlnum (l : List Char) : List Char :=
  l.map (fun c => if c.isAlphanum ∨ c.isWhitespace then c else ' ')

/-- `_clean_for_tokens` (lines 196-202). -/
def clean_for_tokens (s : String) : String :=
  pyStrip (joinSpace (pySplit
    (String.mk (subNonAlnum (subTag (subHttp s.toList))))))

def STOP_WORDS : List String :=
  ["that", "this", "with", "from", "your", "about", "into", "have",
   "will", "they", "them", "what", "when", "where", "which", "their",
   "there", "were", "been", "also", "more", "over", "under", "than",
   "then", "very", "much", "most", "some", "just", "like", "because",
   "after", "before", "again", "today"]

/-- One sliding-window step of `_title_phrases` (lines 217-229): the
in-loop early return is equivalent to guarding each append with
`phrases.length < max_phrases`. -/
def titlePhraseStep (words : List String) (max_phrases : Nat)
    (phrases : List String) (ni : Nat × Nat) : List String :=
  let seg := (words.drop ni.2).take ni.1
  let seg_l := seg.map pyLower
  if seg_l.all (fun w => w ∈ STOP_WORDS) then phrases
  else if ni.1 - 1 ≤ (seg_l.filter (fun w => w ∈ STOP_WORDS)).length then
    phrases
  else
    let ph := pyStrip (joinSpace seg)
    if ph ≠ "" ∧ ph ∉ phrases ∧ phrases.length < max_phrases then
      phrases ++ [ph]
    else phrases

/-- `range(0, max(0, len(words) - n + 1))`. -/
def windowStarts (wordsLen n : Nat) : List Nat :=
  List.range (((wordsLen : Int) - (n : Int) + 1).toNat)

/-- `_title_phrases` (lines 205-230). -/
def title_phrases (title : String) (max_phrases : Nat) : List String :=
  let t := clean_for_tokens title
  if t = "" then []
  else
    let words := pySplit t
    (([4, 3, 2].flatMap
        (fun n => (windowStarts words.length n).map (fun i => (n, i)))).foldl
      (titlePhraseStep words max_phrases) [pyStrip title]).take max_phrases

/-- The frequency dict of `_keywords` (insertion order preserved). -/
def freqAdd (l : List (String × Nat)) (w : String) : List (String × Nat) :=
  if l.any (fun p => p.1 = w) then
    l.map (fun p => if p.1 = w then (w, p.2 + 1) else p)
  else l ++ [(w, 1)]

/-- `sorted(freq.items(), key=lambda x: (-x[1], x[0]))`: count
descending, word ascending (keys are distinct words, so the order is
total on the entries). -/
def rankRel (a b : String × Nat) : Prop :=
  b.2 < a.2 ∨ (a.2 = b.2 ∧ a.1 ≤ b.1)

instance : DecidableRel rankRel := fun a b => by
  unfold rankRel
  infer_instance

/-- `_keywords` (lines 233-249). -/
def keywords (text : String) (max_k : Nat) : List String :=
  let t := pyLower (clean_for_tokens text)
  if t = "" then []
  else
    let words := (pySplit t).filter
      (fun w => 4 ≤ w.toList.length ∧ w ∉ STOP_WORDS)
    let freq := words.foldl freqAdd []
    let ranked := freq.insertionSort rankRel
    (ranked.foldl
      (fun out wp =>
        if wp.1 ∉ out ∧ out.length < max_k then out ++ [wp.1] else out)
      []).take max_k

structure QueryItem where
  tier : Int
  query : String
deriving DecidableEq, Repr, Inhabited

/-- The final dedupe loop of `build_tiered_queries` (lines 299-315). -/
def tieredDedupStep (lp : String) (max_q : Nat)
    (st : List String × List QueryItem) (item : QueryItem) :
    List String × List QueryItem :=
  let q0 := normalize_spaces item.query
  let q := if lp ≠ "" then normalize_spaces (lp ++ " " ++ q0) else q0
  if q = "" then st
  else if pyLower q ∈ st.1 then st
  else if st.2.length < max_q then
    (st.1 ++ [pyLower q], st.2 ++ [⟨item.tier, q⟩])
  else st

/-- `build_tiered_queries` (lines 252-315). -/
def build_tiered_queries (title desc : String) (max_q : Nat)
    (lp0 : String) : List QueryItem :=
  let title := pyStrip title
  let desc := pyStrip desc
  let lp := pyStrip lp0
  let t1 := if title ≠ "" then title_phrases title 6 else []
  let kw := keywords (title ++ " " ++ desc) 10
  let t2a := kw.foldl
    (fun t2 w => if w ≠ "" ∧ w ∉ t2 then t2 ++ [w] else t2) []
  let t2 := (t1.drop 1).foldl
    (fun t2 ph => if ph ≠ "" ∧ ph ∉ t2 then t2 ++ [ph] else t2) t2a
  let t3 := ["podcast microphone", "news studio", "city skyline",
    "world map", "finance chart", "crowd street"]
  let out : List QueryItem :=
    (t1.filter (fun q => q ≠ "")).map (fun q => ⟨1, q⟩) ++
    (t2.filter (fun q => q ≠ "")).map (fun q => ⟨2, q⟩) ++
    (t3.filter (fun q => q ≠ "")).map (fun q => ⟨3, q⟩)
  (out.foldl (tieredDedupStep lp max_q) ([], [])).2

/-- C9: `build_tiered_queries("Title word word", "", max_q=12)` with no
location prefix returns a non-empty list whose first element is the
Tier-1 literal title. -/
theorem C9_build_tiered_queries_head :
    build_tiered_queries "Title word word" "" 12 "" ≠ [] ∧
    (build_tiered_queries "Title word word" "" 12 "").head? =
      some ⟨1, "Title word word"⟩ := by
  decide

/-! ### C8: `apply_sensitive_query_policy` (sources.py lines 92-172) -/

/-- Python regex word characters (`\w`): the repo is declared ASCII-only,
so letters, digits and the underscore. -/
def isWordChar (c : Char) : Bool := c.isAlphanum || c = '_'

/-- Maximal runs of characters of equal `p`-class, in order, with both
classes kept (`acc` holds the current run reversed). -/
def chunksGo (p : Char → Bool) : List Char → List Char → List (List Char)
  | [], acc => if acc = [] then [] else [acc.reverse]
  | c :: cs, acc =>
    match acc with
    | [] => chunksGo p cs [c]
    | a :: _ =>
      if p c = p a then chunksGo p cs (c :: acc)
      else acc.reverse :: chunksGo p cs [c]

def chunksBy (p : Char → Bool) (l : List Char) : List (List Char) :=
  chunksGo p l []

/-- The `p`-class of a chunk: the class of its head (`false` on `[]`). -/
def classOf (p : Char → Bool) (g : List Char) : Bool :=
  match g with
  | [] => false
  | c :: _ => p c

/-- The maximal word-character runs of a character list. -/
def wordRuns (l : List Char) : List (List Char) :=
  (chunksBy isWordChar l).filter (fun g => classOf isWordChar g)

/-- `re.sub(r"\b" + re.escape(t) + r"\b", " ", s, flags=re.IGNORECASE)`
for a non-empty term `t` consisting of word characters (every sensitive
term is such, and `re.escape` is the identity on them): a match of that
pattern is exactly a maximal word-character run of `s` equal to `t`
ignoring case, and each match is replaced by one space. -/
def subWordCI (t : String) (s : String) : String :=
  String.mk (((chunksBy isWordChar s.toList).map (fun g =>
    if classOf isWordChar g &&
        g.map Char.toLower == t.toList.map Char.toLower
    then [' '] else g)).flatten)

/-- The body of `for q in orig` (lines 112-130): the surviving filtered
text, or `none` when the query is dropped.  `qq_l` (the lowered padded
query used for the `t in qq_l` test) is computed once from the original
`qq` and not updated by the substitutions. -/
def filterQuery (found : List String) (q : String) : Option String :=
  let qq0 := " " ++ q ++ " "
  let r := found.foldl (fun (st : String × Bool) t =>
    if containsSub t.toList (pyLower qq0).toList then
      (subWordCI t st.1, true)
    else st) (qq0, false)
  let qq := normalize_spaces r.1
  if qq = "" then none
  else if r.2 = true ∧ (pySplit qq).length < 2 then none
  else some qq

/-- One step of the outer `for q in orig` loop: append to `filtered`
(with dedup) or to `dropped`. -/
def filterFoldStep (found : List String)
    (st : List String × List String) (q : String) :
    List String × List String :=
  match filterQuery found q with
  | none => (st.1, st.2 ++ [q])
  | some qq => if qq ∈ st.1 then st else (st.1 ++ [qq], st.2)

/-- Lines 109-130: the `filtered` / `dropped` fold over `orig`. -/
def filterFold (found : List String) (orig : List String) :
    List String × List String :=
  orig.foldl (filterFoldStep found) ([], [])

/-- One step of the proxy loop (lines 139-148): `st.1` plays `seen`,
`st.2` the accumulated `proxies`. -/
def proxyStep (pre : String) (st : List String × List String)
    (p : String) : List String × List String :=
  let pp0 := normalize_spaces p
  if pp0 = "" then st
  else
    let pp := if pre ≠ "" then normalize_spaces (pre ++ " " ++ pp0)
              else pp0
    if pyLower pp ∈ st.1 then st
    else (st.1 ++ [pyLower pp], st.2 ++ [pp])

/-- Lines 132-148: proxy queries with location prefixing and
case-insensitive order-preserving dedup. -/
def proxiesOf (found : List String) (pre : String) : List String :=
  if found ≠ [] then
    ((found.flatMap SENSITIVE_PROXY_QUERIES).foldl
      (proxyStep pre) ([], [])).2
  else []

/-- Lines 151-155: `combined` takes filtered queries until `max_q` is
reached; the break fires after the append, so one element is still taken
when `max_q <= 0` and the list is non-empty. -/
def combineStep (max_q : Int) (st : List String × Bool) (q : String) :
    List String × Bool :=
  if st.2 then st
  else
    let c := st.1 ++ [q]
    (c, decide (max_q ≤ (c.length : Int)))

def combineTake (max_q : Int) (l : List String) : List String :=
  (l.foldl (combineStep max_q) ([], false)).1

/-- Lines 157-161, the inner loop, with the break flag explicit: the
membership test guards the append, the break test runs either way. -/
def addProxyStep (max_q : Int) (st : List String × Bool) (p : String) :
    List String × Bool :=
  if st.2 then st
  else
    let c := if p ∈ st.1 then st.1 else st.1 ++ [p]
    (c, decide (max_q ≤ (c.length : Int)))

def addProxiesGo (max_q : Int) (ps : List String)
    (st : List String × Bool) : List String × Bool :=
  ps.foldl (addProxyStep max_q) st

/-- Lines 156-161. -/
def addProxies (max_q : Int) (c proxies : List String) : List String :=
  if (c.length : Int) < max_q then (addProxiesGo max_q proxies (c, false)).1
  else c

/-- The `policy` dict (lines 163-171). -/
structure QueryPolicy where
  sensitive_detected : Bool
  matched_terms : List String
  loc_pref : String
  queries_original : List String
  queries_filtered : List String
  queries_dropped : List String
  proxy_queries_added : List String

/-- `apply_sensitive_query_policy` (lines 92-172). -/
def apply_sensitive_query_policy (title desc : String)
    (queries : List String) (max_q : Int) :
    List String × QueryPolicy :=
  let orig := queries.filter (fun q => pyStrip q ≠ "")
  let found := detect_sensitive_terms title desc
  let pre := location_prefix' title desc
  let fd := filterFold found orig
  let proxies := proxiesOf found pre
  let combined := addProxies max_q (combineTake max_q fd.1) proxies
  (combined,
   ⟨decide (found ≠ []), found, pre, orig, combined, fd.2, proxies⟩)

/-! Chunk machinery: specification equations and structural lemmas. -/

theorem chunksGo_spec (p : Char → Bool) :
    ∀ (l acc : List Char) (b : Bool), acc ≠ [] → (∀ x ∈ acc, p x = b) →
    chunksGo p l acc =
      (acc.reverse ++ l.takeWhile (fun x => p x == b)) ::
        chunksBy p (l.dropWhile (fun x => p x == b)) := by
  intro l
  induction l with
  | nil =>
    intro acc b hne _
    simp [chunksGo, chunksBy, hne]
  | cons c cs IH =>
    intro acc b hne hu
    match acc, hne with
    | a :: as, _ =>
      have hab : p a = b := hu a (List.mem_cons_self a as)
      by_cases hc : p c = b
      · have hca : p c = p a := by rw [hab, hc]
        have h1 : chunksGo p (c :: cs) (a :: as) =
            chunksGo p cs (c :: a :: as) := by
          simp [chunksGo, hca]
        rw [h1, IH (c :: a :: as) b (by simp)
          (by
            intro x hx
            rcases List.mem_cons.mp hx with h | h
            · rw [h, hc]
            · exact hu x h)]
        simp [hc, List.takeWhile_cons, List.dropWhile_cons]
      · have hca : ¬ p c = p a := by rw [hab]; exact hc
        have h1 : chunksGo p (c :: cs) (a :: as) =
            (a :: as).reverse :: chunksGo p cs [c] := by
          simp [chunksGo, hca]
        have h2 : chunksBy p (c :: cs) = chunksGo p cs [c] := rfl
        rw [h1, ← h2]
        have hcb : (p c == b) = false := by
          simp only [beq_eq_false_iff_ne, ne_eq]; exact hc
        simp [List.takeWhile_cons, List.dropWhile_cons, hcb]

theorem chunksBy_nil (p : Char → Bool) : chunksBy p [] = [] := rfl

theorem chunksBy_cons (p : Char → Bool) (c : Char) (cs : List Char) :
    chunksBy p (c :: cs) =
      (c :: cs.takeWhile (fun x => p x == p c)) ::
        chunksBy p (cs.dropWhile (fun x => p x == p c)) := by
  have h : chunksBy p (c :: cs) = chunksGo p cs [c] := rfl
  rw [h, chunksGo_spec p cs [c] (p c) (by simp) (by simp)]
  simp

theorem chunksBy_flatten (p : Char → Bool) :
    ∀ l : List Char, (chunksBy p l).flatten = l := by
  suffices h : ∀ (n : Nat) (l : List Char), l.length ≤ n →
      (chunksBy p l).flatten = l by
    intro l; exact h l.length l le_rfl
  intro n
  induction n with
  | zero =>
    intro l hl
    have : l = [] := List.length_eq_zero.mp (Nat.le_zero.mp hl)
    simp [this, chunksBy_nil]
  | succ n IH =>
    intro l hl
    match l with
    | [] => simp [chunksBy_nil]
    | c :: cs =>
      rw [chunksBy_cons]
      have hdrop : (cs.dropWhile (fun x => p x == p c)).length ≤ n := by
        have h1 := (List.dropWhile_sublist (l := cs) (p := fun x => p x == p c)).length_le
        have h2 : cs.length ≤ n := Nat.lt_succ_iff.mp hl
        omega
      simp only [List.flatten_cons, IH _ hdrop]
      simp [List.takeWhile_append_dropWhile]

theorem chunksBy_ne_nil (p : Char → Bool) :
    ∀ (l : List Char) (g : List Char), g ∈ chunksBy p l → g ≠ [] := by
  suffices h : ∀ (n : Nat) (l : List Char), l.length ≤ n →
      ∀ g ∈ chunksBy p l, g ≠ [] by
    intro l; exact h l.length l le_rfl
  intro n
  induction n with
  | zero =>
    intro l hl
    have : l = [] := List.length_eq_zero.mp (Nat.le_zero.mp hl)
    simp [this, chunksBy_nil]
  | succ n IH =>
    intro l hl g hg
    match l with
    | [] => simp [chunksBy_nil] at hg
    | c :: cs =>
      rw [chunksBy_cons] at hg
      rcases List.mem_cons.mp hg with h | h
      · simp [h]
      · have hdrop : (cs.dropWhile (fun x => p x == p c)).length ≤ n := by
          have h1 := (List.dropWhile_sublist (l := cs) (p := fun x => p x == p c)).length_le
          have h2 : cs.length ≤ n := Nat.lt_succ_iff.mp hl
          omega
        exact IH _ hdrop g h

theorem chunksBy_uniform (p : Char → Bool) :
    ∀ (l : List Char) (g : List Char), g ∈ chunksBy p l →
      ∀ x ∈ g, p x = classOf p g := by
  suffices h : ∀ (n : Nat) (l : List Char), l.length ≤ n →
      ∀ g ∈ chunksBy p l, ∀ x ∈ g, p x = classOf p g by
    intro l; exact h l.length l le_rfl
  intro n
  induction n with
  | zero =>
    intro l hl
    have : l = [] := List.length_eq_zero.mp (Nat.le_zero.mp hl)
    simp [this, chunksBy_nil]
  | succ n IH =>
    intro l hl g hg x hx
    match l with
    | [] => simp [chunksBy_nil] at hg
    | c :: cs =>
      rw [chunksBy_cons] at hg
      rcases List.mem_cons.mp hg with h | h
      · subst h
        rcases List.mem_cons.mp hx with h | h
        · simp [h, classOf]
        · have := List.mem_takeWhile_imp h
          simp only [beq_iff_eq] at this
          simp [this, classOf]
      · have hdrop : (cs.dropWhile (fun x => p x == p c)).length ≤ n := by
          have h1 := (List.dropWhile_sublist (l := cs) (p := fun x => p x == p c)).length_le
          have h2 : cs.length ≤ n := Nat.lt_succ_iff.mp hl
          omega
        exact IH _ hdrop g h x hx

/-- The head of a `dropWhile` result fails the predicate. -/
theorem dropWhile_head_false {α : Type} (f : α → Bool) :
    ∀ (l : List α) (d : α) (ds : List α),
      l.dropWhile f = d :: ds → f d = false := by
  intro l
  induction l with
  | nil => intro d ds h; simp [List.dropWhile] at h
  | cons c cs IH =>
    intro d ds h
    by_cases hc : f c = true
    · rw [List.dropWhile_cons_of_pos hc] at h
      exact IH d ds h
    · rw [List.dropWhile_cons_of_neg hc] at h
      cases h
      exact Bool.eq_false_iff.mpr hc

theorem chunksBy_chain (p : Char → Bool) :
    ∀ l : List Char, (chunksBy p l).Chain'
      (fun g h => classOf p g ≠ classOf p h) := by
  suffices h : ∀ (n : Nat) (l : List Char), l.length ≤ n →
      (chunksBy p l).Chain' (fun g h => classOf p g ≠ classOf p h) by
    intro l; exact h l.length l le_rfl
  intro n
  induction n with
  | zero =>
    intro l hl
    have : l = [] := List.length_eq_zero.mp (Nat.le_zero.mp hl)
    simp [this, chunksBy_nil]
  | succ n IH =>
    intro l hl
    match l with
    | [] => simp [chunksBy_nil]
    | c :: cs =>
      rw [chunksBy_cons]
      have hdrop : (cs.dropWhile (fun x => p x == p c)).length ≤ n := by
        have h1 := (List.dropWhile_sublist (l := cs) (p := fun x => p x == p c)).length_le
        have h2 : cs.length ≤ n := Nat.lt_succ_iff.mp hl
        omega
      rw [List.chain'_cons']
      refine ⟨?_, IH _ hdrop⟩
      intro g hg
      match hd : cs.dropWhile (fun x => p x == p c) with
      | [] => rw [hd] at hg; simp [chunksBy_nil] at hg
      | d :: ds =>
        rw [hd, chunksBy_cons] at hg
        have hgd : g = d :: ds.takeWhile (fun x => p x == p d) := by
          have := hg; simpa using this.symm
        have hpd : (p d == p c) = false := dropWhile_head_false _ cs d ds hd
        have : ¬ p d = p c := by simpa using hpd
        rw [hgd]
        simp only [classOf]
        exact fun heq => this heq.symm

/-- A non-empty uniform list is a single chunk. -/
theorem chunksBy_single (p : Char → Bool) (g : List Char) (b : Bool)
    (hne : g ≠ []) (hu : ∀ x ∈ g, p x = b) : chunksBy p g = [g] := by
  match g, hne with
  | c :: cs, _ =>
    rw [chunksBy_cons]
    have htake : cs.takeWhile (fun x => p x == p c) = cs := by
      apply List.takeWhile_eq_self_iff.mpr
      intro x hx
      have h1 : p x = b := hu x (List.mem_cons_of_mem c hx)
      have h2 : p c = b := hu c (List.mem_cons_self c cs)
      simp [h1, h2]
    have hdrop : cs.dropWhile (fun x => p x == p c) = [] := by
      apply List.dropWhile_eq_nil_iff.mpr
      intro x hx
      have h1 : p x = b := hu x (List.mem_cons_of_mem c hx)
      have h2 : p c = b := hu c (List.mem_cons_self c cs)
      simp [h1, h2]
    rw [htake, hdrop, chunksBy_nil]

theorem takeWhile_append_not_nil {α : Type} (f : α → Bool) :
    ∀ (a b : List α), a.dropWhile f ≠ [] →
      (a ++ b).takeWhile f = a.takeWhile f ∧
      (a ++ b).dropWhile f = a.dropWhile f ++ b := by
  intro a
  induction a with
  | nil => intro b h; simp at h
  | cons c a' IH =>
    intro b h
    by_cases hc : f c = true
    · rw [List.dropWhile_cons_of_pos hc] at h
      obtain ⟨h1, h2⟩ := IH b h
      constructor
      · rw [List.cons_append, List.takeWhile_cons_of_pos hc,
          List.takeWhile_cons_of_pos hc, h1]
      · rw [List.cons_append, List.dropWhile_cons_of_pos hc,
          List.dropWhile_cons_of_pos hc, h2]
    · constructor
      · rw [List.cons_append, List.takeWhile_cons_of_neg hc,
          List.takeWhile_cons_of_neg hc]
      · rw [List.cons_append, List.dropWhile_cons_of_neg hc,
          List.dropWhile_cons_of_neg hc, List.cons_append]

theorem takeWhile_append_all {α : Type} (f : α → Bool) :
    ∀ (a b : List α), (∀ x ∈ a, f x = true) →
      (a ++ b).takeWhile f = a ++ b.takeWhile f ∧
      (a ++ b).dropWhile f = b.dropWhile f := by
  intro a
  induction a with
  | nil => intro b _; simp
  | cons c a' IH =>
    intro b h
    have hc : f c = true := h c (List.mem_cons_self c a')
    obtain ⟨h1, h2⟩ := IH b (fun x hx => h x (List.mem_cons_of_mem c hx))
    constructor
    · rw [List.cons_append, List.takeWhile_cons_of_pos hc, h1,
        List.cons_append]
    · rw [List.cons_append, List.dropWhile_cons_of_pos hc, h2]

theorem head?_append_of_ne_nil {α : Type} (a b : List α) (h : a ≠ []) :
    (a ++ b).head? = a.head? := by
  match a, h with
  | c :: a', _ => rfl

theorem getLast?_append_of_ne_nil {α : Type} :
    ∀ (a b : List α), b ≠ [] → (a ++ b).getLast? = b.getLast? := by
  intro a
  induction a with
  | nil => intro b _; rfl
  | cons c a' IH =>
    intro b h
    rw [List.cons_append]
    match hab : a' ++ b with
    | [] => exact absurd (List.append_eq_nil.mp hab).2 h
    | d :: r =>
      rw [List.getLast?_cons_cons, ← hab, IH b h]

theorem mem_of_getLast?_eq {α : Type} :
    ∀ (l : List α) (x : α), l.getLast? = some x → x ∈ l := by
  intro l
  induction l with
  | nil => intro x h; simp at h
  | cons c l' IH =>
    intro x h
    match l' with
    | [] => simp at h; simp [h]
    | d :: r =>
      rw [List.getLast?_cons_cons] at h
      exact List.mem_cons_of_mem c (IH x h)

theorem exists_getLast?_eq {α : Type} (l : List α) (h : l ≠ []) :
    ∃ x, l.getLast? = some x ∧ x ∈ l := by
  match l, h with
  | c :: l', _ =>
    refine ⟨(c :: l').getLast (by simp), List.getLast?_eq_getLast _ _, ?_⟩
    exact List.getLast_mem _

/-- `wordRuns` distributes over an append whose junction is not
word-to-word. -/
theorem wordRuns_append :
    ∀ (a b : List Char),
      (∀ x y, a.getLast? = some x → b.head? = some y →
        isWordChar x = false ∨ isWordChar y = false) →
      wordRuns (a ++ b) = wordRuns a ++ wordRuns b := by
  suffices hn : ∀ (n : Nat) (a : List Char), a.length ≤ n →
      ∀ b : List Char,
      (∀ x y, a.getLast? = some x → b.head? = some y →
        isWordChar x = false ∨ isWordChar y = false) →
      wordRuns (a ++ b) = wordRuns a ++ wordRuns b by
    intro a b hb; exact hn a.length a le_rfl b hb
  intro n
  induction n with
  | zero =>
    intro a ha b _
    have : a = [] := List.length_eq_zero.mp (Nat.le_zero.mp ha)
    simp [this, wordRuns, chunksBy_nil]
  | succ n IH =>
    intro a ha b hb
    match a with
    | [] => simp [wordRuns, chunksBy_nil]
    | c :: a' =>
      by_cases hda : a'.dropWhile (fun x => isWordChar x == isWordChar c) = []
      · have hall : ∀ x ∈ a',
            (fun x => isWordChar x == isWordChar c) x = true :=
          List.dropWhile_eq_nil_iff.mp hda
        obtain ⟨hT, hD⟩ :=
          takeWhile_append_all (fun x => isWordChar x == isWordChar c) a' b hall
        have hta : a'.takeWhile (fun x => isWordChar x == isWordChar c) = a' :=
          List.takeWhile_eq_self_iff.mpr hall
        have hchA : chunksBy isWordChar (c :: a') = [c :: a'] := by
          rw [chunksBy_cons, hta, hda, chunksBy_nil]
        match b with
        | [] => simp [wordRuns, chunksBy_nil]
        | d :: b' =>
          by_cases hfd : isWordChar d = isWordChar c
          · -- the junction merges: both sides must be non-word
            obtain ⟨x, hx, hxm⟩ := exists_getLast?_eq (c :: a') (by simp)
            have hxc : isWordChar x = isWordChar c := by
              rcases List.mem_cons.mp hxm with h | h
              · rw [h]
              · simpa using hall x h
            have hw : isWordChar c = false := by
              rcases hb x d hx rfl with h | h
              · rw [← hxc]; exact h
              · rw [← hfd]; exact h
            have hfd' : (isWordChar d == isWordChar c) = true := by
              simp [hfd]
            -- left side
            have hTW : (a' ++ d :: b').takeWhile
                (fun x => isWordChar x == isWordChar c) =
                a' ++ d :: b'.takeWhile
                  (fun x => isWordChar x == isWordChar c) := by
              rw [hT]; simp [List.takeWhile_cons, hfd']
            have hDW : (a' ++ d :: b').dropWhile
                (fun x => isWordChar x == isWordChar c) =
                b'.dropWhile (fun x => isWordChar x == isWordChar c) := by
              rw [hD]; simp [List.dropWhile_cons, hfd']
            have hLHS : wordRuns (c :: a' ++ d :: b') =
                wordRuns (b'.dropWhile
                  (fun x => isWordChar x == isWordChar c)) := by
              simp only [wordRuns]
              rw [List.cons_append, chunksBy_cons, hTW, hDW]
              rw [List.filter_cons]
              simp [classOf, hw]
            -- right side: wordRuns a = []
            have hRA : wordRuns (c :: a') = [] := by
              simp only [wordRuns]
              rw [hchA, List.filter_cons]
              simp [classOf, hw, chunksBy_nil]
            -- wordRuns (d :: b') = wordRuns (dropWhile ... b')
            have hfun : (fun x => isWordChar x == isWordChar d) =
                (fun x => isWordChar x == isWordChar c) := by
              funext x; rw [hfd]
            have hRB : wordRuns (d :: b') =
                wordRuns (b'.dropWhile
                  (fun x => isWordChar x == isWordChar c)) := by
              simp only [wordRuns]
              rw [chunksBy_cons, hfun, List.filter_cons]
              have : isWordChar d = false := by rw [hfd, hw]
              simp [classOf, this]
            rw [hLHS, hRA, hRB, List.nil_append]
          · -- the junction is a class break
            have hfd' : (isWordChar d == isWordChar c) = false := by
              simp [hfd]
            have hTW : (a' ++ d :: b').takeWhile
                (fun x => isWordChar x == isWordChar c) = a' := by
              rw [hT]; simp [List.takeWhile_cons, hfd']
            have hDW : (a' ++ d :: b').dropWhile
                (fun x => isWordChar x == isWordChar c) = d :: b' := by
              rw [hD]; simp [List.dropWhile_cons, hfd']
            simp only [wordRuns]
            rw [List.cons_append, chunksBy_cons, hTW, hDW, hchA]
            rw [List.filter_cons, List.filter_cons, List.filter_nil]
            by_cases hcw : classOf isWordChar (c :: a') = true
            · simp [hcw]
            · simp [Bool.not_eq_true] at hcw
              simp [hcw]
      · obtain ⟨hT, hD⟩ :=
          takeWhile_append_not_nil (fun x => isWordChar x == isWordChar c)
            a' b hda
        have hlen : (a'.dropWhile
            (fun x => isWordChar x == isWordChar c)).length ≤ n := by
          have h1 := (List.dropWhile_sublist (l := a')
            (p := fun x => isWordChar x == isWordChar c)).length_le
          have h2 : a'.length ≤ n := Nat.lt_succ_iff.mp ha
          omega
        have hbound : ∀ x y,
            (a'.dropWhile
              (fun x => isWordChar x == isWordChar c)).getLast? = some x →
            b.head? = some y →
            isWordChar x = false ∨ isWordChar y = false := by
          intro x y hx hy
          apply hb x y _ hy
          have hsplit : c :: a' =
              (c :: a'.takeWhile (fun x => isWordChar x == isWordChar c)) ++
                a'.dropWhile (fun x => isWordChar x == isWordChar c) := by
            rw [List.cons_append, List.takeWhile_append_dropWhile]
          rw [hsplit, getLast?_append_of_ne_nil _ _ hda, hx]
        have hrec := IH _ hlen b hbound
        simp only [wordRuns] at hrec ⊢
        rw [List.cons_append, chunksBy_cons, hT, hD, chunksBy_cons,
          List.filter_cons, List.filter_cons, hrec]
        by_cases hcw : classOf isWordChar
            (c :: a'.takeWhile (fun x => isWordChar x == isWordChar c)) = true
        · simp [hcw]
        · simp [Bool.not_eq_true] at hcw
          simp [hcw]

theorem chain'_of_chain'_mem {α : Type} {R S : α → α → Prop} :
    ∀ {l : List α}, (∀ a ∈ l, ∀ b ∈ l, R a b → S a b) →
      l.Chain' R → l.Chain' S := by
  intro l
  induction l with
  | nil => intro _ _; exact List.chain'_nil
  | cons a l' IH =>
    intro h hc
    obtain ⟨h1, h2⟩ := List.chain'_cons'.mp hc
    refine List.chain'_cons'.mpr ⟨?_, ?_⟩
    · intro b hb
      have hbm : b ∈ l' := by
        match l', hb with
        | c :: l'', rfl => exact List.mem_cons_self _ _
      exact h a (List.mem_cons_self a l') b (List.mem_cons_of_mem a hbm)
        (h1 b hb)
    · exact IH (fun x hx y hy => h x (List.mem_cons_of_mem a hx)
        y (List.mem_cons_of_mem a hy)) h2

theorem String_mk_toList (s : String) : String.mk s.toList = s := rfl

theorem wordRuns_space : wordRuns [' '] = [] := by decide

theorem isWordChar_of_whitespace (c : Char) (h : c.isWhitespace = true) :
    isWordChar c = false := by
  have : c = ' ' ∨ c = '\t' ∨ c = '\r' ∨ c = '\n' := by
    revert h
    simp [Char.isWhitespace]
    tauto
  rcases this with h | h | h | h <;> rw [h] <;> decide

/-- `wordRuns` of a flattened chunk list with no word-to-word junction
is the concatenation of the chunks' word runs. -/
theorem wordRuns_flatten_chunks :
    ∀ (K : List (List Char)), (∀ g ∈ K, g ≠ []) →
      K.Chain' (fun g h => ∀ x y, g.getLast? = some x →
        h.head? = some y →
        isWordChar x = false ∨ isWordChar y = false) →
      wordRuns K.flatten = K.flatMap wordRuns := by
  intro K
  induction K with
  | nil => intro _ _; rfl
  | cons g K' IH =>
    intro hne hb
    obtain ⟨h1, h2⟩ := List.chain'_cons'.mp hb
    have hK' := IH (fun h hh => hne h (List.mem_cons_of_mem g hh)) h2
    rw [List.flatten_cons, List.flatMap_cons, ← hK']
    apply wordRuns_append
    intro x y hx hy
    match K' with
    | [] => simp at hy
    | h₀ :: K'' =>
      have hh0 : h₀ ≠ [] := hne h₀ (List.mem_cons_of_mem g
        (List.mem_cons_self h₀ K''))
      rw [List.flatten_cons, head?_append_of_ne_nil _ _ hh0] at hy
      exact h1 h₀ rfl x y hx hy

theorem flatMap_map_eq {α β γ : Type} (f : α → β) (g : β → List γ) :
    ∀ l : List α, (l.map f).flatMap g = l.flatMap (fun x => g (f x)) := by
  intro l
  induction l with
  | nil => rfl
  | cons a l' IH => simp [IH]

/-- After `subWordCI t`, the word runs are the original word runs minus
those equal to `t` ignoring case. -/
theorem wordRuns_subWordCI (t s : String) :
    wordRuns (subWordCI t s).toList =
      (wordRuns s.toList).filter
        (fun g => !(g.map Char.toLower == t.toList.map Char.toLower)) := by
  have htl : (subWordCI t s).toList =
      ((chunksBy isWordChar s.toList).map (fun g =>
        if classOf isWordChar g &&
            (g.map Char.toLower == t.toList.map Char.toLower)
        then [' '] else g)).flatten := rfl
  rw [htl]
  rw [wordRuns_flatten_chunks _ ?hne ?hb]
  case hne =>
    intro g' hg'
    obtain ⟨g, hg, hrepl⟩ := List.mem_map.mp hg'
    by_cases hc : (classOf isWordChar g &&
        (g.map Char.toLower == t.toList.map Char.toLower)) = true
    · rw [← hrepl, if_pos hc]; simp
    · rw [← hrepl, if_neg hc]
      exact chunksBy_ne_nil isWordChar s.toList g hg
  case hb =>
    rw [List.chain'_map]
    apply chain'_of_chain'_mem
      (R := fun g h => classOf isWordChar g ≠ classOf isWordChar h)
    · intro g hg h hh hgh
      intro x y hx hy
      by_cases hcg : (classOf isWordChar g &&
          (g.map Char.toLower == t.toList.map Char.toLower)) = true
      · rw [if_pos hcg] at hx
        left
        have hx' : ' ' = x := by simpa using hx
        rw [← hx']; decide
      · rw [if_neg hcg] at hx
        by_cases hch : (classOf isWordChar h &&
            (h.map Char.toLower == t.toList.map Char.toLower)) = true
        · rw [if_pos hch] at hy
          right
          have hy' : ' ' = y := by simpa using hy
          rw [← hy']; decide
        · rw [if_neg hch] at hy
          have hxg : isWordChar x = classOf isWordChar g :=
            chunksBy_uniform isWordChar s.toList g hg x
              (mem_of_getLast?_eq g x hx)
          have hyh : isWordChar y = classOf isWordChar h := by
            apply chunksBy_uniform isWordChar s.toList h hh y
            match h, hy with
            | d :: h', hy =>
              have hy' : d = y := by simpa using hy
              rw [← hy']
              exact List.mem_cons_self d h'
          by_cases hg1 : classOf isWordChar g = true
          · right
            rw [hyh]
            cases hcb : classOf isWordChar h
            · rfl
            · exact absurd (hg1.trans hcb.symm) hgh
          · left
            rw [hxg]
            exact Bool.not_eq_true _ |>.mp hg1
    · exact chunksBy_chain isWordChar s.toList
  rw [flatMap_map_eq]
  have hmain : ∀ (K : List (List Char)), (∀ g ∈ K, g ≠ []) →
      (∀ g ∈ K, ∀ x ∈ g, isWordChar x = classOf isWordChar g) →
      K.flatMap (fun g => wordRuns (if classOf isWordChar g &&
          (g.map Char.toLower == t.toList.map Char.toLower)
        then [' '] else g)) =
      (K.filter (fun g => classOf isWordChar g)).filter
        (fun g => !(g.map Char.toLower == t.toList.map Char.toLower)) := by
    intro K
    induction K with
    | nil => intro _ _; rfl
    | cons g K' IH =>
      intro hne hu
      have hrest := IH (fun x hx => hne x (List.mem_cons_of_mem g hx))
        (fun x hx => hu x (List.mem_cons_of_mem g hx))
      rw [List.flatMap_cons, List.filter_cons]
      have hgne : g ≠ [] := hne g (List.mem_cons_self g K')
      have hgu : ∀ x ∈ g, isWordChar x = classOf isWordChar g :=
        hu g (List.mem_cons_self g K')
      have hsingle : chunksBy isWordChar g = [g] :=
        chunksBy_single isWordChar g (classOf isWordChar g) hgne hgu
      by_cases hcl : classOf isWordChar g = true
      · by_cases hm : (g.map Char.toLower ==
            t.toList.map Char.toLower) = true
        · have hcond : (classOf isWordChar g &&
              (g.map Char.toLower == t.toList.map Char.toLower)) = true := by
            rw [hcl, hm]; rfl
          rw [if_pos hcond, wordRuns_space, List.nil_append, hrest,
            if_pos hcl, List.filter_cons]
          have hnm : (!(g.map Char.toLower ==
              t.toList.map Char.toLower)) = false := by rw [hm]; rfl
          rw [hnm]
          simp
        · have hmf : (g.map Char.toLower ==
              t.toList.map Char.toLower) = false := by
            simpa using hm
          have hcond : ¬ (classOf isWordChar g &&
              (g.map Char.toLower == t.toList.map Char.toLower)) = true := by
            rw [hmf]; simp
          rw [if_neg hcond]
          have hwr : wordRuns g = [g] := by
            simp only [wordRuns, hsingle, List.filter_cons, hcl]
            simp
          rw [hwr, hrest, if_pos hcl, List.filter_cons]
          have hnm : (!(g.map Char.toLower ==
              t.toList.map Char.toLower)) = true := by rw [hmf]; rfl
          rw [hnm]
          simp
      · have hclf : classOf isWordChar g = false := by simpa using hcl
        have hcond : ¬ (classOf isWordChar g &&
            (g.map Char.toLower == t.toList.map Char.toLower)) = true := by
          rw [hclf]; simp
        rw [if_neg hcond]
        have hwr : wordRuns g = [] := by
          simp only [wordRuns, hsingle, List.filter_cons, hclf]
          simp
        rw [hwr, List.nil_append, hrest, if_neg (by simp [hclf])]
  rw [hmain _ (chunksBy_ne_nil isWordChar s.toList)
    (chunksBy_uniform isWordChar s.toList)]
  rfl

/-- If no word run of `s` equals `t` ignoring case, `subWordCI t` is the
identity on `s`. -/
theorem subWordCI_id (t s : String)
    (h : ∀ g ∈ wordRuns s.toList,
      ¬ g.map Char.toLower = t.toList.map Char.toLower) :
    subWordCI t s = s := by
  have hmap : (chunksBy isWordChar s.toList).map (fun g =>
      if classOf isWordChar g &&
          (g.map Char.toLower == t.toList.map Char.toLower)
      then [' '] else g) = chunksBy isWordChar s.toList := by
    conv_rhs => rw [← List.map_id (chunksBy isWordChar s.toList)]
    apply List.map_congr_left
    intro g hg
    by_cases hcl : classOf isWordChar g = true
    · have hmem : g ∈ wordRuns s.toList :=
        List.mem_filter.mpr ⟨hg, by simp [hcl]⟩
      have hne := h g hmem
      have hb : (g.map Char.toLower == t.toList.map Char.toLower) = false :=
        by simpa using hne
      have hcond : ¬ (classOf isWordChar g &&
          (g.map Char.toLower == t.toList.map Char.toLower)) = true := by
        rw [hb]; simp
      rw [if_neg hcond]; rfl
    · have hb : classOf isWordChar g = false := by
        simpa using hcl
      have hcond : ¬ (classOf isWordChar g &&
          (g.map Char.toLower == t.toList.map Char.toLower)) = true := by
        rw [hb]; simp
      rw [if_neg hcond]; rfl
  have hs : subWordCI t s = String.mk
      (((chunksBy isWordChar s.toList).map (fun g =>
        if classOf isWordChar g &&
            (g.map Char.toLower == t.toList.map Char.toLower)
        then [' '] else g)).flatten) := rfl
  rw [hs, hmap, chunksBy_flatten, String_mk_toList]

/-- Padding with one space on each side does not change the word runs. -/
theorem wordRuns_pad (l : List Char) :
    wordRuns (' ' :: l ++ [' ']) = wordRuns l := by
  have h1 : (' ' :: l ++ [' ']) = [' '] ++ (l ++ [' ']) := rfl
  rw [h1]
  rw [wordRuns_append [' '] (l ++ [' '])
    (by
      intro x y hx _
      left
      have hx' : ' ' = x := by simpa using hx
      rw [← hx']; decide)]
  rw [wordRuns_append l [' ']
    (by
      intro x y _ hy
      right
      have hy' : ' ' = y := by simpa using hy
      rw [← hy']; decide)]
  rw [wordRuns_space]
  simp

/-! `runsOf` specification equations and its relation to `chunksBy`. -/

theorem runsOf_nil (p : Char → Bool) : runsOf p [] = [] := rfl

theorem runsOfGo_spec (p : Char → Bool) :
    ∀ (l acc : List Char), acc ≠ [] → (∀ x ∈ acc, p x = true) →
      runsOfGo p l acc =
        (acc.reverse ++ l.takeWhile p) :: runsOf p (l.dropWhile p) := by
  intro l
  induction l with
  | nil =>
    intro acc hne _
    simp [runsOfGo, runsOf, hne]
  | cons c cs IH =>
    intro acc hne hall
    by_cases hc : p c = true
    · have h1 : runsOfGo p (c :: cs) acc = runsOfGo p cs (c :: acc) := by
        simp [runsOfGo, hc]
      rw [h1, IH (c :: acc) (by simp)
        (by
          intro x hx
          rcases List.mem_cons.mp hx with h | h
          · rw [h]; exact hc
          · exact hall x h)]
      rw [List.takeWhile_cons_of_pos hc, List.dropWhile_cons_of_pos hc]
      simp
    · have hcf : p c = false := by simpa using hc
      have h1 : runsOfGo p (c :: cs) acc = acc.reverse :: runsOfGo p cs [] :=
        by simp [runsOfGo, hcf, hne]
      have h2 : runsOf p (c :: cs) = runsOfGo p cs [] := by
        simp [runsOf, runsOfGo, hcf]
      rw [h1, List.takeWhile_cons_of_neg (by simp [hcf]),
        List.dropWhile_cons_of_neg (by simp [hcf]), List.append_nil, ← h2]

theorem runsOf_cons_pos (p : Char → Bool) (c : Char) (cs : List Char)
    (hc : p c = true) :
    runsOf p (c :: cs) =
      (c :: cs.takeWhile p) :: runsOf p (cs.dropWhile p) := by
  have h1 : runsOf p (c :: cs) = runsOfGo p cs [c] := by
    simp [runsOf, runsOfGo, hc]
  rw [h1, runsOfGo_spec p cs [c] (by simp) (by simpa using hc)]
  simp

theorem runsOf_cons_neg (p : Char → Bool) (c : Char) (cs : List Char)
    (hc : p c = false) : runsOf p (c :: cs) = runsOf p cs := by
  simp [runsOf, runsOfGo, hc]

/-- `runsOf` keeps exactly the `true`-class chunks. -/
theorem runsOf_eq_filter_chunks (p : Char → Bool) :
    ∀ l : List Char,
      runsOf p l = (chunksBy p l).filter (fun g => classOf p g) := by
  suffices h : ∀ (n : Nat) (l : List Char), l.length ≤ n →
      runsOf p l = (chunksBy p l).filter (fun g => classOf p g) by
    intro l; exact h l.length l le_rfl
  intro n
  induction n with
  | zero =>
    intro l hl
    have : l = [] := List.length_eq_zero.mp (Nat.le_zero.mp hl)
    simp [this, chunksBy_nil, runsOf_nil]
  | succ n IH =>
    intro l hl
    match l with
    | [] => simp [chunksBy_nil, runsOf_nil]
    | c :: cs =>
      by_cases hc : p c = true
      · have hfun : (fun x => p x == p c) = p := by
          funext x; rw [hc]; cases p x <;> rfl
        rw [runsOf_cons_pos p c cs hc, chunksBy_cons, hfun,
          List.filter_cons]
        have hcl : classOf p (c :: cs.takeWhile p) = true := by
          simp [classOf, hc]
        rw [hcl]
        have hlen : (cs.dropWhile p).length ≤ n := by
          have h1 := (List.dropWhile_sublist (l := cs) (p := p)).length_le
          have h2 : cs.length ≤ n := Nat.lt_succ_iff.mp hl
          omega
        rw [IH _ hlen]
        simp
      · have hcf : p c = false := by simpa using hc
        rw [runsOf_cons_neg p c cs hcf]
        have hfilter : ∀ (m : Nat) (xs : List Char), xs.length ≤ m →
            (chunksBy p xs).filter (fun g => classOf p g) =
            (chunksBy p (c :: xs)).filter (fun g => classOf p g) := by
          intro m
          induction m with
          | zero =>
            intro xs hxs
            have : xs = [] := List.length_eq_zero.mp (Nat.le_zero.mp hxs)
            subst this
            rw [chunksBy_nil, chunksBy_cons]
            simp [classOf, hcf, chunksBy_nil]
          | succ m IHm =>
            intro xs hxs
            match xs with
            | [] =>
              rw [chunksBy_nil, chunksBy_cons]
              simp [classOf, hcf, chunksBy_nil]
            | d :: ds =>
              by_cases hd : p d = p c
              · have hdf : p d = false := hd.trans hcf
                have hfun2 : (fun x => p x == p d) =
                    (fun x => p x == p c) := by
                  funext x; rw [hd]
                rw [chunksBy_cons (c := c), chunksBy_cons (c := d), hfun2]
                rw [List.dropWhile_cons_of_pos (by simp [hd])]
                rw [List.filter_cons, List.filter_cons]
                have hc1 : classOf p (c :: (d :: ds).takeWhile
                    (fun x => p x == p c)) = false := by simp [classOf, hcf]
                have hc2 : classOf p (d :: ds.takeWhile
                    (fun x => p x == p c)) = false := by simp [classOf, hdf]
                rw [hc1, hc2]
                simp
              · have hdc : (p d == p c) = false := by simpa using hd
                rw [chunksBy_cons (c := c)]
                rw [List.takeWhile_cons_of_neg (by simp [hdc]),
                  List.dropWhile_cons_of_neg (by simp [hdc])]
                rw [List.filter_cons]
                have hc1 : classOf p (c :: ([] : List Char)) = false := by
                  simp [classOf, hcf]
                rw [hc1]
                simp
        have h2 : cs.length ≤ n := Nat.lt_succ_iff.mp hl
        rw [IH _ h2, hfilter cs.length cs le_rfl]

/-! Whitespace-run facts used for `str.strip` / `str.split`. -/

theorem runsOf_all_false (p : Char → Bool) :
    ∀ l : List Char, (∀ c ∈ l, p c = false) → runsOf p l = [] := by
  intro l
  induction l with
  | nil => intro _; rfl
  | cons c cs IH =>
    intro h
    rw [runsOf_cons_neg p c cs (h c (List.mem_cons_self c cs))]
    exact IH (fun x hx => h x (List.mem_cons_of_mem c hx))

theorem takeWhile_nil_of_head_false {α : Type} (f : α → Bool) :
    ∀ l : List α, (∀ c, l.head? = some c → f c = false) →
      l.takeWhile f = [] := by
  intro l h
  match l with
  | [] => rfl
  | c :: cs =>
    rw [List.takeWhile_cons_of_neg (by simp [h c rfl])]

theorem dropWhile_self_of_head_false {α : Type} (f : α → Bool) :
    ∀ l : List α, (∀ c, l.head? = some c → f c = false) →
      l.dropWhile f = l := by
  intro l h
  match l with
  | [] => rfl
  | c :: cs =>
    rw [List.dropWhile_cons_of_neg (by simp [h c rfl])]

theorem runsOf_append_ws :
    ∀ (w : List Char), (∀ c ∈ w, c.isWhitespace = true) →
    ∀ (l : List Char),
      runsOf (fun c => !c.isWhitespace) (l ++ w) =
        runsOf (fun c => !c.isWhitespace) l := by
  intro w hw
  suffices h : ∀ (n : Nat) (l : List Char), l.length ≤ n →
      runsOf (fun c => !c.isWhitespace) (l ++ w) =
        runsOf (fun c => !c.isWhitespace) l by
    intro l; exact h l.length l le_rfl
  intro n
  induction n with
  | zero =>
    intro l hl
    have : l = [] := List.length_eq_zero.mp (Nat.le_zero.mp hl)
    subst this
    rw [List.nil_append, runsOf_nil]
    exact runsOf_all_false _ w (by intro c hc; simp [hw c hc])
  | succ n IH =>
    intro l hl
    match l with
    | [] =>
      rw [List.nil_append, runsOf_nil]
      exact runsOf_all_false _ w (by intro c hc; simp [hw c hc])
    | c :: cs =>
      by_cases hc : (!c.isWhitespace) = true
      · rw [List.cons_append,
          runsOf_cons_pos _ c (cs ++ w) hc, runsOf_cons_pos _ c cs hc]
        by_cases hd : cs.dropWhile (fun c => !c.isWhitespace) = []
        · have hall : ∀ x ∈ cs, (fun c => !c.isWhitespace) x = true :=
            List.dropWhile_eq_nil_iff.mp hd
          obtain ⟨hT, hD⟩ :=
            takeWhile_append_all (fun c => !c.isWhitespace) cs w hall
          rw [hT, hD]
          have hwt : w.takeWhile (fun c => !c.isWhitespace) = [] := by
            apply takeWhile_nil_of_head_false
            intro d hd'
            have : d ∈ w := by
              match w, hd' with
              | d₀ :: w', rfl => exact List.mem_cons_self _ _
            simp [hw d this]
          have hwd : w.dropWhile (fun c => !c.isWhitespace) = w := by
            apply dropWhile_self_of_head_false
            intro d hd'
            have : d ∈ w := by
              match w, hd' with
              | d₀ :: w', rfl => exact List.mem_cons_self _ _
            simp [hw d this]
          rw [hwt, hwd, List.append_nil,
            runsOf_all_false _ w (by intro x hx; simp [hw x hx]),
            List.takeWhile_eq_self_iff.mpr hall, hd, runsOf_nil]
        · obtain ⟨hT, hD⟩ :=
            takeWhile_append_not_nil (fun c => !c.isWhitespace) cs w hd
          rw [hT, hD]
          have hlen : (cs.dropWhile (fun c => !c.isWhitespace)).length ≤ n := by
            have h1 := (List.dropWhile_sublist (l := cs)
              (p := fun c => !c.isWhitespace)).length_le
            have h2 : cs.length ≤ n := Nat.lt_succ_iff.mp hl
            omega
          rw [IH _ hlen]
      · have hcf : (!c.isWhitespace) = false := by simpa using hc
        rw [List.cons_append, runsOf_cons_neg _ c (cs ++ w) hcf,
          runsOf_cons_neg _ c cs hcf]
        exact IH cs (Nat.lt_succ_iff.mp hl)

theorem runsOf_dropWhile_ws :
    ∀ l : List Char,
      runsOf (fun c => !c.isWhitespace) (l.dropWhile Char.isWhitespace) =
        runsOf (fun c => !c.isWhitespace) l := by
  intro l
  induction l with
  | nil => rfl
  | cons c cs IH =>
    by_cases hc : c.isWhitespace = true
    · rw [List.dropWhile_cons_of_pos hc, IH,
        runsOf_cons_neg _ c cs (by simp [hc])]
    · rw [List.dropWhile_cons_of_neg (by simpa using hc)]

/-- `str.split()` ignores leading and trailing whitespace, so stripping
first does not change it. -/
theorem pySplit_pyStrip (s : String) : pySplit (pyStrip s) = pySplit s := by
  have htl : (pyStrip s).toList =
      ((s.toList.dropWhile Char.isWhitespace).reverse.dropWhile
        Char.isWhitespace).reverse := rfl
  simp only [pySplit, htl]
  congr 1
  have hm : s.toList.dropWhile Char.isWhitespace =
      ((s.toList.dropWhile Char.isWhitespace).reverse.dropWhile
        Char.isWhitespace).reverse ++
      ((s.toList.dropWhile Char.isWhitespace).reverse.takeWhile
        Char.isWhitespace).reverse := by
    rw [← List.reverse_append, List.takeWhile_append_dropWhile,
      List.reverse_reverse]
  have hws : ∀ c ∈ ((s.toList.dropWhile Char.isWhitespace).reverse.takeWhile
      Char.isWhitespace).reverse, c.isWhitespace = true := by
    intro c hc
    rw [List.mem_reverse] at hc
    exact List.mem_takeWhile_imp hc
  rw [runsOf_append_ws _ hws _ |>.symm, ← hm, runsOf_dropWhile_ws]

/-- `n` occurs as a contiguous substring of `l`. -/
def SubStr (n l : List Char) : Prop := ∃ u v, l = u ++ n ++ v

theorem String_toList_append (a b : String) :
    (a ++ b).toList = a.toList ++ b.toList := rfl

theorem runsOf_single (p : Char → Bool) (l : List Char) (hne : l ≠ [])
    (hall : ∀ c ∈ l, p c = true) : runsOf p l = [l] := by
  match l, hne with
  | c :: cs, _ =>
    rw [runsOf_cons_pos p c cs (hall c (List.mem_cons_self c cs)),
      List.takeWhile_eq_self_iff.mpr
        (fun x hx => hall x (List.mem_cons_of_mem c hx)),
      List.dropWhile_eq_nil_iff.mpr
        (fun x hx => hall x (List.mem_cons_of_mem c hx)), runsOf_nil]

theorem toList_space : (" " : String).toList = [' '] := rfl

theorem toList_ne_nil_of_ne_empty (x : String) (h : x ≠ "") :
    x.toList ≠ [] := by
  intro hx
  apply h
  have := congrArg String.mk hx
  rw [String_mk_toList] at this
  exact this

/-- Splitting the space-join of non-empty whitespace-free tokens gives
the tokens back. -/
theorem pySplit_joinSpace :
    ∀ parts : List String,
      (∀ x ∈ parts, x ≠ "" ∧ ∀ c ∈ x.toList, c.isWhitespace = false) →
      pySplit (joinSpace parts) = parts := by
  intro parts
  induction parts with
  | nil => intro _; rfl
  | cons x parts' IH =>
    intro h
    obtain ⟨hxne, hxws⟩ := h x (List.mem_cons_self x parts')
    match parts' with
    | [] =>
      show pySplit x = [x]
      simp only [pySplit]
      rw [runsOf_single _ x.toList (toList_ne_nil_of_ne_empty x hxne)
        (fun c hc => by simp [hxws c hc])]
      simp [String_mk_toList]
    | y :: parts'' =>
      have hjoin : joinSpace (x :: y :: parts'') =
          x ++ " " ++ joinSpace (y :: parts'') := rfl
      rw [hjoin]
      simp only [pySplit]
      have htl : (x ++ " " ++ joinSpace (y :: parts'')).toList =
          x.toList ++ ' ' :: (joinSpace (y :: parts'')).toList := by
        rw [String_toList_append, String_toList_append, toList_space]
        simp
      rw [htl]
      match hx : x.toList, toList_ne_nil_of_ne_empty x hxne with
      | c :: cx, _ =>
        have hallx : ∀ d ∈ c :: cx, (fun c => !c.isWhitespace) d = true := by
          intro d hd
          rw [← hx] at hd
          simp [hxws d hd]
        rw [List.cons_append,
          runsOf_cons_pos _ c _ (hallx c (List.mem_cons_self c cx))]
        obtain ⟨hT, hD⟩ := takeWhile_append_all (fun c => !c.isWhitespace)
          cx (' ' :: (joinSpace (y :: parts'')).toList)
          (fun d hd => hallx d (List.mem_cons_of_mem c hd))
        rw [hT, hD, List.takeWhile_cons_of_neg (by decide),
          List.dropWhile_cons_of_neg (by decide), List.append_nil,
          runsOf_cons_neg _ ' ' _ (by decide)]
        have hrec := IH (fun z hz => h z (List.mem_cons_of_mem x hz))
        simp only [pySplit] at hrec
        rw [List.map_cons, hrec, ← hx, String_mk_toList]

theorem pySplit_tok_facts (s : String) :
    ∀ tok ∈ pySplit s, tok ≠ "" ∧
      ∀ c ∈ tok.toList, c.isWhitespace = false := by
  intro tok htok
  simp only [pySplit, List.mem_map] at htok
  obtain ⟨g, hg, hmk⟩ := htok
  rw [runsOf_eq_filter_chunks] at hg
  have hgc := List.mem_filter.mp hg
  have hne := chunksBy_ne_nil _ _ g hgc.1
  have htl : tok.toList = g := by rw [← hmk]; rfl
  constructor
  · intro h
    apply hne
    rw [← htl, h]
    rfl
  · intro c hc
    rw [htl] at hc
    have hu := chunksBy_uniform (fun c => !c.isWhitespace) s.toList g
      hgc.1 c hc
    have hcl : classOf (fun c => !c.isWhitespace) g = true := by
      simpa using hgc.2
    rw [hcl] at hu
    simpa using hu

theorem chunksBy_mem_SubStr (p : Char → Bool) (l g : List Char)
    (hg : g ∈ chunksBy p l) : SubStr g l := by
  obtain ⟨K1, K2, hK⟩ := List.append_of_mem hg
  refine ⟨K1.flatten, K2.flatten, ?_⟩
  have h1 : l = (chunksBy p l).flatten := (chunksBy_flatten p l).symm
  rw [h1, hK, List.flatten_append, List.flatten_cons, List.append_assoc]

theorem pySplit_SubStr (s : String) :
    ∀ tok ∈ pySplit s, SubStr tok.toList s.toList := by
  intro tok htok
  simp only [pySplit, List.mem_map] at htok
  obtain ⟨g, hg, hmk⟩ := htok
  rw [runsOf_eq_filter_chunks] at hg
  have htl : tok.toList = g := by rw [← hmk]; rfl
  rw [htl]
  exact chunksBy_mem_SubStr _ _ g (List.mem_filter.mp hg).1

theorem normalize_spaces_eq (s : String) :
    normalize_spaces s = joinSpace (pySplit s) := by
  simp only [normalize_spaces, pySplit_pyStrip]

theorem pySplit_pad (s : String) :
    pySplit (" " ++ s ++ " ") = pySplit s := by
  simp only [pySplit]
  have htl : (" " ++ s ++ " ").toList = ' ' :: (s.toList ++ [' ']) := by
    rw [String_toList_append, String_toList_append]
    rfl
  rw [htl, runsOf_cons_neg _ ' ' _ (by decide),
    runsOf_append_ws [' '] (by intro c hc; simp at hc; rw [hc]; rfl)]

theorem normalize_spaces_idem (s : String) :
    normalize_spaces (normalize_spaces s) = normalize_spaces s := by
  rw [normalize_spaces_eq s, normalize_spaces_eq (joinSpace (pySplit s)),
    pySplit_joinSpace (pySplit s) (pySplit_tok_facts s)]

theorem normalize_spaces_pad (s : String) :
    normalize_spaces (" " ++ normalize_spaces s ++ " ") =
      normalize_spaces s := by
  rw [normalize_spaces_eq (" " ++ normalize_spaces s ++ " "), pySplit_pad,
    ← normalize_spaces_eq, normalize_spaces_idem]

theorem joinSpace_head (x : String) (parts : List String) :
    ∃ tl, (joinSpace (x :: parts)).toList = x.toList ++ tl := by
  match parts with
  | [] => exact ⟨[], by simp [joinSpace]⟩
  | y :: parts' =>
    refine ⟨' ' :: (joinSpace (y :: parts')).toList, ?_⟩
    have hjoin : joinSpace (x :: y :: parts') =
        x ++ " " ++ joinSpace (y :: parts') := rfl
    rw [hjoin, String_toList_append, String_toList_append, toList_space]
    simp

theorem joinSpace_last :
    ∀ (parts : List String) (x : String), ∃ y rest, y ∈ x :: parts ∧
      (joinSpace (x :: parts)).toList.reverse =
        y.toList.reverse ++ rest := by
  intro parts
  induction parts with
  | nil => intro x; exact ⟨x, [], List.mem_cons_self x [], by simp [joinSpace]⟩
  | cons z parts' IH =>
    intro x
    obtain ⟨y, rest, hy, hrev⟩ := IH z
    refine ⟨y, rest ++ ' ' :: x.toList.reverse,
      List.mem_cons_of_mem x hy, ?_⟩
    have hjoin : joinSpace (x :: z :: parts') =
        x ++ " " ++ joinSpace (z :: parts') := rfl
    have htl : (joinSpace (x :: z :: parts')).toList =
        x.toList ++ ' ' :: (joinSpace (z :: parts')).toList := by
      rw [hjoin, String_toList_append, String_toList_append, toList_space]
      simp
    rw [htl, List.reverse_append]
    have h2 : (' ' :: (joinSpace (z :: parts')).toList).reverse =
        (joinSpace (z :: parts')).toList.reverse ++ [' '] := by
      simp
    rw [h2, hrev]
    simp

theorem pyStrip_normalize_spaces (s : String) :
    pyStrip (normalize_spaces s) = normalize_spaces s := by
  rw [normalize_spaces_eq]
  have hfacts := pySplit_tok_facts s
  match hp : pySplit s with
  | [] => rfl
  | x :: parts' =>
    have hx := hfacts x (by rw [hp]; exact List.mem_cons_self x parts')
    have hstrip : pyStrip (joinSpace (x :: parts')) = String.mk
        ((((joinSpace (x :: parts')).toList.dropWhile
          Char.isWhitespace).reverse.dropWhile
            Char.isWhitespace).reverse) := rfl
    have h1 : (joinSpace (x :: parts')).toList.dropWhile
        Char.isWhitespace = (joinSpace (x :: parts')).toList := by
      apply dropWhile_self_of_head_false
      intro c hc
      obtain ⟨tl, htl⟩ := joinSpace_head x parts'
      rw [htl] at hc
      match hxl : x.toList, toList_ne_nil_of_ne_empty x hx.1 with
      | d :: dx, _ =>
        rw [hxl] at hc
        have hdc : d = c := by simpa using hc
        rw [← hdc]
        exact hx.2 d (by rw [hxl]; exact List.mem_cons_self d dx)
    have h2 : (joinSpace (x :: parts')).toList.reverse.dropWhile
        Char.isWhitespace = (joinSpace (x :: parts')).toList.reverse := by
      apply dropWhile_self_of_head_false
      intro c hc
      obtain ⟨y, rest, hy, hrev⟩ := joinSpace_last parts' x
      have hyf := hfacts y (by rw [hp]; exact hy)
      rw [hrev] at hc
      have hyne : y.toList.reverse ≠ [] := by
        intro hnil
        apply toList_ne_nil_of_ne_empty y hyf.1
        simpa using hnil
      rw [head?_append_of_ne_nil _ _ hyne] at hc
      have hcy : c ∈ y.toList.reverse := by
        match hyl : y.toList.reverse, hyne with
        | d :: dy, _ =>
          rw [hyl] at hc
          have hdc : d = c := by simpa using hc
          rw [← hdc]
          exact List.mem_cons_self d dy
      rw [List.mem_reverse] at hcy
      exact hyf.2 c hcy
    rw [hstrip, h1, h2, List.reverse_reverse, String_mk_toList]

theorem wordRuns_joinSpace :
    ∀ parts : List String,
      wordRuns (joinSpace parts).toList =
        parts.flatMap (fun x => wordRuns x.toList) := by
  intro parts
  induction parts with
  | nil => rfl
  | cons x parts' IH =>
    match parts' with
    | [] => simp [joinSpace]
    | y :: parts'' =>
      have hjoin : joinSpace (x :: y :: parts'') =
          x ++ " " ++ joinSpace (y :: parts'') := rfl
      have htl : (joinSpace (x :: y :: parts'')).toList =
          x.toList ++ ' ' :: (joinSpace (y :: parts'')).toList := by
        rw [hjoin, String_toList_append, String_toList_append, toList_space]
        simp
      rw [htl, wordRuns_append x.toList _
        (by
          intro a b _ hb
          right
          have hb' : ' ' = b := by simpa using hb
          rw [← hb']; decide)]
      have hsp : (' ' :: (joinSpace (y :: parts'')).toList) =
          [' '] ++ (joinSpace (y :: parts'')).toList := rfl
      rw [hsp, wordRuns_append [' '] _
        (by
          intro a b ha _
          left
          have ha' : ' ' = a := by simpa using ha
          rw [← ha']; decide), wordRuns_space, List.nil_append, IH]
      simp

theorem wordRuns_eq_flatMap_tokens (s : String) :
    wordRuns s.toList =
      (pySplit s).flatMap (fun x => wordRuns x.toList) := by
  have hchain : (chunksBy (fun c => !c.isWhitespace) s.toList).Chain'
      (fun g h => ∀ x y, g.getLast? = some x → h.head? = some y →
        isWordChar x = false ∨ isWordChar y = false) := by
    apply chain'_of_chain'_mem
      (R := fun g h => classOf (fun c => !c.isWhitespace) g ≠
        classOf (fun c => !c.isWhitespace) h)
    · intro g hg h hh hgh x y hx hy
      by_cases hcg : classOf (fun c => !c.isWhitespace) g = true
      · right
        have hch : classOf (fun c => !c.isWhitespace) h = false := by
          cases hch' : classOf (fun c => !c.isWhitespace) h
          · rfl
          · exact absurd (hcg.trans hch'.symm) hgh
        have hyh := chunksBy_uniform (fun c => !c.isWhitespace) s.toList h
          hh y (by
            match h, hy with
            | d :: h', hy =>
              have : d = y := by simpa using hy
              rw [← this]
              exact List.mem_cons_self d h')
        rw [hch] at hyh
        exact isWordChar_of_whitespace y (by simpa using hyh)
      · left
        have hcgf : classOf (fun c => !c.isWhitespace) g = false := by
          simpa using hcg
        have hxg := chunksBy_uniform (fun c => !c.isWhitespace) s.toList g
          hg x (mem_of_getLast?_eq g x hx)
        rw [hcgf] at hxg
        exact isWordChar_of_whitespace x (by simpa using hxg)
    · exact chunksBy_chain _ s.toList
  have hK := wordRuns_flatten_chunks
    (chunksBy (fun c => !c.isWhitespace) s.toList)
    (chunksBy_ne_nil _ _) hchain
  rw [chunksBy_flatten] at hK
  rw [hK]
  have hdrop : ∀ K : List (List Char),
      (∀ g ∈ K, classOf (fun c => !c.isWhitespace) g = false →
        wordRuns g = []) →
      K.flatMap wordRuns =
        (K.filter (fun g =>
          classOf (fun c => !c.isWhitespace) g)).flatMap wordRuns := by
    intro K
    induction K with
    | nil => intro _; rfl
    | cons g K' IHk =>
      intro h
      rw [List.flatMap_cons, List.filter_cons]
      cases hcl : classOf (fun c => !c.isWhitespace) g
      · rw [h g (List.mem_cons_self g K') hcl, List.nil_append,
          IHk (fun z hz => h z (List.mem_cons_of_mem g hz))]
        simp
      · rw [IHk (fun z hz => h z (List.mem_cons_of_mem g hz))]
        simp
  rw [hdrop _ ?ws]
  case ws =>
    intro g hg hcl
    have hne := chunksBy_ne_nil _ s.toList g hg
    have hwchunk : chunksBy isWordChar g = [g] := by
      apply chunksBy_single isWordChar g false hne
      intro x hx
      have hu := chunksBy_uniform (fun c => !c.isWhitespace) s.toList g
        hg x hx
      rw [hcl] at hu
      exact isWordChar_of_whitespace x (by simpa using hu)
    simp only [wordRuns, hwchunk, List.filter_cons]
    match g, hne with
    | c :: g', _ =>
      have hu := chunksBy_uniform (fun c => !c.isWhitespace) s.toList
        (c :: g') hg c (List.mem_cons_self c g')
      rw [hcl] at hu
      have : isWordChar c = false :=
        isWordChar_of_whitespace c (by simpa using hu)
      simp [classOf, this]
  rw [← runsOf_eq_filter_chunks]
  simp only [pySplit]
  rw [flatMap_map_eq]
  rfl

/-- `_normalize_spaces` does not change the word runs. -/
theorem wordRuns_normalize (s : String) :
    wordRuns (normalize_spaces s).toList = wordRuns s.toList := by
  rw [normalize_spaces_eq, wordRuns_joinSpace, ← wordRuns_eq_flatMap_tokens]

/-! Substring apparatus relating `containsSub` to `SubStr`. -/

theorem startsWithChars_self_append :
    ∀ (n v : List Char), startsWithChars n (n ++ v) = true := by
  intro n
  induction n with
  | nil => intro v; rfl
  | cons d n' IH =>
    intro v
    simp [startsWithChars, IH v]

theorem startsWithChars_prefix :
    ∀ (n l : List Char), startsWithChars n l = true → ∃ v, l = n ++ v := by
  intro n
  induction n with
  | nil => intro l _; exact ⟨l, rfl⟩
  | cons d n' IH =>
    intro l h
    match l with
    | [] => simp [startsWithChars] at h
    | c :: cs =>
      simp only [startsWithChars, Bool.and_eq_true, decide_eq_true_eq] at h
      obtain ⟨v, hv⟩ := IH cs h.2
      exact ⟨v, by rw [hv, ← h.1]; rfl⟩

theorem containsSub_nil_left :
    ∀ l : List Char, containsSub [] l = true := by
  intro l
  match l with
  | [] => rfl
  | c :: cs => simp [containsSub, startsWithChars]

theorem containsSub_iff_SubStr (n : List Char) :
    ∀ l : List Char, containsSub n l = true ↔ SubStr n l := by
  intro l
  induction l with
  | nil =>
    constructor
    · intro h
      have hn : n = [] := by simpa [containsSub] using h
      exact ⟨[], [], by simp [hn]⟩
    · rintro ⟨u, v, huv⟩
      have : u = [] ∧ n = [] ∧ v = [] := by
        have h1 := List.append_eq_nil.mp huv.symm
        have h2 := List.append_eq_nil.mp h1.1
        exact ⟨h2.1, h2.2, h1.2⟩
      simp [containsSub, this.2.1]
  | cons c cs IH =>
    constructor
    · intro h
      simp only [containsSub, Bool.or_eq_true] at h
      rcases h with h | h
      · obtain ⟨v, hv⟩ := startsWithChars_prefix n (c :: cs) h
        exact ⟨[], v, by simp [hv]⟩
      · obtain ⟨u, v, huv⟩ := IH.mp h
        exact ⟨c :: u, v, by simp [huv]⟩
    · rintro ⟨u, v, huv⟩
      simp only [containsSub, Bool.or_eq_true]
      match u, huv with
      | [], huv =>
        left
        rw [List.nil_append] at huv
        rw [huv]
        exact startsWithChars_self_append n v
      | b :: u', huv =>
        right
        apply IH.mpr
        refine ⟨u', v, ?_⟩
        have : c :: cs = b :: (u' ++ n ++ v) := by simpa using huv
        exact (List.cons.injEq _ _ _ _ ▸ this).2

theorem SubStr_trans {a b c : List Char}
    (h1 : SubStr a b) (h2 : SubStr b c) : SubStr a c := by
  obtain ⟨u1, v1, h1⟩ := h1
  obtain ⟨u2, v2, h2⟩ := h2
  exact ⟨u2 ++ u1, v1 ++ v2, by rw [h2, h1]; simp [List.append_assoc]⟩

theorem SubStr_map (f : Char → Char) {n l : List Char}
    (h : SubStr n l) : SubStr (n.map f) (l.map f) := by
  obtain ⟨u, v, huv⟩ := h
  exact ⟨u.map f, v.map f, by rw [huv]; simp⟩

theorem SubStr_mem {n l : List Char} (h : SubStr n l) :
    ∀ c ∈ n, c ∈ l := by
  obtain ⟨u, v, huv⟩ := h
  intro c hc
  rw [huv]
  simp [hc]

theorem SubStr_cons {n l : List Char} (c : Char) (h : SubStr n l) :
    SubStr n (c :: l) := by
  obtain ⟨u, v, huv⟩ := h
  exact ⟨c :: u, v, by rw [huv]; rfl⟩

theorem pyLower_toList (s : String) :
    (pyLower s).toList = s.toList.map Char.toLower := rfl

theorem pyLower_append (a b : String) :
    pyLower (a ++ b) = pyLower a ++ pyLower b := by
  simp only [pyLower, String_toList_append, List.map_append]
  rfl

theorem pyLower_joinSpace :
    ∀ parts : List String,
      pyLower (joinSpace parts) = joinSpace (parts.map pyLower) := by
  intro parts
  induction parts with
  | nil => rfl
  | cons x parts' IH =>
    match parts' with
    | [] => rfl
    | y :: parts'' =>
      have h1 : joinSpace (x :: y :: parts'') =
          x ++ " " ++ joinSpace (y :: parts'') := rfl
      have h2 : joinSpace (pyLower x :: (y :: parts'').map pyLower) =
          pyLower x ++ " " ++ joinSpace ((y :: parts'').map pyLower) := rfl
      rw [h1, List.map_cons, h2, pyLower_append, pyLower_append, ← IH]
      rfl

/-- A prefix occurrence of a space-free `n` before the separator lies
inside the first block. -/
theorem SubStr_prefix_space :
    ∀ (n a b : List Char), (∃ v, a ++ ' ' :: b = n ++ v) →
      (∀ c ∈ n, c ≠ ' ') → ∃ w, a = n ++ w := by
  intro n
  induction n with
  | nil => intro a b _ _; exact ⟨a, rfl⟩
  | cons d n' IH =>
    intro a b h hsp
    obtain ⟨v, hv⟩ := h
    match a with
    | [] =>
      exfalso
      have h' : ' ' = d ∧ b = n' ++ v := by simpa using hv
      exact hsp d (List.mem_cons_self d n') h'.1.symm
    | c :: a' =>
      have hcd : c = d ∧ a' ++ ' ' :: b = n' ++ v := by
        constructor
        · have := congrArg List.head? hv
          simpa using this
        · have := congrArg List.tail hv
          simpa using this
      obtain ⟨w, hw⟩ := IH a' b ⟨v, hcd.2⟩
        (fun c hc => hsp c (List.mem_cons_of_mem d hc))
      exact ⟨w, by rw [hcd.1, hw]; rfl⟩

/-- A space-free occurrence cannot straddle a separating space. -/
theorem SubStr_split_space :
    ∀ (a n b : List Char), SubStr n (a ++ ' ' :: b) →
      (∀ c ∈ n, c ≠ ' ') → SubStr n a ∨ SubStr n b := by
  intro a n b h hsp
  obtain ⟨u, v, huv⟩ := h
  induction u generalizing a with
  | nil =>
    left
    rw [List.nil_append] at huv
    obtain ⟨w, hw⟩ := SubStr_prefix_space n a b ⟨v, by rw [huv]⟩ hsp
    exact ⟨[], w, by simp [hw]⟩
  | cons c u' IHu =>
    match a with
    | [] =>
      right
      have hb : b = u' ++ n ++ v := by
        have := congrArg List.tail huv
        simpa using this
      exact ⟨u', v, hb⟩
    | d :: a' =>
      have hda : d = c ∧ a' ++ ' ' :: b = u' ++ n ++ v := by
        constructor
        · have := congrArg List.head? huv
          simpa using this
        · have := congrArg List.tail huv
          simpa using this
      rcases IHu a' hda.2 with h | h
      · left
        obtain ⟨p, q, hpq⟩ := h
        exact ⟨d :: p, q, by rw [hpq]; rfl⟩
      · right
        exact h

theorem SubStr_drop_space (n x : List Char)
    (h : SubStr n (' ' :: x)) (hsp : ∀ c ∈ n, c ≠ ' ') (hn : n ≠ []) :
    SubStr n x := by
  obtain ⟨u, v, huv⟩ := h
  match u with
  | [] =>
    exfalso
    match n, hn with
    | d :: n', _ =>
      have h' : ' ' = d ∧ x = n' ++ v := by simpa using huv
      exact hsp d (List.mem_cons_self d n') h'.1.symm
  | c :: u' =>
    refine ⟨u', v, ?_⟩
    have := congrArg List.tail huv
    simpa using this

/-- A space-free substring of the padded space-join lies inside one of
the parts. -/
theorem SubStr_join (n : List Char) (hn : n ≠ [])
    (hsp : ∀ c ∈ n, c ≠ ' ') :
    ∀ parts : List String,
      SubStr n (' ' :: (joinSpace parts).toList ++ [' ']) →
      ∃ part ∈ parts, SubStr n part.toList := by
  intro parts
  induction parts with
  | nil =>
    intro h
    exfalso
    match n, hn with
    | d :: n', _ =>
      have hd := SubStr_mem h d (List.mem_cons_self d n')
      have hd' : d = ' ' := by simpa [joinSpace] using hd
      exact hsp d (List.mem_cons_self d n') hd'
  | cons x parts' IH =>
    intro h
    match parts' with
    | [] =>
      have hshape : (' ' :: (joinSpace [x]).toList ++ [' ']) =
          (' ' :: x.toList) ++ ' ' :: [] := by
        simp [joinSpace]
      rw [hshape] at h
      rcases SubStr_split_space _ n _ h hsp with h | h
      · exact ⟨x, List.mem_cons_self x [],
          SubStr_drop_space n x.toList h hsp hn⟩
      · exfalso
        obtain ⟨u, v, huv⟩ := h
        have h1 := List.append_eq_nil.mp huv.symm
        exact hn (List.append_eq_nil.mp h1.1).2
    | y :: parts'' =>
      have htl : (joinSpace (x :: y :: parts'')).toList =
          x.toList ++ ' ' :: (joinSpace (y :: parts'')).toList := by
        have hjoin : joinSpace (x :: y :: parts'') =
            x ++ " " ++ joinSpace (y :: parts'') := rfl
        rw [hjoin, String_toList_append, String_toList_append, toList_space]
        simp
      have hshape : (' ' :: (joinSpace (x :: y :: parts'')).toList ++ [' ']) =
          (' ' :: x.toList) ++
            ' ' :: ((joinSpace (y :: parts'')).toList ++ [' ']) := by
        rw [htl]
        simp
      rw [hshape] at h
      rcases SubStr_split_space _ n _ h hsp with h | h
      · exact ⟨x, List.mem_cons_self x _,
          SubStr_drop_space n x.toList h hsp hn⟩
      · obtain ⟨part, hpm, hps⟩ := IH (SubStr_cons ' ' h)
        exact ⟨part, List.mem_cons_of_mem x hpm, hps⟩

theorem wordRuns_SubStr (l : List Char) :
    ∀ g ∈ wordRuns l, SubStr g l := by
  intro g hg
  exact chunksBy_mem_SubStr isWordChar l g (List.mem_filter.mp hg).1

/-- If `t` (already lowercase) does not occur in the lowered text, then
no word run of the text equals `t` ignoring case. -/
theorem no_run_of_not_contains (t qq0 : String) (hlt : pyLower t = t)
    (hc : containsSub t.toList (pyLower qq0).toList = false) :
    ∀ g ∈ wordRuns qq0.toList,
      ¬ g.map Char.toLower = t.toList.map Char.toLower := by
  intro g hg heq
  have hsub := SubStr_map Char.toLower (wordRuns_SubStr qq0.toList g hg)
  rw [heq] at hsub
  have hlt' : t.toList.map Char.toLower = t.toList := by
    have := congrArg String.toList hlt
    rwa [pyLower_toList] at this
  rw [hlt'] at hsub
  have : containsSub t.toList (pyLower qq0).toList = true := by
    rw [containsSub_iff_SubStr]
    rw [pyLower_toList]
    exact hsub
  rw [this] at hc
  exact Bool.noConfusion hc

/-- One step of the inner `for t in found` loop of lines 116-120, with
the membership test `chk` fixed (it reads the original lowered query). -/
def sensFoldStep (chk : String → Bool) (st : String × Bool) (t : String) :
    String × Bool :=
  if chk t then (subWordCI t st.1, true) else st

theorem filterQuery_eq (found : List String) (q : String) :
    filterQuery found q =
      (if normalize_spaces (found.foldl (sensFoldStep (fun t =>
          containsSub t.toList (pyLower (" " ++ q ++ " ")).toList))
          ((" " ++ q ++ " "), false)).1 = "" then none
      else if (found.foldl (sensFoldStep (fun t =>
          containsSub t.toList (pyLower (" " ++ q ++ " ")).toList))
          ((" " ++ q ++ " "), false)).2 = true ∧
          (pySplit (normalize_spaces (found.foldl (sensFoldStep (fun t =>
            containsSub t.toList (pyLower (" " ++ q ++ " ")).toList))
            ((" " ++ q ++ " "), false)).1)).length < 2 then none
      else some (normalize_spaces (found.foldl (sensFoldStep (fun t =>
          containsSub t.toList (pyLower (" " ++ q ++ " ")).toList))
          ((" " ++ q ++ " "), false)).1)) := rfl

theorem optChain_some (E : String × Bool) (q' : String)
    (h : (if normalize_spaces E.1 = "" then (none : Option String)
      else if E.2 = true ∧ (pySplit (normalize_spaces E.1)).length < 2
      then none else some (normalize_spaces E.1)) = some q') :
    normalize_spaces E.1 = q' ∧ q' ≠ "" ∧
      ¬(E.2 = true ∧ (pySplit q').length < 2) := by
  split_ifs at h with h1 h2
  have hq : normalize_spaces E.1 = q' := Option.some.inj h
  exact ⟨hq, by rw [← hq]; exact h1, by rw [← hq]; exact h2⟩

/-- The inner fold: runs only shrink, substituted terms are gone, and
the `changed` flag records whether any membership test fired. -/
theorem sensFold_runs (chk : String → Bool) :
    ∀ (ts : List String) (x : String) (fl : Bool),
      (∀ g ∈ wordRuns (ts.foldl (sensFoldStep chk) (x, fl)).1.toList,
        g ∈ wordRuns x.toList) ∧
      (∀ t ∈ ts, chk t = true →
        ∀ g ∈ wordRuns (ts.foldl (sensFoldStep chk) (x, fl)).1.toList,
          ¬ g.map Char.toLower = t.toList.map Char.toLower) ∧
      ((ts.foldl (sensFoldStep chk) (x, fl)).2 = (fl || ts.any chk)) ∧
      ((∀ t ∈ ts, chk t = false) →
        (ts.foldl (sensFoldStep chk) (x, fl)).1 = x) := by
  intro ts
  induction ts with
  | nil =>
    intro x fl
    exact ⟨fun g hg => hg, by simp, by simp, fun _ => rfl⟩
  | cons t₀ ts' IH =>
    intro x fl
    by_cases hchk : chk t₀ = true
    · have hstep : (t₀ :: ts').foldl (sensFoldStep chk) (x, fl) =
          ts'.foldl (sensFoldStep chk) (subWordCI t₀ x, true) := by
        simp [List.foldl_cons, sensFoldStep, hchk]
      obtain ⟨IH1, IH2, IH3, IH4⟩ := IH (subWordCI t₀ x) true
      rw [hstep]
      refine ⟨?_, ?_, ?_, ?_⟩
      · intro g hg
        have h1 := IH1 g hg
        rw [wordRuns_subWordCI] at h1
        exact (List.mem_filter.mp h1).1
      · intro t ht hct g hg
        rcases List.mem_cons.mp ht with h | h
        · subst h
          have h1 := IH1 g hg
          rw [wordRuns_subWordCI] at h1
          have h2 := (List.mem_filter.mp h1).2
          intro heq
          rw [heq] at h2
          simp at h2
        · exact IH2 t h hct g hg
      · rw [IH3]; simp [hchk]
      · intro hall
        exact absurd hchk (by simp [hall t₀ (List.mem_cons_self t₀ ts')])
    · have hchkf : chk t₀ = false := by simpa using hchk
      have hstep : (t₀ :: ts').foldl (sensFoldStep chk) (x, fl) =
          ts'.foldl (sensFoldStep chk) (x, fl) := by
        simp [List.foldl_cons, sensFoldStep, hchkf]
      obtain ⟨IH1, IH2, IH3, IH4⟩ := IH x fl
      rw [hstep]
      refine ⟨IH1, ?_, ?_,
        fun hall => IH4 (fun t ht => hall t (List.mem_cons_of_mem t₀ ht))⟩
      · intro t ht hct g hg
        rcases List.mem_cons.mp ht with h | h
        · subst h
          rw [hchkf] at hct
          exact Bool.noConfusion hct
        · exact IH2 t h hct g hg
      · rw [IH3]; simp [hchkf]

/-- If no term has a matching word run in `x`, the fold never changes
the text. -/
theorem sensFold_id (chk : String → Bool) :
    ∀ (ts : List String) (x : String) (fl : Bool),
      (∀ t ∈ ts, ∀ g ∈ wordRuns x.toList,
        ¬ g.map Char.toLower = t.toList.map Char.toLower) →
      (ts.foldl (sensFoldStep chk) (x, fl)).1 = x := by
  intro ts
  induction ts with
  | nil => intro x fl _; rfl
  | cons t₀ ts' IH =>
    intro x fl h
    by_cases hchk : chk t₀ = true
    · have hid : subWordCI t₀ x = x :=
        subWordCI_id t₀ x (h t₀ (List.mem_cons_self t₀ ts'))
      have hstep : (t₀ :: ts').foldl (sensFoldStep chk) (x, fl) =
          ts'.foldl (sensFoldStep chk) (x, true) := by
        simp [List.foldl_cons, sensFoldStep, hchk, hid]
      rw [hstep]
      exact IH x true (fun t ht => h t (List.mem_cons_of_mem t₀ ht))
    · have hchkf : chk t₀ = false := by simpa using hchk
      have hstep : (t₀ :: ts').foldl (sensFoldStep chk) (x, fl) =
          ts'.foldl (sensFoldStep chk) (x, fl) := by
        simp [List.foldl_cons, sensFoldStep, hchkf]
      rw [hstep]
      exact IH x fl (fun t ht => h t (List.mem_cons_of_mem t₀ ht))

theorem terms_lower : ∀ t ∈ SENSITIVE_TERMS, pyLower t = t := by decide

theorem terms_ne_nil : ∀ t ∈ SENSITIVE_TERMS, t.toList ≠ [] := by decide

theorem terms_no_space : ∀ t ∈ SENSITIVE_TERMS, ∀ c ∈ t.toList, c ≠ ' ' :=
  by decide

theorem detect_subset (title desc : String) :
    ∀ t ∈ detect_sensitive_terms title desc, t ∈ SENSITIVE_TERMS := by
  intro t ht
  simp only [detect_sensitive_terms] at ht
  have hperm := List.perm_insertionSort (fun a b => a ≤ b)
    (SENSITIVE_TERMS.filter
      (fun t => contains_term (title ++ " " ++ desc) t))
  exact List.mem_of_mem_filter (hperm.mem_iff.mp ht)

theorem pad_toList (s : String) :
    (" " ++ s ++ " ").toList = ' ' :: s.toList ++ [' '] := by
  rw [String_toList_append, String_toList_append, toList_space]
  simp

/-- A query text produced by the filtering loop is a fixed point of
the loop: filtering it again returns it unchanged. -/
theorem filterQuery_fix (found : List String)
    (hfound : ∀ t ∈ found, t ∈ SENSITIVE_TERMS) (q q' : String)
    (h : filterQuery found q = some q') :
    filterQuery found q' = some q' := by
  rw [filterQuery_eq] at h
  obtain ⟨hq, hne, hno2⟩ := optChain_some _ _ h
  obtain ⟨A1, A2, A3, A4⟩ := sensFold_runs
    (fun t => containsSub t.toList (pyLower (" " ++ q ++ " ")).toList)
    found (" " ++ q ++ " ") false
  have havoid : ∀ t ∈ found,
      ∀ g ∈ wordRuns (found.foldl (sensFoldStep (fun t =>
        containsSub t.toList (pyLower (" " ++ q ++ " ")).toList))
        ((" " ++ q ++ " "), false)).1.toList,
      ¬ g.map Char.toLower = t.toList.map Char.toLower := by
    intro t ht g hg heq
    by_cases hchk : containsSub t.toList
        (pyLower (" " ++ q ++ " ")).toList = true
    · exact A2 t ht hchk g hg heq
    · have hchkf : containsSub t.toList
          (pyLower (" " ++ q ++ " ")).toList = false := by simpa using hchk
      exact no_run_of_not_contains t (" " ++ q ++ " ")
        (terms_lower t (hfound t ht)) hchkf g (A1 g hg) heq
  have hqruns : wordRuns (" " ++ q' ++ " ").toList =
      wordRuns (found.foldl (sensFoldStep (fun t =>
        containsSub t.toList (pyLower (" " ++ q ++ " ")).toList))
        ((" " ++ q ++ " "), false)).1.toList := by
    rw [pad_toList, wordRuns_pad, ← hq, wordRuns_normalize]
  have havoid' : ∀ t ∈ found,
      ∀ g ∈ wordRuns (" " ++ q' ++ " ").toList,
      ¬ g.map Char.toLower = t.toList.map Char.toLower := by
    intro t ht g hg
    rw [hqruns] at hg
    exact havoid t ht g hg
  have hr21 : (found.foldl (sensFoldStep (fun t =>
      containsSub t.toList (pyLower (" " ++ q' ++ " ")).toList))
      ((" " ++ q' ++ " "), false)).1 = " " ++ q' ++ " " :=
    sensFold_id _ found _ false havoid'
  have hnorm : normalize_spaces (found.foldl (sensFoldStep (fun t =>
      containsSub t.toList (pyLower (" " ++ q' ++ " ")).toList))
      ((" " ++ q' ++ " "), false)).1 = q' := by
    rw [hr21, ← hq, normalize_spaces_pad, hq]
  rw [filterQuery_eq, if_neg (by rw [hnorm]; exact fun hcc => hne hcc),
    if_neg ?hdrop, hnorm]
  case hdrop =>
    rw [hnorm]
    intro hcon
    by_cases hr12 : (found.foldl (sensFoldStep (fun t =>
        containsSub t.toList (pyLower (" " ++ q ++ " ")).toList))
        ((" " ++ q ++ " "), false)).2 = true
    · exact hno2 ⟨hr12, hcon.2⟩
    · have hany : found.any (fun t =>
          containsSub t.toList (pyLower (" " ++ q ++ " ")).toList) =
            false := by
        rw [A3] at hr12
        simpa using hr12
      have hallf : ∀ t ∈ found, containsSub t.toList
          (pyLower (" " ++ q ++ " ")).toList = false := by
        intro t ht
        by_contra h'
        have : found.any (fun t => containsSub t.toList
            (pyLower (" " ++ q ++ " ")).toList) = true :=
          List.any_eq_true.mpr ⟨t, ht, by simpa using h'⟩
        rw [hany] at this
        exact Bool.noConfusion this
      obtain ⟨_, _, B3, _⟩ := sensFold_runs (fun t =>
        containsSub t.toList (pyLower (" " ++ q' ++ " ")).toList)
        found (" " ++ q' ++ " ") false
      have hch2 : ∀ t ∈ found, containsSub t.toList
          (pyLower (" " ++ q' ++ " ")).toList = false := by
        intro t ht
        by_contra hcc
        have hcc' : containsSub t.toList
            (pyLower (" " ++ q' ++ " ")).toList = true := by
          simpa using hcc
        have hsub : SubStr t.toList (pyLower (" " ++ q' ++ " ")).toList :=
          (containsSub_iff_SubStr _ _).mp hcc'
        have hpadlower : pyLower (" " ++ q' ++ " ") =
            " " ++ pyLower q' ++ " " := by
          rw [pyLower_append, pyLower_append]; rfl
        rw [hpadlower, pad_toList] at hsub
        have hr11 : (found.foldl (sensFoldStep (fun t =>
            containsSub t.toList (pyLower (" " ++ q ++ " ")).toList))
            ((" " ++ q ++ " "), false)).1 = " " ++ q ++ " " := A4 hallf
        have hq'' : q' = normalize_spaces (" " ++ q ++ " ") := by
          rw [← hq, hr11]
        have hlow : pyLower q' =
            joinSpace ((pySplit (" " ++ q ++ " ")).map pyLower) := by
          rw [hq'', normalize_spaces_eq, pyLower_joinSpace]
        rw [hlow] at hsub
        obtain ⟨part, hpm, hps⟩ := SubStr_join t.toList
          (terms_ne_nil t (hfound t ht)) (terms_no_space t (hfound t ht))
          _ hsub
        obtain ⟨x, hx, hxl⟩ := List.mem_map.mp hpm
        rw [← hxl, pyLower_toList] at hps
        have hxs : SubStr x.toList (" " ++ q ++ " ").toList :=
          pySplit_SubStr _ x hx
        have hxs' : SubStr (x.toList.map Char.toLower)
            ((" " ++ q ++ " ").toList.map Char.toLower) :=
          SubStr_map Char.toLower hxs
        have htrans := SubStr_trans hps hxs'
        have hcontra : containsSub t.toList
            (pyLower (" " ++ q ++ " ")).toList = true := by
          rw [containsSub_iff_SubStr, pyLower_toList]
          exact htrans
        rw [hallf t ht] at hcontra
        exact Bool.noConfusion hcontra
      have hflag : (found.foldl (sensFoldStep (fun t =>
          containsSub t.toList (pyLower (" " ++ q' ++ " ")).toList))
          ((" " ++ q' ++ " "), false)).2 = false := by
        rw [B3, Bool.false_or]
        by_contra h'
        have h'' : found.any (fun t => containsSub t.toList
            (pyLower (" " ++ q' ++ " ")).toList) = true := by
          simpa using h'
        obtain ⟨t, ht, htc⟩ := List.any_eq_true.mp h''
        rw [hch2 t ht] at htc
        exact Bool.noConfusion htc
      rw [hflag] at hcon
      exact Bool.noConfusion hcon.1

/-- The text a proxy entry takes for base string `b` under location
string `pre` (lines 140-144). -/
def proxyStr (pre b : String) : String :=
  if pre ≠ "" then normalize_spaces (pre ++ " " ++ normalize_spaces b)
  else normalize_spaces b

theorem proxiesOf_mem (found : List String) (pre : String) :
    ∀ x ∈ proxiesOf found pre,
      ∃ b ∈ found.flatMap SENSITIVE_PROXY_QUERIES, x = proxyStr pre b := by
  intro x hx
  simp only [proxiesOf] at hx
  by_cases hf : found ≠ []
  · rw [if_pos hf] at hx
    have hgen : ∀ (raw : List String) (acc : List String × List String),
        x ∈ (raw.foldl (proxyStep pre) acc).2 →
        x ∈ acc.2 ∨ ∃ b ∈ raw, x = proxyStr pre b := by
      intro raw
      induction raw with
      | nil => intro acc h; exact Or.inl h
      | cons p raw' IH =>
        intro acc h
        rw [List.foldl_cons] at h
        have hcases : proxyStep pre acc p = acc ∨
            (proxyStep pre acc p).2 = acc.2 ++ [proxyStr pre p] := by
          simp only [proxyStep, proxyStr]
          by_cases h0 : normalize_spaces p = ""
          · rw [if_pos h0]; exact Or.inl rfl
          · rw [if_neg h0]
            by_cases h1 : pyLower (if pre ≠ "" then
                normalize_spaces (pre ++ " " ++ normalize_spaces p)
                else normalize_spaces p) ∈ acc.1
            · rw [if_pos h1]; exact Or.inl rfl
            · rw [if_neg h1]; exact Or.inr rfl
        rcases hcases with hcase | hcase
        · rw [hcase] at h
          rcases IH acc h with h' | ⟨b, hb, he⟩
          · exact Or.inl h'
          · exact Or.inr ⟨b, List.mem_cons_of_mem p hb, he⟩
        · rcases IH _ h with h' | ⟨b, hb, he⟩
          · rw [hcase] at h'
            rcases List.mem_append.mp h' with h'' | h''
            · exact Or.inl h''
            · exact Or.inr ⟨p, List.mem_cons_self p raw',
                by simpa using h''⟩
          · exact Or.inr ⟨b, List.mem_cons_of_mem p hb, he⟩
    rcases hgen _ ([], []) hx with h | h
    · exact absurd h (List.not_mem_nil x)
    · exact h
  · rw [if_neg hf] at hx
    exact absurd hx (List.not_mem_nil x)

/-- The location string is one of four fixed values. -/
theorem location_prefix_cases (title desc : String) :
    location_prefix' title desc ∈
      (["", "new york city", "los angeles", "washington dc"] :
        List String) := by
  simp only [location_prefix']
  split_ifs <;> simp

/-- Finite table check: every concrete proxy string is non-empty and,
padded with spaces and lowered, contains no sensitive term. -/
theorem proxy_table_check :
    ((["", "new york city", "los angeles", "washington dc"] :
        List String).all fun pre =>
      (SENSITIVE_TERMS.flatMap SENSITIVE_PROXY_QUERIES).all fun b =>
        (decide (proxyStr pre b ≠ "")) &&
        (SENSITIVE_TERMS.all fun t =>
          !(containsSub t.toList
            (pyLower (" " ++ proxyStr pre b ++ " ")).toList))) = true := by
  decide

/-- A proxy query passes the filtering loop unchanged. -/
theorem filterQuery_proxy (found : List String)
    (hfound : ∀ t ∈ found, t ∈ SENSITIVE_TERMS) (pre : String)
    (hpre : pre ∈ (["", "new york city", "los angeles", "washington dc"] :
      List String)) :
    ∀ p' ∈ proxiesOf found pre, filterQuery found p' = some p' := by
  intro p' hp'
  obtain ⟨b, hb, hpb⟩ := proxiesOf_mem found pre p' hp'
  have hbases : b ∈ SENSITIVE_TERMS.flatMap SENSITIVE_PROXY_QUERIES := by
    obtain ⟨t, ht, hbt⟩ := List.mem_flatMap.mp hb
    exact List.mem_flatMap.mpr ⟨t, hfound t ht, hbt⟩
  have h1 := List.all_eq_true.mp proxy_table_check pre hpre
  have h2 := List.all_eq_true.mp h1 b hbases
  have h2' : (decide (proxyStr pre b ≠ "")) = true ∧
      (SENSITIVE_TERMS.all fun t =>
        !(containsSub t.toList
          (pyLower (" " ++ proxyStr pre b ++ " ")).toList)) = true := by
    constructor
    · exact (Bool.and_eq_true _ _ ▸ h2).1
    · exact (Bool.and_eq_true _ _ ▸ h2).2
  obtain ⟨hne', hterms⟩ := h2'
  have hpne : p' ≠ "" := by
    rw [hpb]
    exact of_decide_eq_true hne'
  have hallf : ∀ t ∈ found, containsSub t.toList
      (pyLower (" " ++ p' ++ " ")).toList = false := by
    intro t ht
    have h3 := List.all_eq_true.mp hterms t (hfound t ht)
    rw [hpb]
    simpa using h3
  obtain ⟨A1, A2, A3, A4⟩ := sensFold_runs
    (fun t => containsSub t.toList (pyLower (" " ++ p' ++ " ")).toList)
    found (" " ++ p' ++ " ") false
  have hr1 : (found.foldl (sensFoldStep (fun t =>
      containsSub t.toList (pyLower (" " ++ p' ++ " ")).toList))
      ((" " ++ p' ++ " "), false)).1 = " " ++ p' ++ " " := A4 hallf
  have hflag : (found.foldl (sensFoldStep (fun t =>
      containsSub t.toList (pyLower (" " ++ p' ++ " ")).toList))
      ((" " ++ p' ++ " "), false)).2 = false := by
    rw [A3, Bool.false_or]
    by_contra h'
    have h'' : found.any (fun t => containsSub t.toList
        (pyLower (" " ++ p' ++ " ")).toList) = true := by simpa using h'
    obtain ⟨t, ht, htc⟩ := List.any_eq_true.mp h''
    rw [hallf t ht] at htc
    exact Bool.noConfusion htc
  have hXnorm : ∃ X, p' = normalize_spaces X := by
    rw [hpb]
    simp only [proxyStr]
    by_cases hpre' : pre ≠ ""
    · exact ⟨pre ++ " " ++ normalize_spaces b, by rw [if_pos hpre']⟩
    · exact ⟨b, by rw [if_neg hpre']⟩
  obtain ⟨X, hX⟩ := hXnorm
  have hnorm : normalize_spaces (found.foldl (sensFoldStep (fun t =>
      containsSub t.toList (pyLower (" " ++ p' ++ " ")).toList))
      ((" " ++ p' ++ " "), false)).1 = p' := by
    rw [hr1, hX, normalize_spaces_pad]
  rw [filterQuery_eq, if_neg (by rw [hnorm]; exact fun hcc => hpne hcc),
    if_neg ?hdrop2, hnorm]
  case hdrop2 =>
    intro hcon
    rw [hflag] at hcon
    exact Bool.noConfusion hcon.1

/-! Assembly lemmas for the outer loops of
`apply_sensitive_query_policy`. -/

theorem filterQuery_some_norm (found : List String) (q q' : String)
    (h : filterQuery found q = some q') :
    pyStrip q' = q' ∧ q' ≠ "" := by
  rw [filterQuery_eq] at h
  obtain ⟨hq, hne, _⟩ := optChain_some _ _ h
  exact ⟨by rw [← hq, pyStrip_normalize_spaces], hne⟩

theorem filterFold_mem (found orig : List String) :
    ∀ x ∈ (filterFold found orig).1,
      ∃ q ∈ orig, filterQuery found q = some x := by
  intro x hx
  have hgen : ∀ (raw : List String) (acc : List String × List String),
      x ∈ (raw.foldl (filterFoldStep found) acc).1 →
      x ∈ acc.1 ∨ ∃ q ∈ raw, filterQuery found q = some x := by
    intro raw
    induction raw with
    | nil => intro acc h; exact Or.inl h
    | cons q raw' IH =>
      intro acc h
      rw [List.foldl_cons] at h
      match hfq : filterQuery found q with
      | none =>
        have hstep : filterFoldStep found acc q = (acc.1, acc.2 ++ [q]) := by
          simp [filterFoldStep, hfq]
        rw [hstep] at h
        rcases IH _ h with h' | ⟨q₀, hq₀, he⟩
        · exact Or.inl h'
        · exact Or.inr ⟨q₀, List.mem_cons_of_mem q hq₀, he⟩
      | some qq =>
        by_cases hin : qq ∈ acc.1
        · have hstep : filterFoldStep found acc q = acc := by
            simp [filterFoldStep, hfq, hin]
          rw [hstep] at h
          rcases IH _ h with h' | ⟨q₀, hq₀, he⟩
          · exact Or.inl h'
          · exact Or.inr ⟨q₀, List.mem_cons_of_mem q hq₀, he⟩
        · have hstep : filterFoldStep found acc q =
              (acc.1 ++ [qq], acc.2) := by
            simp [filterFoldStep, hfq, hin]
          rw [hstep] at h
          rcases IH _ h with h' | ⟨q₀, hq₀, he⟩
          · rcases List.mem_append.mp h' with h'' | h''
            · exact Or.inl h''
            · exact Or.inr ⟨q, List.mem_cons_self q raw',
                by rw [hfq]; congr 1; symm; simpa using h''⟩
          · exact Or.inr ⟨q₀, List.mem_cons_of_mem q hq₀, he⟩
  rcases hgen orig ([], []) hx with h | h
  · exact absurd h (List.not_mem_nil x)
  · exact h

theorem filterFold_nodup (found orig : List String) :
    (filterFold found orig).1.Nodup := by
  have hgen : ∀ (raw : List String) (acc : List String × List String),
      acc.1.Nodup → (raw.foldl (filterFoldStep found) acc).1.Nodup := by
    intro raw
    induction raw with
    | nil => intro acc h; exact h
    | cons q raw' IH =>
      intro acc h
      rw [List.foldl_cons]
      match hfq : filterQuery found q with
      | none =>
        have hstep : filterFoldStep found acc q = (acc.1, acc.2 ++ [q]) := by
          simp [filterFoldStep, hfq]
        rw [hstep]
        exact IH _ h
      | some qq =>
        by_cases hin : qq ∈ acc.1
        · have hstep : filterFoldStep found acc q = acc := by
            simp [filterFoldStep, hfq, hin]
          rw [hstep]
          exact IH _ h
        · have hstep : filterFoldStep found acc q =
              (acc.1 ++ [qq], acc.2) := by
            simp [filterFoldStep, hfq, hin]
          rw [hstep]
          apply IH
          exact List.Nodup.append h (List.nodup_singleton qq)
            (fun a ha hb => hin (by rw [← List.mem_singleton.mp hb]; exact ha))
  exact hgen orig ([], []) List.nodup_nil

theorem filterFold_id (found : List String) :
    ∀ (l : List String) (acc : List String × List String),
      (∀ q ∈ l, filterQuery found q = some q) →
      (∀ q ∈ l, q ∉ acc.1) → l.Nodup →
      l.foldl (filterFoldStep found) acc = (acc.1 ++ l, acc.2) := by
  intro l
  induction l with
  | nil => intro acc _ _ _; simp
  | cons q l' IH =>
    intro acc hfix hnotin hnodup
    rw [List.foldl_cons]
    have hstep : filterFoldStep found acc q = (acc.1 ++ [q], acc.2) := by
      simp [filterFoldStep, hfix q (List.mem_cons_self q l'),
        hnotin q (List.mem_cons_self q l')]
    rw [hstep, IH (acc.1 ++ [q], acc.2)
      (fun x hx => hfix x (List.mem_cons_of_mem q hx))
      (by
        intro x hx hmem
        rcases List.mem_append.mp hmem with h | h
        · exact hnotin x (List.mem_cons_of_mem q hx) h
        · have : x = q := List.mem_singleton.mp h
          rw [this] at hx
          exact (List.nodup_cons.mp hnodup).1 hx)
      (List.nodup_cons.mp hnodup).2]
    simp

theorem combineGo_frozen (m : Int) :
    ∀ (l : List String) (acc : List String),
      l.foldl (combineStep m) (acc, true) = (acc, true) := by
  intro l
  induction l with
  | nil => intro acc; rfl
  | cons q l' IH =>
    intro acc
    rw [List.foldl_cons]
    have hstep : combineStep m (acc, true) q = (acc, true) := by
      simp [combineStep]
    rw [hstep, IH]

theorem combineGo_closed (m : Int) (_hm : 1 ≤ m) :
    ∀ (l : List String) (acc : List String),
      (acc.length : Int) < m →
      (l.foldl (combineStep m) (acc, false)).1 =
        acc ++ l.take (m - acc.length).toNat := by
  intro l
  induction l with
  | nil => intro acc _; simp
  | cons q l' IH =>
    intro acc hlen
    rw [List.foldl_cons]
    by_cases hfull : m ≤ (acc.length : Int) + 1
    · have hstep : combineStep m (acc, false) q = (acc ++ [q], true) := by
        simp only [combineStep, if_neg (by simp : ¬ false = true)]
        congr 1
        simp only [List.length_append, List.length_singleton]
        rw [decide_eq_true_eq]
        push_cast
        omega
      rw [hstep, combineGo_frozen]
      have h1 : (m - acc.length).toNat = 1 := by omega
      rw [h1]
      simp
    · have hstep : combineStep m (acc, false) q = (acc ++ [q], false) := by
        simp only [combineStep, if_neg (by simp : ¬ false = true)]
        congr 1
        simp only [List.length_append, List.length_singleton]
        rw [decide_eq_false_iff_not]
        omega
      rw [hstep, IH (acc ++ [q]) (by simp; omega)]
      have h1 : (m - (acc ++ [q]).length).toNat =
          (m - acc.length).toNat - 1 := by
        simp only [List.length_append, List.length_singleton]
        omega
      have h2 : (q :: l').take (m - acc.length).toNat =
          q :: l'.take ((m - acc.length).toNat - 1) := by
        have h3 : (m - acc.length).toNat = ((m - acc.length).toNat - 1) + 1 :=
          by omega
        rw [h3, List.take_succ_cons]
        simp
      rw [h2, h1]
      simp

theorem combineTake_closed (m : Int) (l : List String) :
    combineTake m l = l.take (max 1 m).toNat := by
  by_cases hm : 1 ≤ m
  · have h1 : (max 1 m).toNat = m.toNat := by omega
    rw [h1]
    simp only [combineTake]
    have h2 : (m - (([] : List String).length : Int)).toNat = m.toNat := by
      simp
    rw [combineGo_closed m hm l [] (by simp; omega), h2, List.nil_append]
  · have h1 : (max 1 m).toNat = 1 := by omega
    rw [h1]
    match l with
    | [] => rfl
    | q :: l' =>
      simp only [combineTake, List.foldl_cons]
      have hstep : combineStep m ([], false) q = ([q], true) := by
        simp only [combineStep, if_neg (by simp : ¬ false = true)]
        congr 1
        simp
        omega
      rw [hstep, combineGo_frozen]
      simp

theorem addProxyGo_frozen (m : Int) :
    ∀ (ps : List String) (c : List String),
      addProxiesGo m ps (c, true) = (c, true) := by
  intro ps
  induction ps with
  | nil => intro c; rfl
  | cons p ps' IH =>
    intro c
    simp only [addProxiesGo, List.foldl_cons]
    have hstep : addProxyStep m (c, true) p = (c, true) := by
      simp [addProxyStep]
    rw [hstep]
    exact IH c

theorem addProxyStep_cases (m : Int) (c : List String) (p : String) :
    addProxyStep m (c, false) p =
      (if p ∈ c then c else c ++ [p],
        decide (m ≤ ((if p ∈ c then c else c ++ [p]).length : Int))) := by
  simp [addProxyStep]

theorem addProxyGo_len (m : Int) :
    ∀ (ps : List String) (c : List String), (c.length : Int) < m →
      ((addProxiesGo m ps (c, false)).1.length : Int) ≤ m := by
  intro ps
  induction ps with
  | nil => intro c h; exact le_of_lt h
  | cons p ps' IH =>
    intro c h
    simp only [addProxiesGo, List.foldl_cons] at *
    rw [addProxyStep_cases]
    by_cases hfl : m ≤ ((if p ∈ c then c else c ++ [p]).length : Int)
    · rw [decide_eq_true hfl]
      have hfr := addProxyGo_frozen m ps' (if p ∈ c then c else c ++ [p])
      simp only [addProxiesGo] at hfr
      rw [hfr]
      show ((if p ∈ c then c else c ++ [p]).length : Int) ≤ m
      by_cases hin : p ∈ c
      · rw [if_pos hin]; omega
      · rw [if_neg hin, List.length_append, List.length_singleton]
        push_cast
        omega
    · rw [decide_eq_false hfl]
      apply IH
      omega

theorem addProxyGo_mono (m : Int) :
    ∀ (ps : List String) (c : List String) (fl : Bool),
      ∀ x ∈ c, x ∈ (addProxiesGo m ps (c, fl)).1 := by
  intro ps
  induction ps with
  | nil => intro c fl x hx; exact hx
  | cons p ps' IH =>
    intro c fl x hx
    simp only [addProxiesGo, List.foldl_cons]
    match fl with
    | true =>
      have hstep : addProxyStep m (c, true) p = (c, true) := by
        simp [addProxyStep]
      rw [hstep]
      have := IH c true x hx
      simpa [addProxiesGo] using this
    | false =>
      rw [addProxyStep_cases]
      have hx' : x ∈ (if p ∈ c then c else c ++ [p]) := by
        by_cases hin : p ∈ c
        · simpa [hin] using hx
        · simp [hin]
          exact Or.inl hx
      have := IH (if p ∈ c then c else c ++ [p])
        (decide (m ≤ ((if p ∈ c then c else c ++ [p]).length : Int))) x hx'
      simpa [addProxiesGo] using this

theorem addProxyGo_complete (m : Int) :
    ∀ (ps : List String) (c : List String),
      ((addProxiesGo m ps (c, false)).1.length : Int) < m →
      ∀ p ∈ ps, p ∈ (addProxiesGo m ps (c, false)).1 := by
  intro ps
  induction ps with
  | nil => intro c _ p hp; exact absurd hp (List.not_mem_nil p)
  | cons p₀ ps' IH =>
    intro c hlen p hp
    simp only [addProxiesGo, List.foldl_cons] at *
    rw [addProxyStep_cases] at *
    by_cases hfl : m ≤ ((if p₀ ∈ c then c else c ++ [p₀]).length : Int)
    · rw [decide_eq_true hfl] at hlen
      have hfr := addProxyGo_frozen m ps' (if p₀ ∈ c then c else c ++ [p₀])
      simp only [addProxiesGo] at hfr
      rw [hfr] at hlen
      have hlen' : ((if p₀ ∈ c then c else c ++ [p₀]).length : Int) < m :=
        hlen
      omega
    · rw [decide_eq_false hfl] at hlen ⊢
      rcases List.mem_cons.mp hp with h | h
      · subst h
        have hpin : p ∈ (if p ∈ c then c else c ++ [p]) := by
          by_cases hin : p ∈ c
          · simp [hin]
          · simp [hin]
        have := addProxyGo_mono m ps' (if p ∈ c then c else c ++ [p])
          false p hpin
        simpa [addProxiesGo] using this
      · exact IH _ hlen p h

theorem addProxyGo_subset (m : Int) :
    ∀ (ps : List String) (c : List String) (fl : Bool),
      ∀ x ∈ (addProxiesGo m ps (c, fl)).1, x ∈ c ∨ x ∈ ps := by
  intro ps
  induction ps with
  | nil => intro c fl x hx; exact Or.inl hx
  | cons p ps' IH =>
    intro c fl x hx
    simp only [addProxiesGo, List.foldl_cons] at hx
    match fl with
    | true =>
      have hstep : addProxyStep m (c, true) p = (c, true) := by
        simp [addProxyStep]
      rw [hstep] at hx
      rcases IH c true x (by simpa [addProxiesGo] using hx) with h | h
      · exact Or.inl h
      · exact Or.inr (List.mem_cons_of_mem p h)
    | false =>
      rw [addProxyStep_cases] at hx
      rcases IH (if p ∈ c then c else c ++ [p])
        (decide (m ≤ ((if p ∈ c then c else c ++ [p]).length : Int))) x
        (by simpa [addProxiesGo] using hx) with h | h
      · by_cases hin : p ∈ c
        · rw [if_pos hin] at h
          exact Or.inl h
        · rw [if_neg hin] at h
          rcases List.mem_append.mp h with h' | h'
          · exact Or.inl h'
          · exact Or.inr (by
              rw [List.mem_singleton.mp h']
              exact List.mem_cons_self p ps')
      · exact Or.inr (List.mem_cons_of_mem p h)

theorem addProxyGo_nodup (m : Int) :
    ∀ (ps : List String) (c : List String) (fl : Bool),
      c.Nodup → (addProxiesGo m ps (c, fl)).1.Nodup := by
  intro ps
  induction ps with
  | nil => intro c fl h; exact h
  | cons p ps' IH =>
    intro c fl h
    simp only [addProxiesGo, List.foldl_cons]
    match fl with
    | true =>
      have hstep : addProxyStep m (c, true) p = (c, true) := by
        simp [addProxyStep]
      rw [hstep]
      have := IH c true h
      simpa [addProxiesGo] using this
    | false =>
      rw [addProxyStep_cases]
      have hnd : (if p ∈ c then c else c ++ [p]).Nodup := by
        by_cases hin : p ∈ c
        · simpa [hin] using h
        · rw [if_neg hin]
          exact List.Nodup.append h (List.nodup_singleton p)
            (fun a ha hb => hin (by rw [← List.mem_singleton.mp hb]; exact ha))
      have := IH (if p ∈ c then c else c ++ [p])
        (decide (m ≤ ((if p ∈ c then c else c ++ [p]).length : Int))) hnd
      simpa [addProxiesGo] using this

theorem addProxyGo_id (m : Int) :
    ∀ (ps : List String) (c : List String), (c.length : Int) < m →
      (∀ p ∈ ps, p ∈ c) → addProxiesGo m ps (c, false) = (c, false) := by
  intro ps
  induction ps with
  | nil => intro c _ _; rfl
  | cons p ps' IH =>
    intro c hlen hall
    simp only [addProxiesGo, List.foldl_cons]
    have hstep : addProxyStep m (c, false) p = (c, false) := by
      rw [addProxyStep_cases, if_pos (hall p (List.mem_cons_self p ps'))]
      congr 1
      rw [decide_eq_false_iff_not]
      omega
    rw [hstep]
    have := IH c hlen (fun x hx => hall x (List.mem_cons_of_mem p hx))
    simpa [addProxiesGo] using this

theorem addProxies_subset (m : Int) (c ps : List String) :
    ∀ x ∈ addProxies m c ps, x ∈ c ∨ x ∈ ps := by
  intro x hx
  simp only [addProxies] at hx
  by_cases hlt : (c.length : Int) < m
  · rw [if_pos hlt] at hx
    exact addProxyGo_subset m ps c false x hx
  · rw [if_neg hlt] at hx
    exact Or.inl hx

theorem addProxies_nodup (m : Int) (c ps : List String) (h : c.Nodup) :
    (addProxies m c ps).Nodup := by
  simp only [addProxies]
  by_cases hlt : (c.length : Int) < m
  · rw [if_pos hlt]
    exact addProxyGo_nodup m ps c false h
  · rw [if_neg hlt]
    exact h

theorem apply_fst_eq (title desc : String) (queries : List String)
    (max_q : Int) :
    (apply_sensitive_query_policy title desc queries max_q).1 =
      addProxies max_q (combineTake max_q
        (filterFold (detect_sensitive_terms title desc)
          (queries.filter (fun q => pyStrip q ≠ ""))).1)
        (proxiesOf (detect_sensitive_terms title desc)
          (location_prefix' title desc)) := rfl

/-- Core idempotence: re-running the combine pipeline on its own output
returns the output, provided every filtered query and every proxy is a
fixed point of the filtering loop. -/
theorem applyCore_idem (found : List String)
    (_hfound : ∀ t ∈ found, t ∈ SENSITIVE_TERMS)
    (P : List String) (hPfix : ∀ p ∈ P, filterQuery found p = some p)
    (F : List String) (hFfix : ∀ x ∈ F, filterQuery found x = some x)
    (hFnodup : F.Nodup) (max_q : Int) :
    addProxies max_q (combineTake max_q
      ((filterFold found
        ((addProxies max_q (combineTake max_q F) P).filter
          (fun q => pyStrip q ≠ ""))).1)) P =
    addProxies max_q (combineTake max_q F) P := by
  have hc1sub : ∀ x ∈ combineTake max_q F, x ∈ F := by
    intro x hx
    rw [combineTake_closed] at hx
    exact List.take_subset _ _ hx
  have hc1nodup : (combineTake max_q F).Nodup := by
    rw [combineTake_closed]
    exact hFnodup.sublist (List.take_sublist _ _)
  have hCfix : ∀ x ∈ addProxies max_q (combineTake max_q F) P,
      filterQuery found x = some x := by
    intro x hx
    rcases addProxies_subset max_q _ P x hx with h | h
    · exact hFfix x (hc1sub x h)
    · exact hPfix x h
  have hCnodup := addProxies_nodup max_q (combineTake max_q F) P hc1nodup
  have hClen : (addProxies max_q (combineTake max_q F) P).length ≤
      (max 1 max_q).toNat := by
    simp only [addProxies]
    by_cases hc1lt : ((combineTake max_q F).length : Int) < max_q
    · rw [if_pos hc1lt]
      have h1 := addProxyGo_len max_q P (combineTake max_q F) hc1lt
      omega
    · rw [if_neg hc1lt, combineTake_closed, List.length_take]
      omega
  have hPC : ((addProxies max_q (combineTake max_q F) P).length : Int) <
      max_q → ∀ p ∈ P, p ∈ addProxies max_q (combineTake max_q F) P := by
    intro hlt p hp
    simp only [addProxies] at hlt ⊢
    by_cases hc1lt : ((combineTake max_q F).length : Int) < max_q
    · rw [if_pos hc1lt] at hlt ⊢
      exact addProxyGo_complete max_q P _ hlt p hp
    · rw [if_neg hc1lt] at hlt
      exact absurd hlt hc1lt
  generalize hC : addProxies max_q (combineTake max_q F) P = C
    at hCfix hCnodup hClen hPC ⊢
  have horig : C.filter (fun q => pyStrip q ≠ "") = C := by
    apply List.filter_eq_self.mpr
    intro x hx
    obtain ⟨h1, h2⟩ := filterQuery_some_norm found x x (hCfix x hx)
    simp [h1, h2]
  rw [horig]
  have hFF : (filterFold found C).1 = C := by
    have h := filterFold_id found C ([], [])
      (fun q hq => hCfix q hq) (fun q _ => List.not_mem_nil q) hCnodup
    simp only [filterFold]
    rw [h]
    simp
  rw [hFF]
  have hCT : combineTake max_q C = C := by
    rw [combineTake_closed]
    exact List.take_of_length_le hClen
  rw [hCT]
  simp only [addProxies]
  by_cases hlt : (C.length : Int) < max_q
  · rw [if_pos hlt]
    rw [addProxyGo_id max_q P C hlt (hPC hlt)]
  · rw [if_neg hlt]

/-- C8: `apply_sensitive_query_policy` is idempotent in its query-list
output: for every title, description, query list and `max_q`, feeding
the returned (filtered plus proxies, capped) query list back into the
policy with the same title, description and `max_q` yields the same
list again. -/
theorem C8_apply_sensitive_query_policy_idempotent
    (title desc : String) (queries : List String) (max_q : Int) :
    (apply_sensitive_query_policy title desc
      (apply_sensitive_query_policy title desc queries max_q).1 max_q).1 =
    (apply_sensitive_query_policy title desc queries max_q).1 := by
  rw [apply_fst_eq title desc queries max_q]
  rw [apply_fst_eq]
  exact applyCore_idem (detect_sensitive_terms title desc)
    (detect_subset title desc)
    (proxiesOf (detect_sensitive_terms title desc)
      (location_prefix' title desc))
    (filterQuery_proxy (detect_sensitive_terms title desc)
      (detect_subset title desc) (location_prefix' title desc)
      (location_prefix_cases title desc))
    (filterFold (detect_sensitive_terms title desc)
      (queries.filter (fun q => pyStrip q ≠ ""))).1
    (by
      intro x hx
      obtain ⟨q, _, he⟩ := filterFold_mem (detect_sensitive_terms title desc)
        (queries.filter (fun q => pyStrip q ≠ "")) x hx
      exact filterQuery_fix (detect_sensitive_terms title desc)
        (detect_subset title desc) q x he)
    (filterFold_nodup (detect_sensitive_terms title desc)
      (queries.filter (fun q => pyStrip q ≠ "")))
    max_q

end Newsroom
